import Mathlib

/-!
Verification of the lock-based concurrent red-black tree
(`src/include/lock_based_rb_tree.hpp` and the variants in
`src/race_free_rb_tree.cpp`, `src/epoch_based_rb_tree.cpp`,
`src/lock_based_rb_tree.cpp`).

The tree is embedded shallowly.  A heap node `Node<K,V>` carries
`key`, `val`, `color` and `parent/left/right` pointers, every leaf
pointer referring to the shared BLACK `NIL` sentinel.  We model the
pointer structure rooted at a node as an inductive `Tree` (the `NIL`
sentinel is `Tree.nil`), and a node's `parent` chain as a zipper
`Path` of `Frame`s: frame `⟨d, c, k, v, o⟩` records that the current
subtree hangs on side `d` of a parent node with color `c`, key `k`,
value `v` and other child `o`.  `plug` rebuilds the whole tree from a
focused subtree, exactly inverting the descent that produced the path.
Keys and values are `Int` (the demos instantiate `K = V = int`, with
`Compare = std::less<int>`).

C++ code whose execution would dereference a null pointer (reachable
only from states that violate the red-black invariants, e.g. a RED
root's "grandparent" in `insert_fixup`) is modelled as `Option`
failure (`none`).
-/

set_option maxHeartbeats 1000000

namespace RBT

/-- Color of a node (`enum class Color : uint8_t { RED, BLACK }`). -/
inductive Color : Type where
  | RED : Color
  | BLACK : Color
deriving DecidableEq, Repr

/-- Pointer structure reachable from a node: `Tree.nil` is the shared
BLACK `NIL` sentinel, `Tree.node c k v l r` a heap node with color `c`,
`key = k`, `val = v` and children `l`, `r`. -/
inductive Tree : Type where
  | nil : Tree
  | node : Color → Int → Int → Tree → Tree → Tree
deriving DecidableEq, Repr

/-- Side on which a focused subtree hangs off its parent. -/
inductive Dir : Type where
  | L : Dir
  | R : Dir
deriving DecidableEq, Repr

/-- One step of the parent chain: the focused subtree is the `dir`
child of a node with this color, key, value, whose other child is
`other`. -/
structure Frame : Type where
  dir : Dir
  color : Color
  key : Int
  val : Int
  other : Tree
deriving DecidableEq, Repr

/-- Parent chain from a focused subtree up to the root, innermost
frame first. -/
abbrev Path : Type := List Frame

/-- Rebuild the parent node of a focused subtree from its frame. -/
def plug1 (f : Frame) (t : Tree) : Tree :=
  match f.dir with
  | .L => .node f.color f.key f.val t f.other
  | .R => .node f.color f.key f.val f.other t

/-- Rebuild the whole tree from a focused subtree and its parent
chain. -/
def plug : Tree → Path → Tree
  | t, [] => t
  | t, f :: p => plug (plug1 f t) p

/-- Color read through a node pointer; reading `NIL->color` yields
BLACK (the sentinel is constructed BLACK and only ever rewritten
BLACK). -/
def colorOf : Tree → Color
  | .nil => .BLACK
  | .node c _ _ _ _ => c

/-- Write `n->color = Color::BLACK` (on the sentinel this is the
in-place BLACK write performed by `delete_fixup`). -/
def paintBlack : Tree → Tree
  | .nil => .nil
  | .node _ k v l r => .node .BLACK k v l r

/-! ## `RBTree::lookup` (`lock_based_rb_tree.hpp`, lines 197-238)

The lock-coupled descent, stripped of its per-node shared locks
(the locking discipline itself is modelled separately below): compare
with `comp`, go left / right, return a copy of the value on an equal
key, `nullopt` on reaching the sentinel. -/

def lookup (k : Int) : Tree → Option Int
  | .nil => none
  | .node _ k2 v l r =>
    if k < k2 then lookup k l
    else if k2 < k then lookup k r
    else some v

/-! ## `RBTree::insert` (`lock_based_rb_tree.hpp`, lines 256-328)

The descent (`while (x != NIL)`) tracks the parent `y`; in the zipper
embedding the visited parents are the accumulated frames.  A duplicate
key overwrites the value in place and returns.  Otherwise the new RED
node `z` (sentinel children) is attached as the left or right child of
the last visited node per `comp(z->key, y->key)` — which is exactly the
direction of the last descent step, i.e. the head frame — and
`insert_fixup(z)` rebalances. -/

/-- Embedding of `RBTree::insert_fixup` (lines 590-665).  The focused
subtree is `z`; `z->parent` is the head frame, `z->parent->parent` the
next one.  The loop `while (z->parent->color == RED)` terminates when
the parent frame is BLACK (or absent: `NIL` parent of the root is
BLACK); the final statement `root->color = BLACK` paints the root of
the rebuilt tree.  If the parent is RED and is itself the root, the
code reads `z->parent->parent->left` from the sentinel, obtaining a
null uncle pointer whose `color` is then dereferenced: `none`.
Likewise a rotation at a node whose promoted child is the sentinel
would write through `NIL->left` (a null pointer): `none`. -/
def insert_fixup : Tree → Path → Option Tree
  | z, [] => some (paintBlack z)
  | z, pf :: rest =>
    if pf.color = .BLACK then
      some (paintBlack (plug z (pf :: rest)))
    else
      match rest with
      | [] => none
      | pg :: rest2 =>
        match pg.dir with
        | .L =>
          -- parent is a LEFT child; uncle y = z->parent->parent->right
          if colorOf pg.other = .RED then
            -- Case 1: recolor parent and uncle BLACK, grandparent RED;
            -- continue from z = z->parent->parent
            insert_fixup
              (.node .RED pg.key pg.val (paintBlack (plug1 pf z)) (paintBlack pg.other))
              rest2
          else
            match pf.dir with
            | .R =>
              -- Case 2: z = z->parent; left_rotate(z); then Case 3:
              -- z->parent->color = BLACK, gp->color = RED, right_rotate(gp)
              match z with
              | .nil => none
              | .node _ zk zv zl zr =>
                some (paintBlack (plug
                  (.node .BLACK zk zv (.node .RED pf.key pf.val pf.other zl)
                    (.node .RED pg.key pg.val zr pg.other))
                  rest2))
            | .L =>
              -- Case 3: parent->color = BLACK, gp->color = RED, right_rotate(gp)
              some (paintBlack (plug
                (.node .BLACK pf.key pf.val z (.node .RED pg.key pg.val pf.other pg.other))
                rest2))
        | .R =>
          -- mirror: parent is a RIGHT child; uncle y = z->parent->parent->left
          if colorOf pg.other = .RED then
            insert_fixup
              (.node .RED pg.key pg.val (paintBlack pg.other) (paintBlack (plug1 pf z)))
              rest2
          else
            match pf.dir with
            | .L =>
              -- Case 2 (mirror): z = z->parent; right_rotate(z); then Case 3 (mirror)
              match z with
              | .nil => none
              | .node _ zk zv zl zr =>
                some (paintBlack (plug
                  (.node .BLACK zk zv (.node .RED pg.key pg.val pg.other zl)
                    (.node .RED pf.key pf.val zr pf.other))
                  rest2))
            | .R =>
              -- Case 3 (mirror): parent->color = BLACK, gp->color = RED, left_rotate(gp)
              some (paintBlack (plug
                (.node .BLACK pf.key pf.val (.node .RED pg.key pg.val pg.other pf.other) z)
                rest2))

/-- Descent phase of `insert` (lines 274-309) in zipper form; on
reaching the sentinel the new RED node is attached at the hole (the
head frame is the last visited node `y` and its direction is the
result of `comp(z->key, y->key)`), and `insert_fixup` runs; on an
equal key the value is overwritten in place. -/
def insertGo (k v : Int) : Tree → Path → Option Tree
  | .nil, p => insert_fixup (.node .RED k v .nil .nil) p
  | .node c k2 v2 l r, p =>
    if k < k2 then insertGo k v l (⟨.L, c, k2, v2, r⟩ :: p)
    else if k2 < k then insertGo k v r (⟨.R, c, k2, v2, l⟩ :: p)
    else some (plug (.node c k2 v l r) p)

/-- Embedding of `RBTree::insert`. -/
def insert (k v : Int) (t : Tree) : Option Tree := insertGo k v t []

/-! ## `RBTree::erase` (`lock_based_rb_tree.hpp`, lines 347-413)

The search loop `while (z != NIL && k != z->key)` descends by `comp`;
an absent key returns `false` with the tree untouched.  Otherwise the
node is spliced out per the CLRS cases, the removed node's original
color decides whether `delete_fixup` runs on the replacement child
`x` (whose position in the zipper is the hole left by the splice). -/

/-- Embedding of `RBTree::minimum` (lines 707-712): left-most descent,
returning the minimum node's fields (its left child is `NIL`) and the
frames pushed on the way down.  Never called on the sentinel. -/
def minimumPath : Tree → Path → Option ((Color × Int × Int × Tree) × Path)
  | .nil, _ => none
  | .node c k v l r, p =>
    match l with
    | .nil => some ((c, k, v, r), p)
    | .node .. => minimumPath l (⟨.L, c, k, v, r⟩ :: p)

/-- Straight-line tail of a `delete_fixup` iteration that started with
Case 1 (RED sibling) on the "x is a LEFT child" side: after the
recolor and `left_rotate(x->parent)`, x's parent is RED and its new
sibling `w` is the old sibling's left child.  The subsequent Case 2
would set `x = x->parent` (now RED), so the loop exits and the final
`x->color = BLACK` applies; Cases 3/4 terminate the loop via
`x = root` and the final statement paints the root. -/
def delete_fixup_after1L (x : Tree) (pk pv : Int) (w : Tree) (p : Path) : Option Tree :=
  match w with
  | .nil => none
  | .node _ wk wv wl wr =>
    if colorOf wl = .BLACK ∧ colorOf wr = .BLACK then
      -- Case 2: w->color = RED; x = x->parent (RED) → loop exits; x->color = BLACK
      some (plug (.node .BLACK pk pv x (.node .RED wk wv wl wr)) p)
    else if colorOf wr = .BLACK then
      -- Case 3: w->left->color = BLACK; w->color = RED; right_rotate(w);
      -- then Case 4 with the new sibling
      match wl with
      | .node .RED ak av al ar =>
        -- Case 4: w->color = parent color (RED); parent->color = BLACK;
        -- w->right->color = BLACK; left_rotate(x->parent); x = root
        some (paintBlack (plug
          (.node .RED ak av (.node .BLACK pk pv x al) (.node .BLACK wk wv ar wr)) p))
      | _ => none
    else
      -- Case 4 directly (far nephew RED)
      match wr with
      | .node .RED bk bv bl br =>
        some (paintBlack (plug
          (.node .RED wk wv (.node .BLACK pk pv x wl) (.node .BLACK bk bv bl br)) p))
      | _ => none

/-- Mirror of `delete_fixup_after1L` for "x is a RIGHT child". -/
def delete_fixup_after1R (x : Tree) (pk pv : Int) (w : Tree) (p : Path) : Option Tree :=
  match w with
  | .nil => none
  | .node _ wk wv wl wr =>
    if colorOf wr = .BLACK ∧ colorOf wl = .BLACK then
      some (plug (.node .BLACK pk pv (.node .RED wk wv wl wr) x) p)
    else if colorOf wl = .BLACK then
      match wr with
      | .node .RED bk bv bl br =>
        some (paintBlack (plug
          (.node .RED bk bv (.node .BLACK wk wv wl bl) (.node .BLACK pk pv br x)) p))
      | _ => none
    else
      match wl with
      | .node .RED ak av al ar =>
        some (paintBlack (plug
          (.node .RED wk wv (.node .BLACK ak av al ar) (.node .BLACK pk pv wr x)) p))
      | _ => none

mutual

/-- Embedding of `RBTree::delete_fixup` (lines 735-845).  The focused
subtree is `x`; `x == root` is "the parent chain is empty".  One loop
iteration with a BLACK non-root `x` reads the sibling `w` from the
head frame; a RED sibling (Case 1) recolors, rotates the parent and
re-enters the remaining cases with the new sibling (`delete_fixup_after1L/R`);
a BLACK sibling with two BLACK children (Case 2) recolors it RED and
ascends (`x = x->parent`); otherwise Cases 3/4 rotate and terminate
with `x = root`, the final `x->color = BLACK` painting the root.
Reading `w->left` when `w` is the sentinel dereferences the null
`NIL->left`: `none`. -/
def delete_fixup : Tree → Path → Option Tree
  | x, [] => some (paintBlack x)
  | x, f :: rest =>
    if colorOf x = .RED then
      some (plug (paintBlack x) (f :: rest))
    else
      match f.dir with
      | .L =>
        match f.other with
        | .nil => none
        | .node .RED wk wv wl wr =>
          -- Case 1: w->color = BLACK; x->parent->color = RED;
          -- left_rotate(x->parent); w = x->parent->right (= old w->left)
          delete_fixup_after1L x f.key f.val wl (⟨.L, .BLACK, wk, wv, wr⟩ :: rest)
        | .node .BLACK wk wv wl wr =>
          delete_fixup_casesL x f.color f.key f.val wk wv wl wr rest
      | .R =>
        match f.other with
        | .nil => none
        | .node .RED wk wv wl wr =>
          delete_fixup_after1R x f.key f.val wr (⟨.R, .BLACK, wk, wv, wl⟩ :: rest)
        | .node .BLACK wk wv wl wr =>
          delete_fixup_casesR x f.color f.key f.val wk wv wl wr rest
termination_by x p => 2 * p.length + 1

/-- Cases 2-4 of a `delete_fixup` iteration on the "x is a LEFT child"
side with a BLACK sibling `node BLACK wk wv wl wr`; the parent node has
color `pc`, key `pk`, value `pv` and parent chain `p`. -/
def delete_fixup_casesL (x : Tree) (pc : Color) (pk pv : Int)
    (wk wv : Int) (wl wr : Tree) (p : Path) : Option Tree :=
  if colorOf wl = .BLACK ∧ colorOf wr = .BLACK then
    -- Case 2: w->color = RED; x = x->parent; continue the loop
    delete_fixup (.node pc pk pv x (.node .RED wk wv wl wr)) p
  else if colorOf wr = .BLACK then
    -- Case 3: w->left->color = BLACK; w->color = RED; right_rotate(w); then Case 4
    match wl with
    | .node .RED ak av al ar =>
      -- Case 4: w->color = pc; parent->color = BLACK; w->right->color = BLACK;
      -- left_rotate(x->parent); x = root; x->color = BLACK
      some (paintBlack (plug
        (.node pc ak av (.node .BLACK pk pv x al) (.node .BLACK wk wv ar wr)) p))
    | _ => none
  else
    match wr with
    | .node .RED bk bv bl br =>
      some (paintBlack (plug
        (.node pc wk wv (.node .BLACK pk pv x wl) (.node .BLACK bk bv bl br)) p))
    | _ => none
termination_by 2 * p.length + 2

/-- Mirror of `delete_fixup_casesL` for "x is a RIGHT child". -/
def delete_fixup_casesR (x : Tree) (pc : Color) (pk pv : Int)
    (wk wv : Int) (wl wr : Tree) (p : Path) : Option Tree :=
  if colorOf wr = .BLACK ∧ colorOf wl = .BLACK then
    delete_fixup (.node pc pk pv (.node .RED wk wv wl wr) x) p
  else if colorOf wl = .BLACK then
    match wr with
    | .node .RED bk bv bl br =>
      some (paintBlack (plug
        (.node pc bk bv (.node .BLACK wk wv wl bl) (.node .BLACK pk pv br x)) p))
    | _ => none
  else
    match wl with
    | .node .RED ak av al ar =>
      some (paintBlack (plug
        (.node pc wk wv (.node .BLACK ak av al ar) (.node .BLACK pk pv wr x)) p))
    | _ => none
termination_by 2 * p.length + 2

end

/-- Splice of the found node `z = node zc zk zv zl zr` at parent chain
`p` (`erase`, lines 360-412): at most one real child replaces `z`
directly; with two children the in-order successor `y = minimum(z->right)`
is spliced out of its spot (its right child `x` fills it), moved into
z's structural position and repainted `z`'s color; `delete_fixup` runs
on `x`'s position iff the physically removed color was BLACK. -/
def eraseAt (zc : Color) (zk zv : Int) (zl zr : Tree) (p : Path) : Option (Bool × Tree) :=
  match zl, zr with
  | .nil, _ =>
    -- z->left == NIL: x = z->right; transplant(z, z->right)
    if zc = .BLACK then (delete_fixup zr p).map (fun t => (true, t))
    else some (true, plug zr p)
  | .node .., .nil =>
    -- z->right == NIL: x = z->left; transplant(z, z->left)
    if zc = .BLACK then (delete_fixup zl p).map (fun t => (true, t))
    else some (true, plug zl p)
  | .node .., .node .. =>
    match minimumPath zr [] with
    | none => none
    | some ((yc, yk, yv, yr), q) =>
      -- y = minimum(z->right) at frames q inside z->right; x = y->right;
      -- y takes z's position, color and left subtree; x's hole sits at
      -- y's old spot under the new node (q = [] is the `y->parent == z` case)
      let xpath : Path := q ++ (⟨.R, zc, yk, yv, zl⟩ :: p)
      if yc = .BLACK then (delete_fixup yr xpath).map (fun t => (true, t))
      else some (true, plug yr xpath)

/-- Search loop of `erase` in zipper form; `z == NIL` means the key is
absent: return `false`, tree untouched. -/
def eraseGo (k : Int) : Tree → Path → Option (Bool × Tree)
  | .nil, p => some (false, plug .nil p)
  | .node zc zk zv zl zr, p =>
    if k < zk then eraseGo k zl (⟨.L, zc, zk, zv, zr⟩ :: p)
    else if zk < k then eraseGo k zr (⟨.R, zc, zk, zv, zl⟩ :: p)
    else eraseAt zc zk zv zl zr p

/-- Embedding of `RBTree::erase`. -/
def erase (k : Int) (t : Tree) : Option (Bool × Tree) := eraseGo k t []

/-! ## `RBTree::validate` (`lock_based_rb_tree.hpp`, lines 415-419 and
874-909)

`validate_rec(n, blacks, target)` threads the `int& target` black-height
baseline (initially `-1`, set at the first sentinel reached) through the
short-circuiting `&&` of the two recursive calls; we embed it as a
state-passing function returning the boolean and the updated target. -/

/-- Key read through a non-sentinel node pointer (the uses in
`validate_rec` are guarded by `!= NIL`). -/
def keyOf : Tree → Int
  | .nil => 0
  | .node _ k _ _ _ => k

def validate_rec : Tree → Int → Int → Bool × Int
  | .nil, blacks, target =>
    -- first sentinel establishes the baseline; every sentinel must match
    let target := if target = -1 then blacks else target
    (blacks = target, target)
  | .node c k _ l r, blacks, target =>
    let blacks := if c = .BLACK then blacks + 1 else blacks
    if c = .RED ∧ (colorOf l = .RED ∨ colorOf r = .RED) then
      (false, target)
    else if l ≠ .nil ∧ k < keyOf l then
      (false, target)
    else if r ≠ .nil ∧ keyOf r < k then
      (false, target)
    else
      match validate_rec l blacks target with
      | (okL, target) =>
        if okL then validate_rec r blacks target else (false, target)

/-- Embedding of `RBTree::validate`. -/
def validate (t : Tree) : Bool := (validate_rec t 0 (-1)).1

/-! ## Specification-side predicates

`Bal t c n` is the classic red-black balance relation: `c` is the color
of `t`'s root and `n` its black-height (count of BLACK nodes on any
path to a sentinel, the starting node excluded for RED, included for
BLACK roots as usual); it encodes invariants 1, 3, 4 and 5 of the spec.
`PathBal p n` states that a parent chain is a well-formed red-black
context whose hole expects a subtree of black-height `n`: every frame's
other child is balanced at the matching height, a RED frame's other
child is BLACK-rooted and its own parent frame is BLACK (so the
outermost frame — the root — is never RED). -/

inductive Bal : Tree → Color → Nat → Prop where
  | nil : Bal .nil .BLACK 0
  | red {l r : Tree} {k v : Int} {n : Nat} :
      Bal l .BLACK n → Bal r .BLACK n → Bal (.node .RED k v l r) .RED n
  | black {l r : Tree} {cl cr : Color} {k v : Int} {n : Nat} :
      Bal l cl n → Bal r cr n → Bal (.node .BLACK k v l r) .BLACK (n + 1)

/-- Head frame exists and is BLACK. -/
def headBlack : Path → Prop
  | [] => False
  | f :: _ => f.color = .BLACK

inductive PathBal : Path → Nat → Prop where
  | nil {n : Nat} : PathBal [] n
  | black {p : Path} {n : Nat} {d : Dir} {k v : Int} {o : Tree} {co : Color} :
      Bal o co n → PathBal p (n + 1) → PathBal (⟨d, .BLACK, k, v, o⟩ :: p) n
  | red {p : Path} {n : Nat} {d : Dir} {k v : Int} {o : Tree} :
      Bal o .BLACK n → headBlack p → PathBal p n → PathBal (⟨d, .RED, k, v, o⟩ :: p) n

/-- In-order traversal of keys and values. -/
def inorder : Tree → List (Int × Int)
  | .nil => []
  | .node _ k v l r => inorder l ++ (k, v) :: inorder r

/-- Keys of a tree in in-order. -/
def keys (t : Tree) : List Int := (inorder t).map Prod.fst

/-- Part of the in-order traversal of `plug t p` that lies before the
hole. -/
def ctxL : Path → List (Int × Int)
  | [] => []
  | f :: p =>
    match f.dir with
    | .L => ctxL p
    | .R => ctxL p ++ inorder f.other ++ [(f.key, f.val)]

/-- Part of the in-order traversal of `plug t p` that lies after the
hole. -/
def ctxR : Path → List (Int × Int)
  | [] => []
  | f :: p =>
    match f.dir with
    | .L => (f.key, f.val) :: inorder f.other ++ ctxR p
    | .R => ctxR p

/-- BST invariant (spec invariant 6): in-order keys strictly
increasing. -/
def SortedT (t : Tree) : Prop := List.Pairwise (· < ·) (keys t)

/-- Full red-black well-formedness of an externally visible tree:
invariants 1-6 (BLACK root included). -/
def WF (t : Tree) : Prop := (∃ n, Bal t .BLACK n) ∧ SortedT t

/-! ### Boolean invariant checkers (for the `validate` characterization) -/

/-- Invariant 4: no RED node has a RED child. -/
def noRedRedB : Tree → Bool
  | .nil => true
  | .node c _ _ l r =>
    !(c = .RED && (colorOf l = .RED || colorOf r = .RED)) && noRedRedB l && noRedRedB r

/-- Black-height if every root-to-sentinel path carries the same number
of BLACK nodes (invariant 5), else `none`. -/
def bhChk : Tree → Option Nat
  | .nil => some 0
  | .node c _ _ l r =>
    match bhChk l, bhChk r with
    | some a, some b =>
      if a = b then some (a + (if c = .BLACK then 1 else 0)) else none
    | _, _ => none

/-- Exactly the per-node order checks `validate_rec` performs: a node's
key is not `comp`-below its left child's key and its right child's key
is not `comp`-below its own (children that are the sentinel are
skipped).  This is strictly weaker than invariant 6. -/
def localOrdB : Tree → Bool
  | .nil => true
  | .node _ k _ l r =>
    !(l ≠ .nil && decide (k < keyOf l)) && !(r ≠ .nil && decide (keyOf r < k))
      && localOrdB l && localOrdB r

/-! ### Operation sequences (single-threaded driver) -/

/-- One mutating operation of the public API. -/
inductive Op : Type where
  | ins : Int → Int → Op
  | del : Int → Op
deriving DecidableEq, Repr

/-- Apply a sequence of operations to the freshly constructed (empty)
tree, left to right. -/
def applyOps (ops : List Op) : Option Tree :=
  ops.foldlM
    (fun t op =>
      match op with
      | .ins k v => insert k v t
      | .del k => (erase k t).map Prod.snd)
    Tree.nil

/-- Reference answer of the spec for `lookup k` after a sequence of
operations: the value of the most recent `insert(k, v)` not followed by
an `erase(k)`; absent if `k` was never inserted (or last erased). -/
def specLookup (ops : List Op) (k : Int) : Option Int :=
  ops.foldl
    (fun acc op =>
      match op with
      | .ins k2 v => if k2 = k then some v else acc
      | .del k2 => if k2 = k then none else acc)
    none

/-! ### Sorted association-list model used to relate the tree to
`specLookup` -/

/-- Effect of `insert k v` on the in-order association list. -/
def insList (k v : Int) : List (Int × Int) → List (Int × Int)
  | [] => [(k, v)]
  | (k2, v2) :: rest =>
    if k < k2 then (k, v) :: (k2, v2) :: rest
    else if k2 < k then (k2, v2) :: insList k v rest
    else (k, v) :: rest

/-- Effect of a successful `erase k` on the in-order association list
(removes the first entry with key `k`). -/
def delList (k : Int) : List (Int × Int) → List (Int × Int)
  | [] => []
  | (k2, v2) :: rest => if k = k2 then rest else (k2, v2) :: delList k rest

/-- Lookup in an association list (first entry wins). -/
def mLookup : List (Int × Int) → Int → Option Int
  | [], _ => none
  | (k2, v) :: rest, k => if k = k2 then some v else mLookup rest k

/-- Sorted association list obtained by replaying a sequence of
operations on the list model. -/
def listModel (ops : List Op) : List (Int × Int) :=
  ops.foldl
    (fun m op =>
      match op with
      | .ins k v => insList k v m
      | .del k => delList k m)
    []

/-! ## Lock-hold state of `UpgradeLock` (`lock_based_rb_tree.hpp`,
lines 107-124)

The struct owns a `shared_lock` and a `unique_lock` on the same
`shared_mutex`; the constructor locks the shared one, `upgrade()`
executes `shared.unlock()` and then `unique.lock()`.  We model the
hold state of the two members and the sequence of states passed
through by `upgrade()`. -/

structure UpgradeLock : Type where
  shared : Bool
  unique : Bool
deriving DecidableEq, Repr

/-- State established by the constructor (`shared.lock()`). -/
def UpgradeLock.start : UpgradeLock := ⟨true, false⟩

/-- States reached after each primitive statement of `upgrade()`:
first `shared.unlock()`, then `unique.lock()`. -/
def UpgradeLock.upgradeStates (u : UpgradeLock) : List UpgradeLock :=
  [{ u with shared := false },
   { u with shared := false, unique := true }]

/-- The thread holds this mutex in no mode at all. -/
def UpgradeLock.fullyUnlocked (u : UpgradeLock) : Bool := !u.shared && !u.unique

/-! ## Per-node lock traces of `lookup` and the `insert` descent
(`lock_based_rb_tree.hpp`, lines 197-238 and 256-327)

Node identity during a single-threaded traversal is its position (path
of directions from the root); the shared sentinel is one distinguished
lockable object.  `lookupTr`/`insertTr` list the shared/exclusive
acquire and release events the source performs in order. -/

inductive LId : Type where
  | sentinel : LId
  | pos : List Dir → LId
deriving DecidableEq, Repr

inductive LEv : Type where
  | acqS : LId → LEv
  | relS : LId → LEv
  | acqX : LId → LEv
  | relX : LId → LEv
deriving DecidableEq, Repr

/-- Lock identity of the node at position `p` of the current tree
(`NIL` is the shared sentinel wherever it is reached). -/
def tid : Tree → List Dir → LId
  | .nil, _ => .sentinel
  | .node .., p => .pos p

/-- Events of the `lookup` loop after the root lock is held: lock the
child before releasing the current node, release on return. -/
def lookupTrGo (k : Int) : Tree → List Dir → List LEv
  | .nil, _ => [.relS .sentinel]
  | .node _ k2 _ l r, p =>
    if k < k2 then
      .acqS (tid l (p ++ [.L])) :: .relS (.pos p) :: lookupTrGo k l (p ++ [.L])
    else if k2 < k then
      .acqS (tid r (p ++ [.R])) :: .relS (.pos p) :: lookupTrGo k r (p ++ [.R])
    else
      [.relS (.pos p)]

/-- Per-node lock events of `RBTree::lookup k` on tree `t`. -/
def lookupTr (k : Int) (t : Tree) : List LEv := .acqS (tid t []) :: lookupTrGo k t []

/-- Events of the `insert` descent (`UpgradeLock` coupling): on a
duplicate key or on reaching the sentinel, `upgrade()` releases the
shared hold and acquires the exclusive one on the node `lock_x`
currently wraps; the destructor finally releases it. -/
def insertTrGo (k : Int) : Tree → List Dir → List LEv
  | .nil, _ => [.relS .sentinel, .acqX .sentinel, .relX .sentinel]
  | .node _ k2 _ l r, p =>
    if k < k2 then
      .acqS (tid l (p ++ [.L])) :: .relS (.pos p) :: insertTrGo k l (p ++ [.L])
    else if k2 < k then
      .acqS (tid r (p ++ [.R])) :: .relS (.pos p) :: insertTrGo k r (p ++ [.R])
    else
      [.relS (.pos p), .acqX (.pos p), .relX (.pos p)]

/-- Per-node lock events of `RBTree::insert k v` on tree `t` (the
global `writers_mutex` is not a node lock and is excluded). -/
def insertTr (k : Int) (t : Tree) : List LEv := .acqS (tid t []) :: insertTrGo k t []

/-- One lock event applied to the multiset of held node locks;
releasing a lock that is not held fails. -/
def stepEv (held : List LId) : LEv → Option (List LId)
  | .acqS i => some (i :: held)
  | .acqX i => some (i :: held)
  | .relS i => if i ∈ held then some (held.erase i) else none
  | .relX i => if i ∈ held then some (held.erase i) else none

/-- Every event is well-formed and after each one the held-lock set has
size at most `bound`. -/
def heldBounded (bound : Nat) : List LId → List LEv → Bool
  | _, [] => true
  | held, e :: rest =>
    match stepEv held e with
    | none => false
    | some h2 => decide (h2.length ≤ bound) && heldBounded bound h2 rest

/-! ## `OrderedLockGuard` and the deadlock-safe `lookup`
(`src/lock_based_rb_tree.cpp`, lines 131-157 and 282-350)

Nodes in that translation unit carry a `lock_id` (their address, so
ids are unique); the guard sorts the handed-in nodes by `lock_id`
(`std::sort`), drops adjacent duplicates (`std::unique` — after the
sort all duplicates are adjacent), and acquires a shared lock on each
in that order.  Nodes are identified by their `lock_id : Nat`. -/

/-- Insertion into a sorted prefix (ascending by `lock_id`). -/
def insertSorted (a : Nat) : List Nat → List Nat
  | [] => [a]
  | b :: rest => if a ≤ b then a :: b :: rest else b :: insertSorted a rest

/-- Model of `std::sort(nodes, ... lock_id < lock_id)`. -/
def sortIds : List Nat → List Nat
  | [] => []
  | a :: rest => insertSorted a (sortIds rest)

/-- Model of `std::unique`: drop adjacent duplicates. -/
def uniqAdj : List Nat → List Nat
  | [] => []
  | [a] => [a]
  | a :: b :: rest => if a = b then uniqAdj (a :: rest) else a :: uniqAdj (b :: rest)
termination_by l => l.length

/-- Order in which the `OrderedLockGuard` constructor acquires shared
locks on the handed-in nodes. -/
def orderedLockGuardOrder (nodes : List Nat) : List Nat := uniqAdj (sortIds nodes)

/-- Shared-lock events of `lookup`'s transition from the current node
to its chosen child (`lock_based_rb_tree.cpp`, lines 305-321): normal
order couples child-then-parent; reversed order builds an
`OrderedLockGuard` on the two nodes (acquiring both, sorted), releases
the parent's individual lock, takes the fresh lock on the child, and
the guard's destructor releases its locks in reverse order at the end
of the block. -/
inductive EV2 : Type where
  | acqS : Nat → EV2
  | relS : Nat → EV2
deriving DecidableEq, Repr

def descStep (cid nid : Nat) : List EV2 :=
  if cid < nid then
    [.acqS nid, .relS cid]
  else
    (orderedLockGuardOrder [cid, nid]).map .acqS
      ++ [.relS cid, .acqS nid]
      ++ ((orderedLockGuardOrder [cid, nid]).reverse.map .relS)

/-- Node of the `lock_based_rb_tree.cpp` tree: `lock_id`, key, value,
children (color and parent omitted; the deadlock-safe `lookup` reads
neither). -/
inductive T2 : Type where
  | nil : T2
  | node : Nat → Int → Int → T2 → T2 → T2
deriving DecidableEq, Repr

/-- Result and shared-lock event trace of the deadlock-safe
`lookup` loop, starting at a locked current node. -/
def cppLookupGo (k : Int) : T2 → Option Int × List EV2
  | .nil => (none, [])
  | .node lid k2 v l r =>
    if k < k2 then
      match l with
      | .nil => (none, [.relS lid])
      | .node nlid _ _ _ _ =>
        let res := cppLookupGo k l
        (res.1, descStep lid nlid ++ res.2)
    else if k2 < k then
      match r with
      | .nil => (none, [.relS lid])
      | .node nlid _ _ _ _ =>
        let res := cppLookupGo k r
        (res.1, descStep lid nlid ++ res.2)
    else
      (some v, [.relS lid])

/-- Embedding of the deadlock-safe `RBTree::lookup` of
`lock_based_rb_tree.cpp` (result and full lock trace; an empty tree
returns early with no locking). -/
def cppLookup (k : Int) : T2 → Option Int × List EV2
  | .nil => (none, [])
  | .node lid k2 v l r =>
    let res := cppLookupGo k (.node lid k2 v l r)
    (res.1, .acqS lid :: res.2)

/-! ## Sentinel-field writes (for the frame/effect claim)

The only statements in the whole translation unit that can write a
field of the shared `NIL` sentinel are: `transplant(u, v)` with
`v == NIL` (writes `NIL->parent = u->parent`), the successor case
`x->parent = y` of `erase` with `x == NIL`, and the final
`x->color = BLACK` of `delete_fixup` when `x` is the sentinel (the
tree became empty).  Rotations guard their only sentinel-parent write
with `!= NIL`; `insert` writes only the fresh node's fields.  These
write lists mirror the corresponding functions above. -/

inductive NilPtr : Type where
  | null : NilPtr
  | nilSelf : NilPtr
  | nodeAddr : Int → NilPtr
deriving DecidableEq, Repr

structure NilNode : Type where
  key : Int
  val : Int
  color : Color
  parent : NilPtr
  left : NilPtr
  right : NilPtr
deriving DecidableEq, Repr

/-- Sentinel as constructed: `new NodeT(K{}, V{}, Color::BLACK)` with
null parent and children. -/
def NilNode.start : NilNode := ⟨0, 0, .BLACK, .null, .null, .null⟩

inductive NilWrite : Type where
  | parentW : NilPtr → NilWrite
  | colorW : Color → NilWrite
deriving DecidableEq, Repr

def applyNilWrite (nn : NilNode) : NilWrite → NilNode
  | .parentW v => { nn with parent := v }
  | .colorW c => { nn with color := c }

/-- Address stored in `u->parent` for a node whose parent chain is
`p`: the sentinel itself for the root (insert and the rotations keep
`root->parent == NIL`), else the parent node (identified by its key). -/
def parentAddr : Path → NilPtr
  | [] => .nilSelf
  | f :: _ => .nodeAddr f.key

/-- Sentinel writes performed by `delete_fixup x p`: the body paints
only real nodes; the final `x->color = BLACK` hits the sentinel exactly
when the loop never ran with `x == NIL` at the root (tree emptied). -/
def delete_fixup_nilw : Tree → Path → List NilWrite
  | .nil, [] => [.colorW .BLACK]
  | .node .., [] => []
  | x, f :: rest =>
    if colorOf x = .RED then []
    else
      match f.dir with
      | .L =>
        match f.other with
        | .nil => []
        | .node .RED _ _ _ _ => []
        | .node .BLACK wk wv wl wr =>
          if colorOf wl = .BLACK ∧ colorOf wr = .BLACK then
            delete_fixup_nilw (.node f.color f.key f.val x (.node .RED wk wv wl wr)) rest
          else []
      | .R =>
        match f.other with
        | .nil => []
        | .node .RED _ _ _ _ => []
        | .node .BLACK wk wv wl wr =>
          if colorOf wr = .BLACK ∧ colorOf wl = .BLACK then
            delete_fixup_nilw (.node f.color f.key f.val (.node .RED wk wv wl wr) x) rest
          else []
termination_by _ p => p.length

/-- Sentinel writes of the splice `eraseAt` (the `transplant`s whose
replacement subtree is the sentinel, and `x->parent = y` when
`x == NIL`). -/
def eraseAt_nilw (zc : Color) (zk zv : Int) (zl zr : Tree) (p : Path) : List NilWrite :=
  match zl, zr with
  | .nil, _ =>
    (match zr with
     | .nil => [.parentW (parentAddr p)]
     | .node .. => []) ++
    (if zc = .BLACK then delete_fixup_nilw zr p else [])
  | .node .., .nil =>
    (if zc = .BLACK then delete_fixup_nilw zl p else [])
  | .node .., .node .. =>
    match minimumPath zr [] with
    | none => []
    | some ((yc, yk, yv, yr), q) =>
      let xpath : Path := q ++ (⟨.R, zc, yk, yv, zl⟩ :: p)
      (match yr, q with
       | .nil, [] => [.parentW (.nodeAddr yk)]
       | .nil, qf :: _ => [.parentW (.nodeAddr qf.key)]
       | .node .., _ => []) ++
      (if yc = .BLACK then delete_fixup_nilw yr xpath else [])

/-- Sentinel writes of `erase k` (none on an absent key). -/
def eraseGo_nilw (k : Int) : Tree → Path → List NilWrite
  | .nil, _ => []
  | .node zc zk zv zl zr, p =>
    if k < zk then eraseGo_nilw k zl (⟨.L, zc, zk, zv, zr⟩ :: p)
    else if zk < k then eraseGo_nilw k zr (⟨.R, zc, zk, zv, zl⟩ :: p)
    else eraseAt_nilw zc zk zv zl zr p

def erase_nilw (k : Int) (t : Tree) : List NilWrite := eraseGo_nilw k t []

/-- Apply an operation sequence to the empty tree while tracking the
sentinel node's fields (`insert`, `lookup` and `validate` perform no
sentinel writes). -/
def applyOpsNil (ops : List Op) : Option (Tree × NilNode) :=
  ops.foldlM
    (fun (st : Tree × NilNode) op =>
      match op with
      | .ins k v => (insert k v st.1).map (fun t => (t, st.2))
      | .del k =>
        (erase k st.1).map
          (fun pr => (pr.2, (erase_nilw k st.1).foldl applyNilWrite st.2)))
    (Tree.nil, NilNode.start)

/-! ## Variant: coarse-grained tree of `src/race_free_rb_tree.cpp`
(namespace `rbt`, class `RBTree`, one global `std::shared_mutex`)

Sequential content of `lookup` (lines 137-152), `insert` (155-190),
`erase` (193-247), `insert_fixup` (309-363), `transplant` (365-374),
`minimum` (376-381), `delete_fixup` (383-457), embedded over the same
`Tree`/`Path` types (the variant's `Node` carries the same key, value,
color and link fields). -/

namespace racefree

def insert_fixup : Tree → Path → Option Tree
  | z, [] => some (paintBlack z)
  | z, pf :: rest =>
    if pf.color = .BLACK then
      some (paintBlack (plug z (pf :: rest)))
    else
      match rest with
      | [] => none
      | pg :: rest2 =>
        match pg.dir with
        | .L =>
          if colorOf pg.other = .RED then
            insert_fixup
              (.node .RED pg.key pg.val (paintBlack (plug1 pf z)) (paintBlack pg.other))
              rest2
          else
            match pf.dir with
            | .R =>
              match z with
              | .nil => none
              | .node _ zk zv zl zr =>
                some (paintBlack (plug
                  (.node .BLACK zk zv (.node .RED pf.key pf.val pf.other zl)
                    (.node .RED pg.key pg.val zr pg.other))
                  rest2))
            | .L =>
              some (paintBlack (plug
                (.node .BLACK pf.key pf.val z (.node .RED pg.key pg.val pf.other pg.other))
                rest2))
        | .R =>
          if colorOf pg.other = .RED then
            insert_fixup
              (.node .RED pg.key pg.val (paintBlack pg.other) (paintBlack (plug1 pf z)))
              rest2
          else
            match pf.dir with
            | .L =>
              match z with
              | .nil => none
              | .node _ zk zv zl zr =>
                some (paintBlack (plug
                  (.node .BLACK zk zv (.node .RED pg.key pg.val pg.other zl)
                    (.node .RED pf.key pf.val zr pf.other))
                  rest2))
            | .R =>
              some (paintBlack (plug
                (.node .BLACK pf.key pf.val (.node .RED pg.key pg.val pg.other pf.other) z)
                rest2))

def insertGo (k v : Int) : Tree → Path → Option Tree
  | .nil, p => insert_fixup (.node .RED k v .nil .nil) p
  | .node c k2 v2 l r, p =>
    if k < k2 then insertGo k v l (⟨.L, c, k2, v2, r⟩ :: p)
    else if k2 < k then insertGo k v r (⟨.R, c, k2, v2, l⟩ :: p)
    else some (plug (.node c k2 v l r) p)

def insert (k v : Int) (t : Tree) : Option Tree := insertGo k v t []

def lookup (k : Int) : Tree → Option Int
  | .nil => none
  | .node _ k2 v l r =>
    if k < k2 then lookup k l
    else if k2 < k then lookup k r
    else some v

def minimumPath : Tree → Path → Option ((Color × Int × Int × Tree) × Path)
  | .nil, _ => none
  | .node c k v l r, p =>
    match l with
    | .nil => some ((c, k, v, r), p)
    | .node .. => minimumPath l (⟨.L, c, k, v, r⟩ :: p)

def delete_fixup_after1L (x : Tree) (pk pv : Int) (w : Tree) (p : Path) : Option Tree :=
  match w with
  | .nil => none
  | .node _ wk wv wl wr =>
    if colorOf wl = .BLACK ∧ colorOf wr = .BLACK then
      some (plug (.node .BLACK pk pv x (.node .RED wk wv wl wr)) p)
    else if colorOf wr = .BLACK then
      match wl with
      | .node .RED ak av al ar =>
        some (paintBlack (plug
          (.node .RED ak av (.node .BLACK pk pv x al) (.node .BLACK wk wv ar wr)) p))
      | _ => none
    else
      match wr with
      | .node .RED bk bv bl br =>
        some (paintBlack (plug
          (.node .RED wk wv (.node .BLACK pk pv x wl) (.node .BLACK bk bv bl br)) p))
      | _ => none

def delete_fixup_after1R (x : Tree) (pk pv : Int) (w : Tree) (p : Path) : Option Tree :=
  match w with
  | .nil => none
  | .node _ wk wv wl wr =>
    if colorOf wr = .BLACK ∧ colorOf wl = .BLACK then
      some (plug (.node .BLACK pk pv (.node .RED wk wv wl wr) x) p)
    else if colorOf wl = .BLACK then
      match wr with
      | .node .RED bk bv bl br =>
        some (paintBlack (plug
          (.node .RED bk bv (.node .BLACK wk wv wl bl) (.node .BLACK pk pv br x)) p))
      | _ => none
    else
      match wl with
      | .node .RED ak av al ar =>
        some (paintBlack (plug
          (.node .RED wk wv (.node .BLACK ak av al ar) (.node .BLACK pk pv wr x)) p))
      | _ => none

mutual

def delete_fixup : Tree → Path → Option Tree
  | x, [] => some (paintBlack x)
  | x, f :: rest =>
    if colorOf x = .RED then
      some (plug (paintBlack x) (f :: rest))
    else
      match f.dir with
      | .L =>
        match f.other with
        | .nil => none
        | .node .RED wk wv wl wr =>
          delete_fixup_after1L x f.key f.val wl (⟨.L, .BLACK, wk, wv, wr⟩ :: rest)
        | .node .BLACK wk wv wl wr =>
          delete_fixup_casesL x f.color f.key f.val wk wv wl wr rest
      | .R =>
        match f.other with
        | .nil => none
        | .node .RED wk wv wl wr =>
          delete_fixup_after1R x f.key f.val wr (⟨.R, .BLACK, wk, wv, wl⟩ :: rest)
        | .node .BLACK wk wv wl wr =>
          delete_fixup_casesR x f.color f.key f.val wk wv wl wr rest
termination_by x p => 2 * p.length + 1

def delete_fixup_casesL (x : Tree) (pc : Color) (pk pv : Int)
    (wk wv : Int) (wl wr : Tree) (p : Path) : Option Tree :=
  if colorOf wl = .BLACK ∧ colorOf wr = .BLACK then
    delete_fixup (.node pc pk pv x (.node .RED wk wv wl wr)) p
  else if colorOf wr = .BLACK then
    match wl with
    | .node .RED ak av al ar =>
      some (paintBlack (plug
        (.node pc ak av (.node .BLACK pk pv x al) (.node .BLACK wk wv ar wr)) p))
    | _ => none
  else
    match wr with
    | .node .RED bk bv bl br =>
      some (paintBlack (plug
        (.node pc wk wv (.node .BLACK pk pv x wl) (.node .BLACK bk bv bl br)) p))
    | _ => none
termination_by 2 * p.length + 2

def delete_fixup_casesR (x : Tree) (pc : Color) (pk pv : Int)
    (wk wv : Int) (wl wr : Tree) (p : Path) : Option Tree :=
  if colorOf wr = .BLACK ∧ colorOf wl = .BLACK then
    delete_fixup (.node pc pk pv (.node .RED wk wv wl wr) x) p
  else if colorOf wl = .BLACK then
    match wr with
    | .node .RED bk bv bl br =>
      some (paintBlack (plug
        (.node pc bk bv (.node .BLACK wk wv wl bl) (.node .BLACK pk pv br x)) p))
    | _ => none
  else
    match wl with
    | .node .RED ak av al ar =>
      some (paintBlack (plug
        (.node pc wk wv (.node .BLACK ak av al ar) (.node .BLACK pk pv wr x)) p))
    | _ => none
termination_by 2 * p.length + 2

end

def eraseAt (zc : Color) (zk zv : Int) (zl zr : Tree) (p : Path) : Option (Bool × Tree) :=
  match zl, zr with
  | .nil, _ =>
    if zc = .BLACK then (delete_fixup zr p).map (fun t => (true, t))
    else some (true, plug zr p)
  | .node .., .nil =>
    if zc = .BLACK then (delete_fixup zl p).map (fun t => (true, t))
    else some (true, plug zl p)
  | .node .., .node .. =>
    match minimumPath zr [] with
    | none => none
    | some ((yc, yk, yv, yr), q) =>
      let xpath : Path := q ++ (⟨.R, zc, yk, yv, zl⟩ :: p)
      if yc = .BLACK then (delete_fixup yr xpath).map (fun t => (true, t))
      else some (true, plug yr xpath)

def eraseGo (k : Int) : Tree → Path → Option (Bool × Tree)
  | .nil, p => some (false, plug .nil p)
  | .node zc zk zv zl zr, p =>
    if k < zk then eraseGo k zl (⟨.L, zc, zk, zv, zr⟩ :: p)
    else if zk < k then eraseGo k zr (⟨.R, zc, zk, zv, zl⟩ :: p)
    else eraseAt zc zk zv zl zr p

def erase (k : Int) (t : Tree) : Option (Bool × Tree) := eraseGo k t []

end racefree

/-! ## Variant: "epoch-based" tree of `src/epoch_based_rb_tree.cpp`
(namespace `simple_rbt`, class `SimpleConcurrentRBTree`, one global
`std::shared_mutex`, immediate `delete`)

Sequential content of `lookup` (lines 86-101), `insert` (104-140),
`erase` (143-197), `insert_fixup` (251-301), `transplant` (303-312),
`minimum` (314-319), `delete_fixup` (321-389). -/

namespace simple_rbt

def insert_fixup : Tree → Path → Option Tree
  | z, [] => some (paintBlack z)
  | z, pf :: rest =>
    if pf.color = .BLACK then
      some (paintBlack (plug z (pf :: rest)))
    else
      match rest with
      | [] => none
      | pg :: rest2 =>
        match pg.dir with
        | .L =>
          if colorOf pg.other = .RED then
            insert_fixup
              (.node .RED pg.key pg.val (paintBlack (plug1 pf z)) (paintBlack pg.other))
              rest2
          else
            match pf.dir with
            | .R =>
              match z with
              | .nil => none
              | .node _ zk zv zl zr =>
                some (paintBlack (plug
                  (.node .BLACK zk zv (.node .RED pf.key pf.val pf.other zl)
                    (.node .RED pg.key pg.val zr pg.other))
                  rest2))
            | .L =>
              some (paintBlack (plug
                (.node .BLACK pf.key pf.val z (.node .RED pg.key pg.val pf.other pg.other))
                rest2))
        | .R =>
          if colorOf pg.other = .RED then
            insert_fixup
              (.node .RED pg.key pg.val (paintBlack pg.other) (paintBlack (plug1 pf z)))
              rest2
          else
            match pf.dir with
            | .L =>
              match z with
              | .nil => none
              | .node _ zk zv zl zr =>
                some (paintBlack (plug
                  (.node .BLACK zk zv (.node .RED pg.key pg.val pg.other zl)
                    (.node .RED pf.key pf.val zr pf.other))
                  rest2))
            | .R =>
              some (paintBlack (plug
                (.node .BLACK pf.key pf.val (.node .RED pg.key pg.val pg.other pf.other) z)
                rest2))

def insertGo (k v : Int) : Tree → Path → Option Tree
  | .nil, p => insert_fixup (.node .RED k v .nil .nil) p
  | .node c k2 v2 l r, p =>
    if k < k2 then insertGo k v l (⟨.L, c, k2, v2, r⟩ :: p)
    else if k2 < k then insertGo k v r (⟨.R, c, k2, v2, l⟩ :: p)
    else some (plug (.node c k2 v l r) p)

def insert (k v : Int) (t : Tree) : Option Tree := insertGo k v t []

def lookup (k : Int) : Tree → Option Int
  | .nil => none
  | .node _ k2 v l r =>
    if k < k2 then lookup k l
    else if k2 < k then lookup k r
    else some v

def minimumPath : Tree → Path → Option ((Color × Int × Int × Tree) × Path)
  | .nil, _ => none
  | .node c k v l r, p =>
    match l with
    | .nil => some ((c, k, v, r), p)
    | .node .. => minimumPath l (⟨.L, c, k, v, r⟩ :: p)

def delete_fixup_after1L (x : Tree) (pk pv : Int) (w : Tree) (p : Path) : Option Tree :=
  match w with
  | .nil => none
  | .node _ wk wv wl wr =>
    if colorOf wl = .BLACK ∧ colorOf wr = .BLACK then
      some (plug (.node .BLACK pk pv x (.node .RED wk wv wl wr)) p)
    else if colorOf wr = .BLACK then
      match wl with
      | .node .RED ak av al ar =>
        some (paintBlack (plug
          (.node .RED ak av (.node .BLACK pk pv x al) (.node .BLACK wk wv ar wr)) p))
      | _ => none
    else
      match wr with
      | .node .RED bk bv bl br =>
        some (paintBlack (plug
          (.node .RED wk wv (.node .BLACK pk pv x wl) (.node .BLACK bk bv bl br)) p))
      | _ => none

def delete_fixup_after1R (x : Tree) (pk pv : Int) (w : Tree) (p : Path) : Option Tree :=
  match w with
  | .nil => none
  | .node _ wk wv wl wr =>
    if colorOf wr = .BLACK ∧ colorOf wl = .BLACK then
      some (plug (.node .BLACK pk pv (.node .RED wk wv wl wr) x) p)
    else if colorOf wl = .BLACK then
      match wr with
      | .node .RED bk bv bl br =>
        some (paintBlack (plug
          (.node .RED bk bv (.node .BLACK wk wv wl bl) (.node .BLACK pk pv br x)) p))
      | _ => none
    else
      match wl with
      | .node .RED ak av al ar =>
        some (paintBlack (plug
          (.node .RED wk wv (.node .BLACK ak av al ar) (.node .BLACK pk pv wr x)) p))
      | _ => none

mutual

def delete_fixup : Tree → Path → Option Tree
  | x, [] => some (paintBlack x)
  | x, f :: rest =>
    if colorOf x = .RED then
      some (plug (paintBlack x) (f :: rest))
    else
      match f.dir with
      | .L =>
        match f.other with
        | .nil => none
        | .node .RED wk wv wl wr =>
          delete_fixup_after1L x f.key f.val wl (⟨.L, .BLACK, wk, wv, wr⟩ :: rest)
        | .node .BLACK wk wv wl wr =>
          delete_fixup_casesL x f.color f.key f.val wk wv wl wr rest
      | .R =>
        match f.other with
        | .nil => none
        | .node .RED wk wv wl wr =>
          delete_fixup_after1R x f.key f.val wr (⟨.R, .BLACK, wk, wv, wl⟩ :: rest)
        | .node .BLACK wk wv wl wr =>
          delete_fixup_casesR x f.color f.key f.val wk wv wl wr rest
termination_by x p => 2 * p.length + 1

def delete_fixup_casesL (x : Tree) (pc : Color) (pk pv : Int)
    (wk wv : Int) (wl wr : Tree) (p : Path) : Option Tree :=
  if colorOf wl = .BLACK ∧ colorOf wr = .BLACK then
    delete_fixup (.node pc pk pv x (.node .RED wk wv wl wr)) p
  else if colorOf wr = .BLACK then
    match wl with
    | .node .RED ak av al ar =>
      some (paintBlack (plug
        (.node pc ak av (.node .BLACK pk pv x al) (.node .BLACK wk wv ar wr)) p))
    | _ => none
  else
    match wr with
    | .node .RED bk bv bl br =>
      some (paintBlack (plug
        (.node pc wk wv (.node .BLACK pk pv x wl) (.node .BLACK bk bv bl br)) p))
    | _ => none
termination_by 2 * p.length + 2

def delete_fixup_casesR (x : Tree) (pc : Color) (pk pv : Int)
    (wk wv : Int) (wl wr : Tree) (p : Path) : Option Tree :=
  if colorOf wr = .BLACK ∧ colorOf wl = .BLACK then
    delete_fixup (.node pc pk pv (.node .RED wk wv wl wr) x) p
  else if colorOf wl = .BLACK then
    match wr with
    | .node .RED bk bv bl br =>
      some (paintBlack (plug
        (.node pc bk bv (.node .BLACK wk wv wl bl) (.node .BLACK pk pv br x)) p))
    | _ => none
  else
    match wl with
    | .node .RED ak av al ar =>
      some (paintBlack (plug
        (.node pc wk wv (.node .BLACK ak av al ar) (.node .BLACK pk pv wr x)) p))
    | _ => none
termination_by 2 * p.length + 2

end

def eraseAt (zc : Color) (zk zv : Int) (zl zr : Tree) (p : Path) : Option (Bool × Tree) :=
  match zl, zr with
  | .nil, _ =>
    if zc = .BLACK then (delete_fixup zr p).map (fun t => (true, t))
    else some (true, plug zr p)
  | .node .., .nil =>
    if zc = .BLACK then (delete_fixup zl p).map (fun t => (true, t))
    else some (true, plug zl p)
  | .node .., .node .. =>
    match minimumPath zr [] with
    | none => none
    | some ((yc, yk, yv, yr), q) =>
      let xpath : Path := q ++ (⟨.R, zc, yk, yv, zl⟩ :: p)
      if yc = .BLACK then (delete_fixup yr xpath).map (fun t => (true, t))
      else some (true, plug yr xpath)

def eraseGo (k : Int) : Tree → Path → Option (Bool × Tree)
  | .nil, p => some (false, plug .nil p)
  | .node zc zk zv zl zr, p =>
    if k < zk then eraseGo k zl (⟨.L, zc, zk, zv, zr⟩ :: p)
    else if zk < k then eraseGo k zr (⟨.R, zc, zk, zv, zl⟩ :: p)
    else eraseAt zc zk zv zl zr p

def erase (k : Int) (t : Tree) : Option (Bool × Tree) := eraseGo k t []

end simple_rbt

/-- The same operation sequence run on the `race_free_rb_tree.cpp`
tree, recording every `lookup` answer is unnecessary (lookups are
pure); we fold the mutations. -/
def applyOpsRF (ops : List Op) : Option Tree :=
  ops.foldlM
    (fun t op =>
      match op with
      | .ins k v => racefree.insert k v t
      | .del k => (racefree.erase k t).map Prod.snd)
    Tree.nil

/-- The same operation sequence run on the `epoch_based_rb_tree.cpp`
tree. -/
def applyOpsEP (ops : List Op) : Option Tree :=
  ops.foldlM
    (fun t op =>
      match op with
      | .ins k v => simple_rbt.insert k v t
      | .del k => (simple_rbt.erase k t).map Prod.snd)
    Tree.nil

/-! # Theorems

First: the three variants implement the same sequential algorithm
(their definitions above differ only in which source file they were
translated from), proved extensionally function by function. -/

theorem rf_lookup_eq : ∀ (k : Int) (t : Tree), racefree.lookup k t = lookup k t := by
  intro k t
  induction t with
  | nil => rfl
  | node c k2 v l r ihl ihr => simp [racefree.lookup, lookup, ihl, ihr]

theorem rf_insert_fixup_eq (z : Tree) (p : Path) :
    racefree.insert_fixup z p = insert_fixup z p := by
  match p with
  | [] => rfl
  | [pf] => simp only [racefree.insert_fixup, insert_fixup]
  | pf :: pg :: rest2 =>
    have ih1 := fun z => rf_insert_fixup_eq z rest2
    simp only [racefree.insert_fixup, insert_fixup]
    cases hc : pf.color <;> cases hd : pg.dir <;>
      cases hu : colorOf pg.other <;> cases hfd : pf.dir <;> cases z <;>
      simp [ih1]
termination_by p.length

theorem rf_insertGo_eq (k v : Int) : ∀ (t : Tree) (p : Path),
    racefree.insertGo k v t p = insertGo k v t p := by
  intro t
  induction t with
  | nil => intro p; simp [racefree.insertGo, insertGo, rf_insert_fixup_eq]
  | node c k2 v2 l r ihl ihr =>
    intro p
    simp [racefree.insertGo, insertGo, ihl, ihr]

theorem rf_insert_eq (k v : Int) (t : Tree) : racefree.insert k v t = insert k v t :=
  rf_insertGo_eq k v t []

theorem rf_minimumPath_eq (t : Tree) (p : Path) :
    racefree.minimumPath t p = minimumPath t p := by
  match t with
  | .nil => rfl
  | .node c k v .nil r => rfl
  | .node c k v (.node lc lk lv ll lr) r =>
    have h := rf_minimumPath_eq (.node lc lk lv ll lr) (⟨.L, c, k, v, r⟩ :: p)
    simpa [racefree.minimumPath, minimumPath] using h

theorem rf_after1L_eq (x : Tree) (pk pv : Int) (w : Tree) (p : Path) :
    racefree.delete_fixup_after1L x pk pv w p = delete_fixup_after1L x pk pv w p := by
  rcases w with _ | ⟨wc, wk, wv, wl, wr⟩ <;>
    simp only [racefree.delete_fixup_after1L, delete_fixup_after1L]

theorem rf_after1R_eq (x : Tree) (pk pv : Int) (w : Tree) (p : Path) :
    racefree.delete_fixup_after1R x pk pv w p = delete_fixup_after1R x pk pv w p := by
  rcases w with _ | ⟨wc, wk, wv, wl, wr⟩ <;>
    simp only [racefree.delete_fixup_after1R, delete_fixup_after1R]

mutual

theorem rf_delete_fixup_eq (x : Tree) (p : Path) :
    racefree.delete_fixup x p = delete_fixup x p := by
  match p with
  | [] => simp [racefree.delete_fixup, delete_fixup]
  | f :: rest =>
    by_cases hx : colorOf x = .RED
    · simp [racefree.delete_fixup, delete_fixup, hx]
    · rcases f with ⟨fd, fc, fk, fv, fo⟩
      cases fd
      · rcases fo with _ | ⟨wc, wk, wv, wl, wr⟩
        · simp [racefree.delete_fixup, delete_fixup, hx]
        · cases wc
          · simp [racefree.delete_fixup, delete_fixup, hx, rf_after1L_eq]
          · simp only [racefree.delete_fixup, delete_fixup, hx, if_false]
            exact rf_casesL_eq x fc fk fv wk wv wl wr rest
      · rcases fo with _ | ⟨wc, wk, wv, wl, wr⟩
        · simp [racefree.delete_fixup, delete_fixup, hx]
        · cases wc
          · simp [racefree.delete_fixup, delete_fixup, hx, rf_after1R_eq]
          · simp only [racefree.delete_fixup, delete_fixup, hx, if_false]
            exact rf_casesR_eq x fc fk fv wk wv wl wr rest
termination_by 2 * p.length + 1

theorem rf_casesL_eq (x : Tree) (pc : Color) (pk pv wk wv : Int) (wl wr : Tree) (p : Path) :
    racefree.delete_fixup_casesL x pc pk pv wk wv wl wr p
      = delete_fixup_casesL x pc pk pv wk wv wl wr p := by
  unfold racefree.delete_fixup_casesL delete_fixup_casesL
  split
  · exact rf_delete_fixup_eq _ p
  · rfl
termination_by 2 * p.length + 2

theorem rf_casesR_eq (x : Tree) (pc : Color) (pk pv wk wv : Int) (wl wr : Tree) (p : Path) :
    racefree.delete_fixup_casesR x pc pk pv wk wv wl wr p
      = delete_fixup_casesR x pc pk pv wk wv wl wr p := by
  unfold racefree.delete_fixup_casesR delete_fixup_casesR
  split
  · exact rf_delete_fixup_eq _ p
  · rfl
termination_by 2 * p.length + 2

end

theorem rf_eraseAt_eq (zc : Color) (zk zv : Int) (zl zr : Tree) (p : Path) :
    racefree.eraseAt zc zk zv zl zr p = eraseAt zc zk zv zl zr p := by
  rcases zl with _ | ⟨lc, lk, lv, ll, lr⟩ <;> rcases zr with _ | ⟨rc, rk, rv, rl, rr⟩ <;>
    simp only [racefree.eraseAt, eraseAt, rf_delete_fixup_eq, rf_minimumPath_eq]

theorem rf_eraseGo_eq (k : Int) : ∀ (t : Tree) (p : Path),
    racefree.eraseGo k t p = eraseGo k t p := by
  intro t
  induction t with
  | nil => intro p; rfl
  | node zc zk zv zl zr ihl ihr =>
    intro p
    simp [racefree.eraseGo, eraseGo, ihl, ihr, rf_eraseAt_eq]

theorem rf_erase_eq (k : Int) (t : Tree) : racefree.erase k t = erase k t :=
  rf_eraseGo_eq k t []

theorem ep_lookup_eq : ∀ (k : Int) (t : Tree), simple_rbt.lookup k t = lookup k t := by
  intro k t
  induction t with
  | nil => rfl
  | node c k2 v l r ihl ihr => simp [simple_rbt.lookup, lookup, ihl, ihr]

theorem ep_insert_fixup_eq (z : Tree) (p : Path) :
    simple_rbt.insert_fixup z p = insert_fixup z p := by
  match p with
  | [] => rfl
  | [pf] => simp only [simple_rbt.insert_fixup, insert_fixup]
  | pf :: pg :: rest2 =>
    have ih1 := fun z => ep_insert_fixup_eq z rest2
    simp only [simple_rbt.insert_fixup, insert_fixup]
    cases hc : pf.color <;> cases hd : pg.dir <;>
      cases hu : colorOf pg.other <;> cases hfd : pf.dir <;> cases z <;>
      simp [ih1]
termination_by p.length

theorem ep_insertGo_eq (k v : Int) : ∀ (t : Tree) (p : Path),
    simple_rbt.insertGo k v t p = insertGo k v t p := by
  intro t
  induction t with
  | nil => intro p; simp [simple_rbt.insertGo, insertGo, ep_insert_fixup_eq]
  | node c k2 v2 l r ihl ihr =>
    intro p
    simp [simple_rbt.insertGo, insertGo, ihl, ihr]

theorem ep_insert_eq (k v : Int) (t : Tree) : simple_rbt.insert k v t = insert k v t :=
  ep_insertGo_eq k v t []

theorem ep_minimumPath_eq (t : Tree) (p : Path) :
    simple_rbt.minimumPath t p = minimumPath t p := by
  match t with
  | .nil => rfl
  | .node c k v .nil r => rfl
  | .node c k v (.node lc lk lv ll lr) r =>
    have h := ep_minimumPath_eq (.node lc lk lv ll lr) (⟨.L, c, k, v, r⟩ :: p)
    simpa [simple_rbt.minimumPath, minimumPath] using h

theorem ep_after1L_eq (x : Tree) (pk pv : Int) (w : Tree) (p : Path) :
    simple_rbt.delete_fixup_after1L x pk pv w p = delete_fixup_after1L x pk pv w p := by
  rcases w with _ | ⟨wc, wk, wv, wl, wr⟩ <;>
    simp only [simple_rbt.delete_fixup_after1L, delete_fixup_after1L]

theorem ep_after1R_eq (x : Tree) (pk pv : Int) (w : Tree) (p : Path) :
    simple_rbt.delete_fixup_after1R x pk pv w p = delete_fixup_after1R x pk pv w p := by
  rcases w with _ | ⟨wc, wk, wv, wl, wr⟩ <;>
    simp only [simple_rbt.delete_fixup_after1R, delete_fixup_after1R]

mutual

theorem ep_delete_fixup_eq (x : Tree) (p : Path) :
    simple_rbt.delete_fixup x p = delete_fixup x p := by
  match p with
  | [] => simp [simple_rbt.delete_fixup, delete_fixup]
  | f :: rest =>
    by_cases hx : colorOf x = .RED
    · simp [simple_rbt.delete_fixup, delete_fixup, hx]
    · rcases f with ⟨fd, fc, fk, fv, fo⟩
      cases fd
      · rcases fo with _ | ⟨wc, wk, wv, wl, wr⟩
        · simp [simple_rbt.delete_fixup, delete_fixup, hx]
        · cases wc
          · simp [simple_rbt.delete_fixup, delete_fixup, hx, ep_after1L_eq]
          · simp only [simple_rbt.delete_fixup, delete_fixup, hx, if_false]
            exact ep_casesL_eq x fc fk fv wk wv wl wr rest
      · rcases fo with _ | ⟨wc, wk, wv, wl, wr⟩
        · simp [simple_rbt.delete_fixup, delete_fixup, hx]
        · cases wc
          · simp [simple_rbt.delete_fixup, delete_fixup, hx, ep_after1R_eq]
          · simp only [simple_rbt.delete_fixup, delete_fixup, hx, if_false]
            exact ep_casesR_eq x fc fk fv wk wv wl wr rest
termination_by 2 * p.length + 1

theorem ep_casesL_eq (x : Tree) (pc : Color) (pk pv wk wv : Int) (wl wr : Tree) (p : Path) :
    simple_rbt.delete_fixup_casesL x pc pk pv wk wv wl wr p
      = delete_fixup_casesL x pc pk pv wk wv wl wr p := by
  unfold simple_rbt.delete_fixup_casesL delete_fixup_casesL
  split
  · exact ep_delete_fixup_eq _ p
  · rfl
termination_by 2 * p.length + 2

theorem ep_casesR_eq (x : Tree) (pc : Color) (pk pv wk wv : Int) (wl wr : Tree) (p : Path) :
    simple_rbt.delete_fixup_casesR x pc pk pv wk wv wl wr p
      = delete_fixup_casesR x pc pk pv wk wv wl wr p := by
  unfold simple_rbt.delete_fixup_casesR delete_fixup_casesR
  split
  · exact ep_delete_fixup_eq _ p
  · rfl
termination_by 2 * p.length + 2

end

theorem ep_eraseAt_eq (zc : Color) (zk zv : Int) (zl zr : Tree) (p : Path) :
    simple_rbt.eraseAt zc zk zv zl zr p = eraseAt zc zk zv zl zr p := by
  rcases zl with _ | ⟨lc, lk, lv, ll, lr⟩ <;> rcases zr with _ | ⟨rc, rk, rv, rl, rr⟩ <;>
    simp only [simple_rbt.eraseAt, eraseAt, ep_delete_fixup_eq, ep_minimumPath_eq]

theorem ep_eraseGo_eq (k : Int) : ∀ (t : Tree) (p : Path),
    simple_rbt.eraseGo k t p = eraseGo k t p := by
  intro t
  induction t with
  | nil => intro p; rfl
  | node zc zk zv zl zr ihl ihr =>
    intro p
    simp [simple_rbt.eraseGo, eraseGo, ihl, ihr, ep_eraseAt_eq]

theorem ep_erase_eq (k : Int) (t : Tree) : simple_rbt.erase k t = erase k t :=
  ep_eraseGo_eq k t []

theorem applyOpsRF_eq (ops : List Op) : applyOpsRF ops = applyOps ops := by
  unfold applyOpsRF applyOps
  congr 1
  funext t op
  cases op <;> simp [rf_insert_eq, rf_erase_eq]

theorem applyOpsEP_eq (ops : List Op) : applyOpsEP ops = applyOps ops := by
  unfold applyOpsEP applyOps
  congr 1
  funext t op
  cases op <;> simp [ep_insert_eq, ep_erase_eq]

/-! ## Balance development -/

theorem bal_colorOf {t c n} (h : Bal t c n) : colorOf t = c := by
  cases h <;> rfl

theorem bal_nil_inv {c n} (h : Bal Tree.nil c n) : c = .BLACK ∧ n = 0 := by
  cases h; exact ⟨rfl, rfl⟩

theorem bal_ne_nil {t c n} (h : Bal t c (n + 1)) : t ≠ .nil := by
  intro he; subst he; cases (bal_nil_inv h).2

theorem bal_red_inv {k v l r c n} (h : Bal (Tree.node .RED k v l r) c n) :
    c = .RED ∧ Bal l .BLACK n ∧ Bal r .BLACK n := by
  cases h with
  | red hl hr => exact ⟨rfl, hl, hr⟩

theorem bal_black_inv {k v l r c n} (h : Bal (Tree.node .BLACK k v l r) c n) :
    c = .BLACK ∧ ∃ m cl cr, n = m + 1 ∧ Bal l cl m ∧ Bal r cr m := by
  cases h with
  | black hl hr => exact ⟨rfl, _, _, _, rfl, hl, hr⟩

theorem paintBlack_bal {t c n} (h : Bal t c n) :
    Bal (paintBlack t) .BLACK (if c = .RED then n + 1 else n) := by
  cases h with
  | nil => simpa [paintBlack] using Bal.nil
  | red hl hr => simpa [paintBlack] using Bal.black hl hr
  | black hl hr => simpa [paintBlack] using Bal.black hl hr

theorem bal_black_zero {t : Tree} (h : Bal t .BLACK 0) : t = .nil := by
  cases h; rfl

theorem paintBlack_bal_ex {t c n} (h : Bal t c n) : ∃ m, Bal (paintBlack t) .BLACK m :=
  ⟨_, paintBlack_bal h⟩

theorem pathBal_cons {f : Frame} {p : Path} {n : Nat} (h : PathBal (f :: p) n) :
    (f.color = .BLACK ∧ (∃ co, Bal f.other co n) ∧ PathBal p (n + 1)) ∨
    (f.color = .RED ∧ Bal f.other .BLACK n ∧ headBlack p ∧ PathBal p n) := by
  cases h with
  | black ho hp => exact Or.inl ⟨rfl, ⟨_, ho⟩, hp⟩
  | red ho hb hp => exact Or.inr ⟨rfl, ho, hb, hp⟩

/-- Plugging a balanced subtree into a balanced context yields a
balanced tree; any context frame makes the root BLACK (a RED outermost
frame is impossible). -/
theorem plug_bal : ∀ (p : Path) {n : Nat} (t : Tree) (c : Color),
    PathBal p n → Bal t c n → (c = .RED → headBlack p ∨ p = []) →
    ∃ m c2, Bal (plug t p) c2 m ∧ (p ≠ [] → c2 = .BLACK) ∧ (p = [] → c2 = c)
  | [], n, t, c, _, hb, _ => ⟨n, c, hb, fun h => absurd rfl h, fun _ => rfl⟩
  | f :: p', n, t, c, hp, hb, hbd => by
    rcases pathBal_cons hp with ⟨hfc, ⟨co, ho⟩, hp'⟩ | ⟨hfc, ho, hhb, hp'⟩
    · -- BLACK frame
      have h1 : Bal (plug1 f t) .BLACK (n + 1) := by
        rcases f with ⟨d, fc, fk, fv, fo⟩
        simp only at hfc; subst hfc
        cases d <;> simp only [plug1] <;> exact Bal.black (by assumption) (by assumption)
      obtain ⟨m, c2, hb2, hne, heq⟩ :=
        plug_bal p' (plug1 f t) .BLACK hp' h1 (by intro h; cases h)
      refine ⟨m, c2, hb2, fun _ => ?_, fun h => by cases h⟩
      rcases List.eq_nil_or_concat p' with h | _
      · subst h; exact heq rfl
      · exact hne (by rename_i h2; rcases h2 with ⟨a, b, rfl⟩; simp)
    · -- RED frame: the subtree below must be BLACK-rooted
      have hcb : c = .BLACK := by
        cases c
        · rcases hbd rfl with h | h
          · rw [headBlack, hfc] at h; cases h
          · cases h
        · rfl
      subst hcb
      have h1 : Bal (plug1 f t) .RED n := by
        rcases f with ⟨d, fc, fk, fv, fo⟩
        simp only at hfc; subst hfc
        cases d <;> simp only [plug1] <;> exact Bal.red (by assumption) (by assumption)
      obtain ⟨m, c2, hb2, hne, heq⟩ :=
        plug_bal p' (plug1 f t) .RED hp' h1 (fun _ => Or.inl hhb)
      have hp'ne : p' ≠ [] := by
        intro h; subst h; cases hhb
      exact ⟨m, c2, hb2, fun _ => hne hp'ne, fun h => by cases h⟩

/-- Rebalancing after `insert` always succeeds on a red-black context
and restores all color invariants (CLRS loop invariant: the focus `z`
is RED and internally balanced, the only possible violation is between
`z` and its parent frame). -/
theorem insert_fixup_bal (p : Path) : ∀ (z : Tree) (n : Nat),
    Bal z .RED n → PathBal p n →
    ∃ t m, insert_fixup z p = some t ∧ Bal t .BLACK m := by
  match p with
  | [] =>
    intro z n hz _
    exact ⟨paintBlack z, n + 1, rfl, by simpa using paintBlack_bal hz⟩
  | pf :: rest =>
    intro z n hz hp
    have hznil : z ≠ .nil := fun h => by subst h; cases hz
    rcases pf with ⟨pfd, pfc, pfk, pfv, pfo⟩
    cases pfc
    case BLACK =>
      -- z->parent is BLACK: the loop exits and the root is painted BLACK
      obtain ⟨m, c2, hb2, -, -⟩ :=
        plug_bal (⟨pfd, .BLACK, pfk, pfv, pfo⟩ :: rest) z .RED hp hz
          (fun _ => Or.inl rfl)
      cases hz with
      | red hzl hzr =>
        refine ⟨_, _, ?_, by simpa using paintBlack_bal hb2⟩
        cases rest <;> simp [insert_fixup]
    case RED =>
      rcases pathBal_cons hp with ⟨hfc, -, -⟩ | ⟨-, hs, hhb, hrest⟩
      · cases hfc
      match rest, hhb, hrest with
      | [], hhb, _ => cases hhb
      | pg :: rest2, hhb, hrest =>
        rcases pg with ⟨pgd, pgc, pgk, pgv, pgo⟩
        have hpgc : pgc = .BLACK := hhb
        subst hpgc
        rcases pathBal_cons hrest with ⟨-, ⟨co, hu⟩, hrest2⟩ | ⟨hfc, -, -, -⟩
        swap
        · cases hfc
        have hcu := bal_colorOf hu
        cases hz with
        | red hzl hzr =>
          rename_i zl zr zk zv
          cases co
          case RED =>
            -- Case 1: recolor parent and uncle BLACK, grandparent RED, ascend
            have hub : Bal (paintBlack pgo) .BLACK (n + 1) := by
              simpa [hcu] using paintBlack_bal hu
            have hpb : Bal (paintBlack (plug1 ⟨pfd, .RED, pfk, pfv, pfo⟩
                (.node .RED zk zv zl zr))) .BLACK (n + 1) := by
              cases pfd <;> simp only [plug1] <;> simp only [paintBlack] <;>
                [exact Bal.black (Bal.red hzl hzr) hs; exact Bal.black hs (Bal.red hzl hzr)]
            cases pgd
            case L =>
              obtain ⟨t, m, heq, hbal⟩ :=
                insert_fixup_bal rest2 (.node .RED pgk pgv
                  (paintBlack (plug1 ⟨pfd, .RED, pfk, pfv, pfo⟩ (.node .RED zk zv zl zr)))
                  (paintBlack pgo))
                  (n + 1) (Bal.red hpb hub) hrest2
              refine ⟨t, m, ?_, hbal⟩
              simp only [insert_fixup, hcu]
              simpa using heq
            case R =>
              obtain ⟨t, m, heq, hbal⟩ :=
                insert_fixup_bal rest2 (.node .RED pgk pgv
                  (paintBlack pgo)
                  (paintBlack (plug1 ⟨pfd, .RED, pfk, pfv, pfo⟩ (.node .RED zk zv zl zr))))
                  (n + 1) (Bal.red hub hpb) hrest2
              refine ⟨t, m, ?_, hbal⟩
              simp only [insert_fixup, hcu]
              simpa using heq
          case BLACK =>
            -- Cases 2/3: rotations, terminal
            have hfin : ∀ S : Tree, Bal S .BLACK (n + 1) →
                ∃ m, Bal (paintBlack (plug S rest2)) .BLACK m := by
              intro S hS
              obtain ⟨m, c2, hb2, -, -⟩ :=
                plug_bal rest2 S .BLACK hrest2 hS (by intro h; cases h)
              exact ⟨_, paintBlack_bal hb2⟩
            cases pgd <;> cases pfd
            case L.L =>
              obtain ⟨m, hm⟩ := hfin
                (.node .BLACK pfk pfv (.node .RED zk zv zl zr)
                  (.node .RED pgk pgv pfo pgo))
                (Bal.black (Bal.red hzl hzr) (Bal.red hs hu))
              exact ⟨_, m, by simp [insert_fixup, hcu], hm⟩
            case L.R =>
              obtain ⟨m, hm⟩ := hfin
                (.node .BLACK zk zv (.node .RED pfk pfv pfo zl)
                  (.node .RED pgk pgv zr pgo))
                (Bal.black (Bal.red hs hzl) (Bal.red hzr hu))
              exact ⟨_, m, by simp [insert_fixup, hcu], hm⟩
            case R.L =>
              obtain ⟨m, hm⟩ := hfin
                (.node .BLACK zk zv (.node .RED pgk pgv pgo zl)
                  (.node .RED pfk pfv zr pfo))
                (Bal.black (Bal.red hu hzl) (Bal.red hzr hs))
              exact ⟨_, m, by simp [insert_fixup, hcu], hm⟩
            case R.R =>
              obtain ⟨m, hm⟩ := hfin
                (.node .BLACK pfk pfv (.node .RED pgk pgv pgo pfo)
                  (.node .RED zk zv zl zr))
                (Bal.black (Bal.red hu hs) (Bal.red hzl hzr))
              exact ⟨_, m, by simp [insert_fixup, hcu], hm⟩
termination_by p.length

/-- Overwriting a node's value does not affect balance. -/
theorem bal_setVal {c2 : Color} {k2 v2 v : Int} {l r : Tree} {c : Color} {n : Nat}
    (h : Bal (Tree.node c2 k2 v2 l r) c n) : Bal (Tree.node c2 k2 v l r) c n := by
  cases h with
  | red hl hr => exact Bal.red hl hr
  | black hl hr => exact Bal.black hl hr

/-- The `insert` descent and attach preserve the red-black invariants
(the result is BLACK-rooted unless the overwritten duplicate was the
root, which is then returned with its own color). -/
theorem insertGo_bal (k v : Int) : ∀ (t : Tree) (p : Path) (c : Color) (n : Nat),
    Bal t c n → PathBal p n → (c = .RED → headBlack p) →
    ∃ t2 m c3, insertGo k v t p = some t2 ∧ Bal t2 c3 m ∧
      (c3 = .BLACK ∨ (c3 = c ∧ p = [])) := by
  intro t
  induction t with
  | nil =>
    intro p c n hb hp _
    obtain ⟨rfl, rfl⟩ := bal_nil_inv hb
    obtain ⟨t2, m, heq, hbal⟩ :=
      insert_fixup_bal p (.node .RED k v .nil .nil) 0 (Bal.red Bal.nil Bal.nil) hp
    exact ⟨t2, m, .BLACK, by simpa [insertGo] using heq, hbal, Or.inl rfl⟩
  | node c2 k2 v2 l r ihl ihr =>
    intro p c n hb hp hbd
    rcases lt_trichotomy k k2 with hk | hk | hk
    · -- descend left
      have hstep : ∃ n2 cl, Bal l cl n2 ∧ PathBal (⟨.L, c2, k2, v2, r⟩ :: p) n2 ∧
          (cl = .RED → headBlack (⟨.L, c2, k2, v2, r⟩ :: p)) := by
        cases c2
        · obtain ⟨rfl, hl, hr⟩ := bal_red_inv hb
          exact ⟨n, .BLACK, hl, PathBal.red hr (hbd rfl) hp, fun h => by cases h⟩
        · obtain ⟨-, m, cl, cr, rfl, hl, hr⟩ := bal_black_inv hb
          exact ⟨m, cl, hl, PathBal.black hr hp, fun _ => rfl⟩
      obtain ⟨n2, cl, hl, hp2, hbd2⟩ := hstep
      obtain ⟨t2, m, c3, heq, hbal, hc3⟩ := ihl (⟨.L, c2, k2, v2, r⟩ :: p) cl n2 hl hp2 hbd2
      refine ⟨t2, m, .BLACK, ?_, ?_, Or.inl rfl⟩
      · simpa [insertGo, hk, not_lt.2 (le_of_lt hk)] using heq
      · rcases hc3 with rfl | ⟨-, h⟩
        · exact hbal
        · cases h
    · -- duplicate key: overwrite value in place
      subst hk
      obtain ⟨m, c4, hb2, hne, hnil⟩ :=
        plug_bal p (.node c2 k v l r) c hp (bal_setVal hb) (fun h => Or.inl (hbd h))
      refine ⟨_, m, c4, by simp [insertGo], hb2, ?_⟩
      rcases List.eq_nil_or_concat p with rfl | ⟨a, b, rfl⟩
      · exact Or.inr ⟨hnil rfl, rfl⟩
      · exact Or.inl (hne (by simp))
    · -- descend right
      have hstep : ∃ n2 cr, Bal r cr n2 ∧ PathBal (⟨.R, c2, k2, v2, l⟩ :: p) n2 ∧
          (cr = .RED → headBlack (⟨.R, c2, k2, v2, l⟩ :: p)) := by
        cases c2
        · obtain ⟨rfl, hl, hr⟩ := bal_red_inv hb
          exact ⟨n, .BLACK, hr, PathBal.red hl (hbd rfl) hp, fun h => by cases h⟩
        · obtain ⟨-, m, cl, cr, rfl, hl, hr⟩ := bal_black_inv hb
          exact ⟨m, cr, hr, PathBal.black hl hp, fun _ => rfl⟩
      obtain ⟨n2, cr, hr, hp2, hbd2⟩ := hstep
      obtain ⟨t2, m, c3, heq, hbal, hc3⟩ := ihr (⟨.R, c2, k2, v2, l⟩ :: p) cr n2 hr hp2 hbd2
      refine ⟨t2, m, .BLACK, ?_, ?_, Or.inl rfl⟩
      · simpa [insertGo, hk, not_lt.2 (le_of_lt hk), lt_irrefl] using heq
      · rcases hc3 with rfl | ⟨-, h⟩
        · exact hbal
        · cases h

/-- `insert` on a well-formed tree succeeds and preserves invariants
1-5 (BLACK root included). -/
theorem insert_bal (k v : Int) {t : Tree} {n : Nat} (h : Bal t .BLACK n) :
    ∃ t2 m, insert k v t = some t2 ∧ Bal t2 .BLACK m := by
  obtain ⟨t2, m, c3, heq, hbal, hc3⟩ :=
    insertGo_bal k v t [] .BLACK n h PathBal.nil (fun h2 => by cases h2)
  refine ⟨t2, m, heq, ?_⟩
  rcases hc3 with rfl | ⟨rfl, -⟩ <;> exact hbal

/-- The loop of `delete_fixup` exits immediately on a RED focus and
paints it BLACK. -/
theorem delete_fixup_red_exit (x : Tree) (p : Path) (h : colorOf x = .RED) :
    delete_fixup x p = some (plug (paintBlack x) p) := by
  cases p <;> simp [delete_fixup, h, plug]

theorem after1L_bal (x w : Tree) (pk pv : Int) (p : Path) (n : Nat)
    (hx : Bal x .BLACK n) (hw : Bal w .BLACK (n + 1)) (hp : PathBal p (n + 1))
    (hhb : headBlack p) :
    ∃ t m, delete_fixup_after1L x pk pv w p = some t ∧ Bal t .BLACK m := by
  cases hw with
  | black hwl hwr =>
    rename_i wl wr cl cr wk wv
    have hcl := bal_colorOf hwl
    have hcr := bal_colorOf hwr
    cases cr
    case RED =>
      -- Case 4 (far nephew RED)
      cases hwr with
      | red hbl hbr =>
        rename_i bl br bk bv
        have hS : Bal (.node .RED wk wv (.node .BLACK pk pv x wl)
            (.node .BLACK bk bv bl br)) .RED (n + 1) :=
          Bal.red (Bal.black hx hwl) (Bal.black hbl hbr)
        obtain ⟨m, c2, hb2, -, -⟩ := plug_bal p _ .RED hp hS (fun _ => Or.inl hhb)
        refine ⟨_, _, ?_, paintBlack_bal hb2⟩
        simp [delete_fixup_after1L, hcl, hcr]
    case BLACK =>
      cases cl
      case RED =>
        -- Case 3 then Case 4
        cases hwl with
        | red hal har =>
          rename_i al ar ak av
          have hS : Bal (.node .RED ak av (.node .BLACK pk pv x al)
              (.node .BLACK wk wv ar wr)) .RED (n + 1) :=
            Bal.red (Bal.black hx hal) (Bal.black har hwr)
          obtain ⟨m, c2, hb2, -, -⟩ := plug_bal p _ .RED hp hS (fun _ => Or.inl hhb)
          refine ⟨_, _, ?_, paintBlack_bal hb2⟩
          simp [delete_fixup_after1L, hcl, hcr]
      case BLACK =>
        -- Case 2: parent (RED after Case 1) absorbs, loop exits
        have hS : Bal (.node .BLACK pk pv x (.node .RED wk wv wl wr)) .BLACK (n + 1) :=
          Bal.black hx (Bal.red hwl hwr)
        obtain ⟨m, c2, hb2, hne, hnil⟩ := plug_bal p _ .BLACK hp hS (fun h => by cases h)
        have hc2 : c2 = .BLACK := by
          rcases List.eq_nil_or_concat p with rfl | ⟨a, b, rfl⟩
          · exact hnil rfl
          · exact hne (by simp)
        subst hc2
        exact ⟨_, _, by simp [delete_fixup_after1L, hcl, hcr], hb2⟩

theorem after1R_bal (x w : Tree) (pk pv : Int) (p : Path) (n : Nat)
    (hx : Bal x .BLACK n) (hw : Bal w .BLACK (n + 1)) (hp : PathBal p (n + 1))
    (hhb : headBlack p) :
    ∃ t m, delete_fixup_after1R x pk pv w p = some t ∧ Bal t .BLACK m := by
  cases hw with
  | black hwl hwr =>
    rename_i wl wr cl cr wk wv
    have hcl := bal_colorOf hwl
    have hcr := bal_colorOf hwr
    cases cl
    case RED =>
      cases hwl with
      | red hal har =>
        rename_i al ar ak av
        have hS : Bal (.node .RED wk wv (.node .BLACK ak av al ar)
            (.node .BLACK pk pv wr x)) .RED (n + 1) :=
          Bal.red (Bal.black hal har) (Bal.black hwr hx)
        obtain ⟨m, c2, hb2, -, -⟩ := plug_bal p _ .RED hp hS (fun _ => Or.inl hhb)
        refine ⟨_, _, ?_, paintBlack_bal hb2⟩
        simp [delete_fixup_after1R, hcl, hcr]
    case BLACK =>
      cases cr
      case RED =>
        cases hwr with
        | red hbl hbr =>
          rename_i bl br bk bv
          have hS : Bal (.node .RED bk bv (.node .BLACK wk wv wl bl)
              (.node .BLACK pk pv br x)) .RED (n + 1) :=
            Bal.red (Bal.black hwl hbl) (Bal.black hbr hx)
          obtain ⟨m, c2, hb2, -, -⟩ := plug_bal p _ .RED hp hS (fun _ => Or.inl hhb)
          refine ⟨_, _, ?_, paintBlack_bal hb2⟩
          simp [delete_fixup_after1R, hcl, hcr]
      case BLACK =>
        have hS : Bal (.node .BLACK pk pv (.node .RED wk wv wl wr) x) .BLACK (n + 1) :=
          Bal.black (Bal.red hwl hwr) hx
        obtain ⟨m, c2, hb2, hne, hnil⟩ := plug_bal p _ .BLACK hp hS (fun h => by cases h)
        have hc2 : c2 = .BLACK := by
          rcases List.eq_nil_or_concat p with rfl | ⟨a, b, rfl⟩
          · exact hnil rfl
          · exact hne (by simp)
        subst hc2
        exact ⟨_, _, by simp [delete_fixup_after1R, hcl, hcr], hb2⟩

theorem casesL_bal (x wl wr : Tree) (pc cl cr : Color) (pk pv wk wv : Int) (p : Path) (n : Nat)
    (IH : ∀ (x2 : Tree) (c2 : Color) (n2 : Nat), Bal x2 c2 n2 → PathBal p (n2 + 1) →
      ∃ t m, delete_fixup x2 p = some t ∧ Bal t .BLACK m)
    (hx : Bal x .BLACK n) (hwl : Bal wl cl n) (hwr : Bal wr cr n)
    (hcb : pc = .BLACK → PathBal p (n + 2))
    (hcr2 : pc = .RED → headBlack p ∧ PathBal p (n + 1)) :
    ∃ t m, delete_fixup_casesL x pc pk pv wk wv wl wr p = some t ∧ Bal t .BLACK m := by
  have hcll := bal_colorOf hwl
  have hcrr := bal_colorOf hwr
  cases cr
  case RED =>
    -- Case 4
    cases hwr with
    | red hbl hbr =>
      rename_i bl br bk bv
      cases pc
      case RED =>
        obtain ⟨m, c2, hb2, -, -⟩ :=
          plug_bal p (.node .RED wk wv (.node .BLACK pk pv x wl)
            (.node .BLACK bk bv bl br)) .RED ((hcr2 rfl).2)
            (Bal.red (Bal.black hx hwl) (Bal.black hbl hbr))
            (fun _ => Or.inl (hcr2 rfl).1)
        refine ⟨_, _, ?_, paintBlack_bal hb2⟩
        unfold delete_fixup_casesL
        simp [hcll, hcrr]
      case BLACK =>
        obtain ⟨m, c2, hb2, -, -⟩ :=
          plug_bal p (.node .BLACK wk wv (.node .BLACK pk pv x wl)
            (.node .BLACK bk bv bl br)) .BLACK (hcb rfl)
            (Bal.black (Bal.black hx hwl) (Bal.black hbl hbr))
            (fun h => by cases h)
        refine ⟨_, _, ?_, paintBlack_bal hb2⟩
        unfold delete_fixup_casesL
        simp [hcll, hcrr]
  case BLACK =>
    cases cl
    case RED =>
      -- Case 3 then Case 4
      cases hwl with
      | red hal har =>
        rename_i al ar ak av
        have hS : Bal (.node .BLACK pk pv x al) .BLACK (n + 1) := Bal.black hx hal
        have hS2 : Bal (.node .BLACK wk wv ar wr) .BLACK (n + 1) := Bal.black har hwr
        cases pc
        case RED =>
          obtain ⟨m, c2, hb2, -, -⟩ :=
            plug_bal p (.node .RED ak av (.node .BLACK pk pv x al)
              (.node .BLACK wk wv ar wr)) .RED ((hcr2 rfl).2) (Bal.red hS hS2)
              (fun _ => Or.inl (hcr2 rfl).1)
          refine ⟨_, _, ?_, paintBlack_bal hb2⟩
          unfold delete_fixup_casesL
          simp [hcll, hcrr]
        case BLACK =>
          obtain ⟨m, c2, hb2, -, -⟩ :=
            plug_bal p (.node .BLACK ak av (.node .BLACK pk pv x al)
              (.node .BLACK wk wv ar wr)) .BLACK (hcb rfl) (Bal.black hS hS2)
              (fun h => by cases h)
          refine ⟨_, _, ?_, paintBlack_bal hb2⟩
          unfold delete_fixup_casesL
          simp [hcll, hcrr]
    case BLACK =>
      -- Case 2: recolor sibling RED, ascend
      have hred : Bal (.node .RED wk wv wl wr) .RED n := Bal.red hwl hwr
      have hstep : delete_fixup_casesL x pc pk pv wk wv wl wr p
          = delete_fixup (.node pc pk pv x (.node .RED wk wv wl wr)) p := by
        unfold delete_fixup_casesL
        simp [hcll, hcrr]
      cases pc
      case RED =>
        rw [hstep, delete_fixup_red_exit
          (.node .RED pk pv x (.node .RED wk wv wl wr)) p rfl]
        have hS : Bal (.node .BLACK pk pv x (.node .RED wk wv wl wr)) .BLACK (n + 1) :=
          Bal.black hx hred
        obtain ⟨m, c2, hb2, hne, hnil⟩ :=
          plug_bal p _ .BLACK ((hcr2 rfl).2) hS (fun h => by cases h)
        have hc2 : c2 = .BLACK := by
          rcases List.eq_nil_or_concat p with rfl | ⟨a, b, rfl⟩
          · exact hnil rfl
          · exact hne (by simp)
        subst hc2
        exact ⟨_, _, by simp [paintBlack], hb2⟩
      case BLACK =>
        obtain ⟨t, m, heq, hbal⟩ :=
          IH (.node .BLACK pk pv x (.node .RED wk wv wl wr)) .BLACK (n + 1)
            (Bal.black hx hred) (hcb rfl)
        exact ⟨t, m, by rw [hstep]; exact heq, hbal⟩

theorem casesR_bal (x wl wr : Tree) (pc cl cr : Color) (pk pv wk wv : Int) (p : Path) (n : Nat)
    (IH : ∀ (x2 : Tree) (c2 : Color) (n2 : Nat), Bal x2 c2 n2 → PathBal p (n2 + 1) →
      ∃ t m, delete_fixup x2 p = some t ∧ Bal t .BLACK m)
    (hx : Bal x .BLACK n) (hwl : Bal wl cl n) (hwr : Bal wr cr n)
    (hcb : pc = .BLACK → PathBal p (n + 2))
    (hcr2 : pc = .RED → headBlack p ∧ PathBal p (n + 1)) :
    ∃ t m, delete_fixup_casesR x pc pk pv wk wv wl wr p = some t ∧ Bal t .BLACK m := by
  have hcll := bal_colorOf hwl
  have hcrr := bal_colorOf hwr
  cases cl
  case RED =>
    cases hwl with
    | red hal har =>
      rename_i al ar ak av
      have hS : Bal (.node .BLACK ak av al ar) .BLACK (n + 1) := Bal.black hal har
      have hS2 : Bal (.node .BLACK pk pv wr x) .BLACK (n + 1) := Bal.black hwr hx
      cases pc
      case RED =>
        obtain ⟨m, c2, hb2, -, -⟩ :=
          plug_bal p (.node .RED wk wv (.node .BLACK ak av al ar)
            (.node .BLACK pk pv wr x)) .RED ((hcr2 rfl).2) (Bal.red hS hS2)
            (fun _ => Or.inl (hcr2 rfl).1)
        refine ⟨_, _, ?_, paintBlack_bal hb2⟩
        unfold delete_fixup_casesR
        simp [hcll, hcrr]
      case BLACK =>
        obtain ⟨m, c2, hb2, -, -⟩ :=
          plug_bal p (.node .BLACK wk wv (.node .BLACK ak av al ar)
            (.node .BLACK pk pv wr x)) .BLACK (hcb rfl) (Bal.black hS hS2)
            (fun h => by cases h)
        refine ⟨_, _, ?_, paintBlack_bal hb2⟩
        unfold delete_fixup_casesR
        simp [hcll, hcrr]
  case BLACK =>
    cases cr
    case RED =>
      cases hwr with
      | red hbl hbr =>
        rename_i bl br bk bv
        have hS : Bal (.node .BLACK wk wv wl bl) .BLACK (n + 1) := Bal.black hwl hbl
        have hS2 : Bal (.node .BLACK pk pv br x) .BLACK (n + 1) := Bal.black hbr hx
        cases pc
        case RED =>
          obtain ⟨m, c2, hb2, -, -⟩ :=
            plug_bal p (.node .RED bk bv (.node .BLACK wk wv wl bl)
              (.node .BLACK pk pv br x)) .RED ((hcr2 rfl).2) (Bal.red hS hS2)
              (fun _ => Or.inl (hcr2 rfl).1)
          refine ⟨_, _, ?_, paintBlack_bal hb2⟩
          unfold delete_fixup_casesR
          simp [hcll, hcrr]
        case BLACK =>
          obtain ⟨m, c2, hb2, -, -⟩ :=
            plug_bal p (.node .BLACK bk bv (.node .BLACK wk wv wl bl)
              (.node .BLACK pk pv br x)) .BLACK (hcb rfl) (Bal.black hS hS2)
              (fun h => by cases h)
          refine ⟨_, _, ?_, paintBlack_bal hb2⟩
          unfold delete_fixup_casesR
          simp [hcll, hcrr]
    case BLACK =>
      have hred : Bal (.node .RED wk wv wl wr) .RED n := Bal.red hwl hwr
      have hstep : delete_fixup_casesR x pc pk pv wk wv wl wr p
          = delete_fixup (.node pc pk pv (.node .RED wk wv wl wr) x) p := by
        unfold delete_fixup_casesR
        simp [hcll, hcrr]
      cases pc
      case RED =>
        rw [hstep, delete_fixup_red_exit
          (.node .RED pk pv (.node .RED wk wv wl wr) x) p rfl]
        have hS : Bal (.node .BLACK pk pv (.node .RED wk wv wl wr) x) .BLACK (n + 1) :=
          Bal.black hred hx
        obtain ⟨m, c2, hb2, hne, hnil⟩ :=
          plug_bal p _ .BLACK ((hcr2 rfl).2) hS (fun h => by cases h)
        have hc2 : c2 = .BLACK := by
          rcases List.eq_nil_or_concat p with rfl | ⟨a, b, rfl⟩
          · exact hnil rfl
          · exact hne (by simp)
        subst hc2
        exact ⟨_, _, by simp [paintBlack], hb2⟩
      case BLACK =>
        obtain ⟨t, m, heq, hbal⟩ :=
          IH (.node .BLACK pk pv (.node .RED wk wv wl wr) x) .BLACK (n + 1)
            (Bal.black hred hx) (hcb rfl)
        exact ⟨t, m, by rw [hstep]; exact heq, hbal⟩

/-- `delete_fixup` on a focus carrying a one-black deficiency against
its context succeeds and restores all color invariants with a BLACK
root. -/
theorem delete_fixup_bal : ∀ (p : Path) (x : Tree) (c : Color) (n : Nat),
    Bal x c n → PathBal p (n + 1) →
    ∃ t m, delete_fixup x p = some t ∧ Bal t .BLACK m := by
  intro p
  induction p with
  | nil =>
    intro x c n hx _
    exact ⟨_, _, by simp [delete_fixup], paintBlack_bal hx⟩
  | cons f rest ihp =>
    intro x c n hx hp
    have hcx := bal_colorOf hx
    cases c
    case RED =>
      rw [delete_fixup_red_exit x (f :: rest) hcx]
      have hS : Bal (paintBlack x) .BLACK (n + 1) := by simpa using paintBlack_bal hx
      obtain ⟨m, c2, hb2, hne, -⟩ :=
        plug_bal (f :: rest) _ .BLACK hp hS (fun h => by cases h)
      have hc2 := hne (by simp)
      subst hc2
      exact ⟨_, _, rfl, hb2⟩
    case BLACK =>
      rcases f with ⟨fd, fc, fk, fv, fo⟩
      rcases pathBal_cons hp with ⟨hfc, ⟨co, hfo⟩, hrest⟩ | ⟨hfc, hfo, hhb, hrest⟩
      · -- BLACK parent frame
        simp only at hfc; subst hfc
        have hco := bal_colorOf hfo
        cases co
        case RED =>
          -- RED sibling: Case 1
          cases hfo with
          | red hwl hwr =>
            rename_i wl wr wk wv
            cases fd
            case L =>
              obtain ⟨t, m, heq, hbal⟩ :=
                after1L_bal x wl fk fv (⟨.L, .BLACK, wk, wv, wr⟩ :: rest) n hx hwl
                  (PathBal.black hwr hrest) rfl
              refine ⟨t, m, ?_, hbal⟩
              rw [show delete_fixup x (⟨Dir.L, .BLACK, fk, fv,
                  .node .RED wk wv wl wr⟩ :: rest)
                  = delete_fixup_after1L x fk fv wl (⟨.L, .BLACK, wk, wv, wr⟩ :: rest) by
                simp [delete_fixup, hcx]]
              exact heq
            case R =>
              obtain ⟨t, m, heq, hbal⟩ :=
                after1R_bal x wr fk fv (⟨.R, .BLACK, wk, wv, wl⟩ :: rest) n hx hwr
                  (PathBal.black hwl hrest) rfl
              refine ⟨t, m, ?_, hbal⟩
              rw [show delete_fixup x (⟨Dir.R, .BLACK, fk, fv,
                  .node .RED wk wv wl wr⟩ :: rest)
                  = delete_fixup_after1R x fk fv wr (⟨.R, .BLACK, wk, wv, wl⟩ :: rest) by
                simp [delete_fixup, hcx]]
              exact heq
        case BLACK =>
          -- BLACK sibling, BLACK parent
          cases hfo with
          | black hwl hwr =>
            rename_i wl wr cl cr wk wv
            cases fd
            case L =>
              obtain ⟨t, m, heq, hbal⟩ :=
                casesL_bal x wl wr .BLACK cl cr fk fv wk wv rest n ihp hx hwl hwr
                  (fun _ => hrest) (fun h => by cases h)
              refine ⟨t, m, ?_, hbal⟩
              rw [show delete_fixup x (⟨Dir.L, .BLACK, fk, fv,
                  .node .BLACK wk wv wl wr⟩ :: rest)
                  = delete_fixup_casesL x .BLACK fk fv wk wv wl wr rest by
                simp [delete_fixup, hcx]]
              exact heq
            case R =>
              obtain ⟨t, m, heq, hbal⟩ :=
                casesR_bal x wl wr .BLACK cl cr fk fv wk wv rest n ihp hx hwl hwr
                  (fun _ => hrest) (fun h => by cases h)
              refine ⟨t, m, ?_, hbal⟩
              rw [show delete_fixup x (⟨Dir.R, .BLACK, fk, fv,
                  .node .BLACK wk wv wl wr⟩ :: rest)
                  = delete_fixup_casesR x .BLACK fk fv wk wv wl wr rest by
                simp [delete_fixup, hcx]]
              exact heq
      · -- RED parent frame: sibling is BLACK-rooted
        simp only at hfc; subst hfc
        have hco := bal_colorOf hfo
        cases hfo with
        | black hwl hwr =>
          rename_i wl wr cl cr wk wv
          cases fd
          case L =>
            obtain ⟨t, m, heq, hbal⟩ :=
              casesL_bal x wl wr .RED cl cr fk fv wk wv rest n ihp hx hwl hwr
                (fun h => by cases h) (fun _ => ⟨hhb, hrest⟩)
            refine ⟨t, m, ?_, hbal⟩
            rw [show delete_fixup x (⟨Dir.L, .RED, fk, fv,
                .node .BLACK wk wv wl wr⟩ :: rest)
                = delete_fixup_casesL x .RED fk fv wk wv wl wr rest by
              simp [delete_fixup, hcx]]
            exact heq
          case R =>
            obtain ⟨t, m, heq, hbal⟩ :=
              casesR_bal x wl wr .RED cl cr fk fv wk wv rest n ihp hx hwl hwr
                (fun h => by cases h) (fun _ => ⟨hhb, hrest⟩)
            refine ⟨t, m, ?_, hbal⟩
            rw [show delete_fixup x (⟨Dir.R, .RED, fk, fv,
                .node .BLACK wk wv wl wr⟩ :: rest)
                = delete_fixup_casesR x .RED fk fv wk wv wl wr rest by
              simp [delete_fixup, hcx]]
            exact heq

/-- The frames produced by `minimumPath` only extend the starting
path. -/
theorem minimumPath_shift : ∀ (t : Tree) (p0 : Path),
    minimumPath t p0 = (minimumPath t []).map (fun r => (r.1, r.2 ++ p0)) := by
  intro t
  induction t with
  | nil => intro p0; rfl
  | node c k v l r ihl ihr =>
    intro p0
    rcases l with _ | ⟨lc, lk, lv, ll, lr⟩
    · rfl
    · show minimumPath (.node lc lk lv ll lr) (⟨.L, c, k, v, r⟩ :: p0) = _
      rw [ihl (⟨.L, c, k, v, r⟩ :: p0)]
      conv =>
        rhs
        rw [show minimumPath (Tree.node c k v (.node lc lk lv ll lr) r) []
            = minimumPath (.node lc lk lv ll lr) [⟨.L, c, k, v, r⟩] from rfl]
        rw [ihl [⟨.L, c, k, v, r⟩]]
      cases minimumPath (.node lc lk lv ll lr) [] <;> simp

/-- `minimum` finds a balanced node with sentinel left child, in a
balanced context. -/
theorem minimumPath_bal : ∀ (t : Tree) (c : Color) (n : Nat) (p0 : Path),
    Bal t c n → PathBal p0 n → (c = .RED → headBlack p0) → t ≠ .nil →
    ∃ yc yk yv yr q, minimumPath t p0 = some ((yc, yk, yv, yr), q) ∧
      ∃ ny, Bal (.node yc yk yv .nil yr) yc ny ∧ PathBal q ny ∧
        (yc = .RED → headBlack q) := by
  intro t
  induction t with
  | nil => intro c n p0 _ _ _ hne; exact absurd rfl hne
  | node c2 k2 v2 l r ihl ihr =>
    intro c n p0 hb hp hbd _
    rcases l with _ | ⟨lc, lk, lv, ll, lr⟩
    · -- left child is the sentinel: this node is the minimum
      refine ⟨c2, k2, v2, r, p0, rfl, n, ?_, hp, ?_⟩
      · have := bal_colorOf hb
        subst this
        exact hb
      · intro h
        have := bal_colorOf hb
        subst this
        exact hbd h
    · -- descend left
      have hstep : ∃ n2 cl, Bal (.node lc lk lv ll lr) cl n2 ∧
          PathBal (⟨.L, c2, k2, v2, r⟩ :: p0) n2 ∧
          (cl = .RED → headBlack (⟨.L, c2, k2, v2, r⟩ :: p0)) := by
        cases c2
        · obtain ⟨rfl, hl, hr⟩ := bal_red_inv hb
          exact ⟨n, .BLACK, hl, PathBal.red hr (hbd rfl) hp, fun h => by cases h⟩
        · obtain ⟨-, m, cl, cr, rfl, hl, hr⟩ := bal_black_inv hb
          exact ⟨m, cl, hl, PathBal.black hr hp, fun _ => rfl⟩
      obtain ⟨n2, cl, hl, hp2, hbd2⟩ := hstep
      obtain ⟨yc, yk, yv, yr, q, heq, hrest⟩ :=
        ihl cl n2 (⟨.L, c2, k2, v2, r⟩ :: p0) hl hp2 hbd2 (by simp)
      exact ⟨yc, yk, yv, yr, q, heq, hrest⟩

/-- `minimum` of a non-sentinel subtree exists. -/
theorem minimumPath_isSome : ∀ (t : Tree) (p0 : Path), t ≠ .nil →
    (minimumPath t p0).isSome := by
  intro t
  induction t with
  | nil => intro p0 h; exact absurd rfl h
  | node c k v l r ihl ihr =>
    intro p0 _
    rcases l with _ | ⟨lc, lk, lv, ll, lr⟩
    · simp [minimumPath]
    · exact ihl (⟨.L, c, k, v, r⟩ :: p0) (by simp)

/-- The splice of `erase` (all three cases) preserves the color
invariants; the result is BLACK-rooted. -/
theorem eraseAt_bal (zc : Color) (zk zv : Int) (zl zr : Tree) (p : Path) (n : Nat)
    (hb : Bal (.node zc zk zv zl zr) zc n) (hp : PathBal p n)
    (hbd : zc = .RED → headBlack p) :
    ∃ t2 m, eraseAt zc zk zv zl zr p = some (true, t2) ∧ Bal t2 .BLACK m := by
  rcases zl with _ | ⟨lc, lk, lv, ll, lr⟩
  · -- Case A: z->left == NIL, x = z->right
    cases zc
    case RED =>
      obtain ⟨-, hl, hr⟩ := bal_red_inv hb
      obtain ⟨-, rfl⟩ := bal_nil_inv hl
      obtain ⟨m, c2, hb2, hne, hnil⟩ := plug_bal p zr .BLACK hp hr (fun h => by cases h)
      have hc2 : c2 = .BLACK := by
        rcases List.eq_nil_or_concat p with rfl | ⟨a, b, rfl⟩
        · exact hnil rfl
        · exact hne (by simp)
      subst hc2
      exact ⟨_, m, by cases zr <;> simp [eraseAt], hb2⟩
    case BLACK =>
      obtain ⟨-, m, cl, cr, hn, hl, hr⟩ := bal_black_inv hb
      obtain ⟨hcl0, rfl⟩ := bal_nil_inv hl
      subst hcl0
      subst hn
      obtain ⟨t2, m2, heq, hbal⟩ := delete_fixup_bal p zr cr 0 hr hp
      refine ⟨t2, m2, ?_, hbal⟩
      cases zr <;> simp [eraseAt] <;> simpa using heq
  · rcases zr with _ | ⟨rc, rk, rv, rl, rr⟩
    · -- Case B: z->right == NIL, x = z->left
      cases zc
      case RED =>
        obtain ⟨-, hl, hr⟩ := bal_red_inv hb
        obtain ⟨-, rfl⟩ := bal_nil_inv hr
        cases bal_black_zero hl
      case BLACK =>
        obtain ⟨-, m, cl, cr, hn, hl, hr⟩ := bal_black_inv hb
        obtain ⟨hcr0, rfl⟩ := bal_nil_inv hr
        subst hcr0
        subst hn
        obtain ⟨t2, m2, heq, hbal⟩ := delete_fixup_bal p _ cl 0 hl hp
        refine ⟨t2, m2, ?_, hbal⟩
        simp [eraseAt]
        simpa using heq
    · -- Case C: two children, splice the in-order successor
      have hstep : ∃ m2 crr cll, Bal (.node rc rk rv rl rr) crr m2 ∧
          Bal (.node lc lk lv ll lr) cll m2 ∧
          PathBal p (m2 + (if zc = .BLACK then 1 else 0)) ∧
          (crr = .RED → zc = .BLACK) ∧ (zc = .RED → cll = .BLACK) := by
        cases zc
        · obtain ⟨-, hl, hr⟩ := bal_red_inv hb
          refine ⟨n, .BLACK, .BLACK, hr, hl, by simpa using hp, ?_, ?_⟩
          · intro h; cases h
          · intro h; rfl
        · obtain ⟨-, m, cl, cr, hn, hl, hr⟩ := bal_black_inv hb
          subst hn
          refine ⟨m, cr, cl, hr, hl, by simpa using hp, ?_, ?_⟩
          · intro h; rfl
          · intro h; cases h
      obtain ⟨m2, crr, cll, hzr, hzl, hp2, hrz, hlz⟩ := hstep
      rcases hmin0 : minimumPath (.node rc rk rv rl rr) [] with - | ⟨⟨yc, yk, yv, yr⟩, q0⟩
      · have := minimumPath_isSome (.node rc rk rv rl rr) [] (by simp)
        rw [hmin0] at this
        cases this
      · have hmid : PathBal (⟨.R, zc, yk, yv, .node lc lk lv ll lr⟩ :: p) m2 := by
          cases zc
          · exact PathBal.red (by rwa [show cll = .BLACK from hlz rfl] at hzl)
              (hbd rfl) (by simpa using hp2)
          · exact PathBal.black hzl (by simpa using hp2)
        obtain ⟨yc2, yk2, yv2, yr2, q2, hmin2, ny, hybal, hq, hyhb⟩ :=
          minimumPath_bal (.node rc rk rv rl rr) crr m2
            (⟨.R, zc, yk, yv, .node lc lk lv ll lr⟩ :: p) hzr hmid
            (fun h => hrz h) (by simp)
        rw [minimumPath_shift, hmin0] at hmin2
        simp only [Option.map_some', Option.some.injEq, Prod.mk.injEq] at hmin2
        obtain ⟨⟨rfl, rfl, rfl, rfl⟩, hq2⟩ := hmin2
        subst hq2
        have hxne : (q0 ++ (⟨Dir.R, zc, yk, yv,
            Tree.node lc lk lv ll lr⟩ :: p) : Path) ≠ [] := by simp
        cases yc
        case RED =>
          -- successor is RED: no fixup
          obtain ⟨-, hnil, hyr⟩ := bal_red_inv hybal
          obtain ⟨-, rfl⟩ := bal_nil_inv hnil
          obtain ⟨m3, c3, hb3, hne3, -⟩ :=
            plug_bal _ yr .BLACK hq hyr (fun h => by cases h)
          have hc3 := hne3 hxne
          subst hc3
          refine ⟨_, m3, ?_, hb3⟩
          simp [eraseAt, hmin0]
        case BLACK =>
          -- successor is BLACK: fixup on its right child
          obtain ⟨-, m4, c4, c5, hn4, hnil, hyr⟩ := bal_black_inv hybal
          obtain ⟨hc40, rfl⟩ := bal_nil_inv hnil
          subst hc40
          subst hn4
          obtain ⟨t2, m5, heq5, hbal5⟩ := delete_fixup_bal _ yr c5 0 hyr (by simpa using hq)
          refine ⟨t2, m5, ?_, hbal5⟩
          simp [eraseAt, hmin0]
          simpa using heq5

/-- The `erase` search loop preserves the color invariants: an absent
key rebuilds the untouched tree, a found node is handed to the splice. -/
theorem eraseGo_bal (k : Int) : ∀ (t : Tree) (p : Path) (c : Color) (n : Nat),
    Bal t c n → PathBal p n → (c = .RED → headBlack p) →
    ∃ b t2 m c3, eraseGo k t p = some (b, t2) ∧ Bal t2 c3 m ∧
      (c3 = .BLACK ∨ (c3 = c ∧ p = [])) := by
  intro t
  induction t with
  | nil =>
    intro p c n hb hp _
    obtain ⟨rfl, rfl⟩ := bal_nil_inv hb
    obtain ⟨m, c2, hb2, hne, hnil⟩ :=
      plug_bal p .nil .BLACK hp Bal.nil (fun h => by cases h)
    refine ⟨false, _, m, c2, by simp [eraseGo], hb2, ?_⟩
    rcases List.eq_nil_or_concat p with rfl | ⟨a, b, rfl⟩
    · exact Or.inr ⟨hnil rfl, rfl⟩
    · exact Or.inl (hne (by simp))
  | node c2 k2 v2 l r ihl ihr =>
    intro p c n hb hp hbd
    have hcc := bal_colorOf hb
    subst hcc
    rcases lt_trichotomy k k2 with hk | hk | hk
    · have hstep : ∃ n2 cl, Bal l cl n2 ∧ PathBal (⟨.L, c2, k2, v2, r⟩ :: p) n2 ∧
          (cl = .RED → headBlack (⟨.L, c2, k2, v2, r⟩ :: p)) := by
        cases c2
        · obtain ⟨-, hl, hr⟩ := bal_red_inv hb
          exact ⟨n, .BLACK, hl, PathBal.red hr (hbd rfl) hp, fun h => by cases h⟩
        · obtain ⟨-, m, cl, cr, rfl, hl, hr⟩ := bal_black_inv hb
          exact ⟨m, cl, hl, PathBal.black hr hp, fun _ => rfl⟩
      obtain ⟨n2, cl, hl, hp2, hbd2⟩ := hstep
      obtain ⟨b, t2, m, c3, heq, hbal, hc3⟩ := ihl (⟨.L, c2, k2, v2, r⟩ :: p) cl n2 hl hp2 hbd2
      refine ⟨b, t2, m, .BLACK, ?_, ?_, Or.inl rfl⟩
      · simpa [eraseGo, hk] using heq
      · rcases hc3 with rfl | ⟨-, h⟩
        · exact hbal
        · cases h
    · subst hk
      obtain ⟨t2, m, heq, hbal⟩ := eraseAt_bal c2 k v2 l r p n hb hp hbd
      exact ⟨true, t2, m, .BLACK, by simpa [eraseGo] using heq, hbal, Or.inl rfl⟩
    · have hstep : ∃ n2 cr, Bal r cr n2 ∧ PathBal (⟨.R, c2, k2, v2, l⟩ :: p) n2 ∧
          (cr = .RED → headBlack (⟨.R, c2, k2, v2, l⟩ :: p)) := by
        cases c2
        · obtain ⟨-, hl, hr⟩ := bal_red_inv hb
          exact ⟨n, .BLACK, hr, PathBal.red hl (hbd rfl) hp, fun h => by cases h⟩
        · obtain ⟨-, m, cl, cr, rfl, hl, hr⟩ := bal_black_inv hb
          exact ⟨m, cr, hr, PathBal.black hl hp, fun _ => rfl⟩
      obtain ⟨n2, cr, hr, hp2, hbd2⟩ := hstep
      obtain ⟨b, t2, m, c3, heq, hbal, hc3⟩ := ihr (⟨.R, c2, k2, v2, l⟩ :: p) cr n2 hr hp2 hbd2
      refine ⟨b, t2, m, .BLACK, ?_, ?_, Or.inl rfl⟩
      · simpa [eraseGo, hk, not_lt.2 (le_of_lt hk)] using heq
      · rcases hc3 with rfl | ⟨-, h⟩
        · exact hbal
        · cases h

/-- `erase` on a well-formed tree succeeds and preserves invariants
1-5 (BLACK root included). -/
theorem erase_bal (k : Int) {t : Tree} {n : Nat} (h : Bal t .BLACK n) :
    ∃ b t2 m, erase k t = some (b, t2) ∧ Bal t2 .BLACK m := by
  obtain ⟨b, t2, m, c3, heq, hbal, hc3⟩ :=
    eraseGo_bal k t [] .BLACK n h PathBal.nil (fun h2 => by cases h2)
  refine ⟨b, t2, m, heq, ?_⟩
  rcases hc3 with rfl | ⟨rfl, -⟩ <;> exact hbal

/-! ## In-order traversal development (BST order, invariant 6, and the
map semantics of the public operations) -/

theorem inorder_paintBlack (t : Tree) : inorder (paintBlack t) = inorder t := by
  cases t <;> simp [paintBlack, inorder]

theorem inorder_plug : ∀ (p : Path) (t : Tree),
    inorder (plug t p) = ctxL p ++ inorder t ++ ctxR p := by
  intro p
  induction p with
  | nil => intro t; simp [plug, ctxL, ctxR]
  | cons f p ih =>
    intro t
    rcases f with ⟨d, c, k, v, o⟩
    cases d <;> simp [plug, plug1, ih, ctxL, ctxR, inorder]

theorem ctxL_append : ∀ (q p : Path), ctxL (q ++ p) = ctxL p ++ ctxL q := by
  intro q
  induction q with
  | nil => intro p; simp [ctxL]
  | cons f q ih =>
    intro p
    rcases f with ⟨d, c, k, v, o⟩
    cases d <;> simp [ctxL, ih]

theorem ctxR_append : ∀ (q p : Path), ctxR (q ++ p) = ctxR q ++ ctxR p := by
  intro q
  induction q with
  | nil => intro p; simp [ctxR]
  | cons f q ih =>
    intro p
    rcases f with ⟨d, c, k, v, o⟩
    cases d <;> simp [ctxR, ih]

/-- With a BLACK head frame `insert_fixup` exits at once, painting the
root of the rebuilt tree. -/
theorem insert_fixup_black_head (z : Tree) (d : Dir) (k v : Int) (o : Tree) (rest : Path) :
    insert_fixup z (⟨d, .BLACK, k, v, o⟩ :: rest)
      = some (paintBlack (plug z (⟨d, .BLACK, k, v, o⟩ :: rest))) := by
  cases z <;> cases rest <;> simp [insert_fixup]

/-- `insert_fixup` recolors and rotates only: the in-order traversal
of the rebuilt tree is exactly that of the plugged focus. -/
theorem insert_fixup_inorder (p : Path) : ∀ (z t : Tree),
    insert_fixup z p = some t → inorder t = ctxL p ++ inorder z ++ ctxR p := by
  match p with
  | [] =>
    intro z t h
    have h2 : paintBlack z = t := Option.some.inj h
    subst h2
    simp [inorder_paintBlack, ctxL, ctxR]
  | pf :: rest =>
    intro z t h
    rcases pf with ⟨pfd, pfc, pfk, pfv, pfo⟩
    cases pfc
    case BLACK =>
      rw [insert_fixup_black_head] at h
      have h2 := Option.some.inj h
      subst h2
      simp [inorder_paintBlack, inorder_plug]
    case RED =>
      rcases rest with - | ⟨⟨pgd, pgc, pgk, pgv, pgo⟩, rest2⟩
      · cases z <;> simp [insert_fixup] at h
      · rcases z with - | ⟨zc, zk, zv, zl, zr⟩
        · cases pgd <;> by_cases hu : colorOf pgo = .RED <;>
            simp only [insert_fixup, hu, reduceCtorEq, reduceIte] at h
          · have ih := insert_fixup_inorder rest2 _ t h
            simp only [inorder, plug1, inorder_paintBlack] at ih
            cases pfd <;>
              simp_all [ctxL, ctxR, inorder, paintBlack]
          · cases pfd
            · have h2 := Option.some.inj h
              subst h2
              simp [ctxL, ctxR, inorder, inorder_paintBlack, inorder_plug]
            · cases h
          · have ih := insert_fixup_inorder rest2 _ t h
            simp only [inorder, plug1, inorder_paintBlack] at ih
            cases pfd <;>
              simp_all [ctxL, ctxR, inorder, paintBlack]
          · cases pfd
            · cases h
            · have h2 := Option.some.inj h
              subst h2
              simp [ctxL, ctxR, inorder, inorder_paintBlack, inorder_plug]
        · cases pgd <;> by_cases hu : colorOf pgo = .RED <;>
            simp only [insert_fixup, hu, reduceCtorEq, reduceIte] at h
          · have ih := insert_fixup_inorder rest2 _ t h
            simp only [inorder, plug1, inorder_paintBlack] at ih
            cases pfd <;>
              simp_all [ctxL, ctxR, inorder, paintBlack]
          · cases pfd <;>
              · have h2 := Option.some.inj h
                subst h2
                simp [ctxL, ctxR, inorder, inorder_paintBlack, inorder_plug]
          · have ih := insert_fixup_inorder rest2 _ t h
            simp only [inorder, plug1, inorder_paintBlack] at ih
            cases pfd <;>
              simp_all [ctxL, ctxR, inorder, paintBlack]
          · cases pfd <;>
              · have h2 := Option.some.inj h
                subst h2
                simp [ctxL, ctxR, inorder, inorder_paintBlack, inorder_plug]
termination_by p.length

theorem after1L_inorder (x : Tree) (pk pv : Int) (w : Tree) (p : Path) (t : Tree)
    (h : delete_fixup_after1L x pk pv w p = some t) :
    inorder t = ctxL p ++ inorder x ++ (pk, pv) :: inorder w ++ ctxR p := by
  rcases w with - | ⟨wc, wk, wv, wl, wr⟩
  · simp [delete_fixup_after1L] at h
  · rcases wl with - | ⟨wlc, wlk, wlv, wll, wlr⟩ <;>
      rcases wr with - | ⟨wrc, wrk, wrv, wrl, wrr⟩ <;>
      [skip; cases wrc; cases wlc; cases wlc <;> cases wrc] <;>
      simp [delete_fixup_after1L, colorOf] at h <;>
      subst h <;>
      simp [inorder, inorder_paintBlack, inorder_plug, ctxL, ctxR]

theorem after1R_inorder (x : Tree) (pk pv : Int) (w : Tree) (p : Path) (t : Tree)
    (h : delete_fixup_after1R x pk pv w p = some t) :
    inorder t = ctxL p ++ inorder w ++ (pk, pv) :: inorder x ++ ctxR p := by
  rcases w with - | ⟨wc, wk, wv, wl, wr⟩
  · simp [delete_fixup_after1R] at h
  · rcases wl with - | ⟨wlc, wlk, wlv, wll, wlr⟩ <;>
      rcases wr with - | ⟨wrc, wrk, wrv, wrl, wrr⟩ <;>
      [skip; cases wrc; cases wlc; cases wlc <;> cases wrc] <;>
      simp [delete_fixup_after1R, colorOf] at h <;>
      subst h <;>
      simp [inorder, inorder_paintBlack, inorder_plug, ctxL, ctxR]

theorem casesL_inorder (x wl wr : Tree) (pc : Color) (pk pv wk wv : Int) (p : Path) (t : Tree)
    (IH : ∀ (x2 t2 : Tree), delete_fixup x2 p = some t2 →
      inorder t2 = ctxL p ++ inorder x2 ++ ctxR p)
    (h : delete_fixup_casesL x pc pk pv wk wv wl wr p = some t) :
    inorder t = ctxL p ++ inorder x ++ (pk, pv) :: inorder wl
      ++ (wk, wv) :: inorder wr ++ ctxR p := by
  by_cases h1 : colorOf wl = .BLACK ∧ colorOf wr = .BLACK
  · rw [show delete_fixup_casesL x pc pk pv wk wv wl wr p
        = delete_fixup (.node pc pk pv x (.node .RED wk wv wl wr)) p by
      unfold delete_fixup_casesL; simp [h1]] at h
    simpa [inorder] using IH _ _ h
  · by_cases h2 : colorOf wr = .BLACK
    · rcases wl with - | ⟨wlc, wlk, wlv, wll, wlr⟩
      · exact absurd ⟨rfl, h2⟩ h1
      · cases wlc
        · unfold delete_fixup_casesL at h
          simp only [show colorOf (Tree.node Color.RED wlk wlv wll wlr) = Color.RED from rfl,
            h2, reduceCtorEq, false_and, and_true, reduceIte] at h
          have h3 := Option.some.inj h
          subst h3
          simp [inorder, inorder_paintBlack, inorder_plug, ctxL, ctxR]
        · exact absurd ⟨rfl, h2⟩ h1
    · rcases wr with - | ⟨wrc, wrk, wrv, wrl, wrr⟩
      · exact absurd rfl h2
      · cases wrc
        · unfold delete_fixup_casesL at h
          simp only [show colorOf (Tree.node Color.RED wrk wrv wrl wrr) = Color.RED from rfl,
            reduceCtorEq, and_false, reduceIte] at h
          have h3 := Option.some.inj h
          subst h3
          simp [inorder, inorder_paintBlack, inorder_plug, ctxL, ctxR]
        · exact absurd rfl h2

theorem casesR_inorder (x wl wr : Tree) (pc : Color) (pk pv wk wv : Int) (p : Path) (t : Tree)
    (IH : ∀ (x2 t2 : Tree), delete_fixup x2 p = some t2 →
      inorder t2 = ctxL p ++ inorder x2 ++ ctxR p)
    (h : delete_fixup_casesR x pc pk pv wk wv wl wr p = some t) :
    inorder t = ctxL p ++ inorder wl ++ (wk, wv) :: inorder wr
      ++ (pk, pv) :: inorder x ++ ctxR p := by
  by_cases h1 : colorOf wr = .BLACK ∧ colorOf wl = .BLACK
  · rw [show delete_fixup_casesR x pc pk pv wk wv wl wr p
        = delete_fixup (.node pc pk pv (.node .RED wk wv wl wr) x) p by
      unfold delete_fixup_casesR; simp [h1]] at h
    simpa [inorder] using IH _ _ h
  · by_cases h2 : colorOf wl = .BLACK
    · rcases wr with - | ⟨wrc, wrk, wrv, wrl, wrr⟩
      · exact absurd ⟨rfl, h2⟩ h1
      · cases wrc
        · unfold delete_fixup_casesR at h
          simp only [show colorOf (Tree.node Color.RED wrk wrv wrl wrr) = Color.RED from rfl,
            h2, reduceCtorEq, false_and, and_true, reduceIte] at h
          have h3 := Option.some.inj h
          subst h3
          simp [inorder, inorder_paintBlack, inorder_plug, ctxL, ctxR]
        · exact absurd ⟨rfl, h2⟩ h1
    · rcases wl with - | ⟨wlc, wlk, wlv, wll, wlr⟩
      · exact absurd rfl h2
      · cases wlc
        · unfold delete_fixup_casesR at h
          simp only [show colorOf (Tree.node Color.RED wlk wlv wll wlr) = Color.RED from rfl,
            reduceCtorEq, and_false, reduceIte] at h
          have h3 := Option.some.inj h
          subst h3
          simp [inorder, inorder_paintBlack, inorder_plug, ctxL, ctxR]
        · exact absurd rfl h2

/-- `delete_fixup` recolors and rotates only: the in-order traversal
of the rebuilt tree is exactly that of the plugged focus. -/
theorem delete_fixup_inorder : ∀ (p : Path) (x t : Tree),
    delete_fixup x p = some t → inorder t = ctxL p ++ inorder x ++ ctxR p := by
  intro p
  induction p with
  | nil =>
    intro x t h
    rw [show delete_fixup x [] = some (paintBlack x) by simp [delete_fixup]] at h
    have h2 := Option.some.inj h
    subst h2
    simp [inorder_paintBlack, ctxL, ctxR]
  | cons f rest ih =>
    intro x t h
    by_cases hx : colorOf x = .RED
    · rw [delete_fixup_red_exit x (f :: rest) hx] at h
      have h2 := Option.some.inj h
      subst h2
      simp [inorder_paintBlack, inorder_plug]
    · rcases f with ⟨fd, fc, fk, fv, fo⟩
      cases fd
      · rcases fo with - | ⟨wc, wk, wv, wl, wr⟩
        · simp [delete_fixup, hx] at h
        · cases wc
          · rw [show delete_fixup x (⟨Dir.L, fc, fk, fv, .node .RED wk wv wl wr⟩ :: rest)
                = delete_fixup_after1L x fk fv wl (⟨.L, .BLACK, wk, wv, wr⟩ :: rest) by
              simp [delete_fixup, hx]] at h
            have h2 := after1L_inorder _ _ _ _ _ _ h
            simpa [ctxL, ctxR, inorder] using h2
          · rw [show delete_fixup x (⟨Dir.L, fc, fk, fv, .node .BLACK wk wv wl wr⟩ :: rest)
                = delete_fixup_casesL x fc fk fv wk wv wl wr rest by
              simp [delete_fixup, hx]] at h
            have h2 := casesL_inorder _ _ _ _ _ _ _ _ _ _ ih h
            simpa [ctxL, ctxR, inorder] using h2
      · rcases fo with - | ⟨wc, wk, wv, wl, wr⟩
        · simp [delete_fixup, hx] at h
        · cases wc
          · rw [show delete_fixup x (⟨Dir.R, fc, fk, fv, .node .RED wk wv wl wr⟩ :: rest)
                = delete_fixup_after1R x fk fv wr (⟨.R, .BLACK, wk, wv, wl⟩ :: rest) by
              simp [delete_fixup, hx]] at h
            have h2 := after1R_inorder _ _ _ _ _ _ h
            simpa [ctxL, ctxR, inorder] using h2
          · rw [show delete_fixup x (⟨Dir.R, fc, fk, fv, .node .BLACK wk wv wl wr⟩ :: rest)
                = delete_fixup_casesR x fc fk fv wk wv wl wr rest by
              simp [delete_fixup, hx]] at h
            have h2 := casesR_inorder _ _ _ _ _ _ _ _ _ _ ih h
            simpa [ctxL, ctxR, inorder] using h2

/-! ## Association-list lemmas -/

theorem insList_append_right (k v k2 v2 : Int) (hk : k < k2) :
    ∀ (a b : List (Int × Int)),
      insList k v (a ++ (k2, v2) :: b) = insList k v a ++ (k2, v2) :: b := by
  intro a b
  induction a with
  | nil => simp [insList, hk]
  | cons pr rest ih =>
    rcases pr with ⟨k1, v1⟩
    by_cases h1 : k < k1
    · simp [insList, h1]
    · by_cases h2 : k1 < k
      · simp [insList, h1, h2, ih]
      · simp [insList, h1, h2]

theorem insList_append_left (k v : Int) :
    ∀ (a c : List (Int × Int)), (∀ pr ∈ a, pr.1 < k) →
      insList k v (a ++ c) = a ++ insList k v c := by
  intro a
  induction a with
  | nil => intro c _; simp
  | cons pr rest ih =>
    intro c hbound
    rcases pr with ⟨k1, v1⟩
    have hk1 : k1 < k := hbound (k1, v1) (by simp)
    simp [insList, not_lt.2 (le_of_lt hk1), hk1, ih c (fun pr hpr => hbound pr (by simp [hpr]))]

theorem insList_keys_mem (k v : Int) : ∀ (m : List (Int × Int)) (x : Int),
    x ∈ (insList k v m).map Prod.fst → x = k ∨ x ∈ m.map Prod.fst := by
  intro m
  induction m with
  | nil => intro x hx; simpa [insList] using hx
  | cons pr rest ih =>
    intro x hx
    rcases pr with ⟨k1, v1⟩
    by_cases h1 : k < k1
    · simpa [insList, h1] using hx
    · by_cases h2 : k1 < k
      · simp only [insList, h1, h2, reduceIte, List.map_cons, List.mem_cons] at hx
        rcases hx with rfl | hx
        · simp
        · rcases ih x hx with h | h
          · exact Or.inl h
          · simp [h]
      · have hk : k = k1 := le_antisymm (not_lt.1 h2) (not_lt.1 h1)
        subst hk
        simp only [insList, lt_irrefl, reduceIte, List.map_cons, List.mem_cons] at hx
        rcases hx with rfl | hx
        · simp
        · simp [hx]

theorem insList_pairwise (k v : Int) : ∀ (m : List (Int × Int)),
    List.Pairwise (· < ·) (m.map Prod.fst) →
    List.Pairwise (· < ·) ((insList k v m).map Prod.fst) := by
  intro m
  induction m with
  | nil => intro _; simp [insList]
  | cons pr rest ih =>
    intro hp
    rcases pr with ⟨k1, v1⟩
    simp only [List.map_cons, List.pairwise_cons] at hp
    obtain ⟨hlt, hrest⟩ := hp
    by_cases h1 : k < k1
    · simp only [insList, h1, reduceIte, List.map_cons, List.pairwise_cons]
      refine ⟨?_, hlt, hrest⟩
      intro x hx
      simp only [List.map_cons, List.mem_cons] at hx
      rcases hx with rfl | hx
      · exact h1
      · exact lt_trans h1 (hlt x hx)
    · by_cases h2 : k1 < k
      · simp only [insList, h1, h2, reduceIte, List.map_cons, List.pairwise_cons]
        refine ⟨?_, ih hrest⟩
        intro x hx
        rcases insList_keys_mem k v rest x hx with rfl | hx
        · exact h2
        · exact hlt x hx
      · have hk : k = k1 := le_antisymm (not_lt.1 h2) (not_lt.1 h1)
        subst hk
        simp only [insList, lt_irrefl, reduceIte, List.map_cons, List.pairwise_cons]
        exact ⟨hlt, hrest⟩

theorem delList_sublist (k : Int) : ∀ (m : List (Int × Int)), (delList k m).Sublist m := by
  intro m
  induction m with
  | nil => simp [delList]
  | cons pr rest ih =>
    rcases pr with ⟨k1, v1⟩
    by_cases h : k = k1
    · simp [delList, h]
    · simpa [delList, h] using ih.cons₂ (k1, v1)

theorem delList_pairwise (k : Int) (m : List (Int × Int))
    (h : List.Pairwise (· < ·) (m.map Prod.fst)) :
    List.Pairwise (· < ·) ((delList k m).map Prod.fst) :=
  h.sublist ((delList_sublist k m).map Prod.fst)

theorem mLookup_eq_none_of_notin : ∀ (m : List (Int × Int)) (k : Int),
    k ∉ m.map Prod.fst → mLookup m k = none := by
  intro m
  induction m with
  | nil => intro k _; rfl
  | cons pr rest ih =>
    intro k hk
    rcases pr with ⟨k1, v1⟩
    simp only [List.map_cons, List.mem_cons, not_or] at hk
    simp [mLookup, hk.1, ih k hk.2]

theorem mLookup_append_of_none : ∀ (a b : List (Int × Int)) (k : Int),
    mLookup a k = none → mLookup (a ++ b) k = mLookup b k := by
  intro a
  induction a with
  | nil => intro b k _; rfl
  | cons pr rest ih =>
    intro b k h
    rcases pr with ⟨k1, v1⟩
    by_cases hk : k = k1
    · simp [mLookup, hk] at h
    · simp only [mLookup, hk, reduceIte] at h
      simp [mLookup, hk, ih b k h]

theorem mLookup_append_of_some : ∀ (a b : List (Int × Int)) (k v : Int),
    mLookup a k = some v → mLookup (a ++ b) k = some v := by
  intro a
  induction a with
  | nil => intro b k v h; cases h
  | cons pr rest ih =>
    intro b k v h
    rcases pr with ⟨k1, v1⟩
    by_cases hk : k = k1
    · simp only [mLookup, hk, reduceIte] at h ⊢
      simpa using h
    · simp only [mLookup, hk, reduceIte] at h ⊢
      exact ih b k v h

theorem mLookup_insList (k v : Int) : ∀ (m : List (Int × Int)) (k2 : Int),
    mLookup (insList k v m) k2 = if k2 = k then some v else mLookup m k2 := by
  intro m
  induction m with
  | nil => intro k2; simp [insList, mLookup]
  | cons pr rest ih =>
    intro k2
    rcases pr with ⟨k1, v1⟩
    by_cases h1 : k < k1
    · by_cases hk2 : k2 = k <;> simp [insList, mLookup, h1, hk2]
    · by_cases h2 : k1 < k
      · by_cases hk2 : k2 = k1
        · subst hk2
          have : ¬(k2 = k) := fun h => absurd (h ▸ h2) (lt_irrefl k2 ∘ (h ▸ ·))
          simp only [insList, h1, h2, reduceIte, mLookup]
          simp [show ¬(k2 = k) from fun h => by subst h; exact absurd h2 (lt_irrefl _)]
        · simp only [insList, h1, h2, reduceIte, mLookup, hk2]
          simp [ih k2, hk2]
      · have hk : k = k1 := le_antisymm (not_lt.1 h2) (not_lt.1 h1)
        subst hk
        by_cases hk2 : k2 = k <;> simp [insList, mLookup, hk2]

theorem mLookup_delList (k : Int) : ∀ (m : List (Int × Int)) (k2 : Int),
    List.Pairwise (· < ·) (m.map Prod.fst) →
    mLookup (delList k m) k2 = if k2 = k then none else mLookup m k2 := by
  intro m
  induction m with
  | nil => intro k2 _; simp [delList, mLookup]
  | cons pr rest ih =>
    intro k2 hp
    rcases pr with ⟨k1, v1⟩
    simp only [List.map_cons, List.pairwise_cons] at hp
    obtain ⟨hlt, hrest⟩ := hp
    by_cases h1 : k = k1
    · subst h1
      by_cases hk2 : k2 = k
      · subst hk2
        simp only [delList, reduceIte]
        exact mLookup_eq_none_of_notin rest k2
          (fun hmem => absurd (hlt k2 hmem) (lt_irrefl k2))
      · simp [delList, mLookup, hk2]
    · by_cases hk2 : k2 = k1
      · have hne : k2 ≠ k := by
          intro h
          exact h1 (h ▸ hk2)
        simp [delList, h1, mLookup, hk2, hne, show ¬k1 = k from fun h => h1 h.symm]
      · simp [delList, mLookup, h1, hk2, ih k2 hrest]

theorem delList_id_of_notin (k : Int) : ∀ (c : List (Int × Int)),
    k ∉ c.map Prod.fst → delList k c = c := by
  intro c
  induction c with
  | nil => intro _; rfl
  | cons pr rest ih =>
    intro hc
    rcases pr with ⟨k1, v1⟩
    simp only [List.map_cons, List.mem_cons, not_or] at hc
    simp [delList, hc.1, ih hc.2]

theorem delList_append_notin_right (k : Int) : ∀ (a c : List (Int × Int)),
    k ∉ c.map Prod.fst → delList k (a ++ c) = delList k a ++ c := by
  intro a
  induction a with
  | nil =>
    intro c hc
    simpa using delList_id_of_notin k c hc
  | cons pr rest ih =>
    intro c hc
    rcases pr with ⟨k1, v1⟩
    by_cases h : k = k1 <;> simp [delList, h, ih c hc]

theorem delList_append_notin_left (k : Int) : ∀ (a c : List (Int × Int)),
    k ∉ a.map Prod.fst → delList k (a ++ c) = a ++ delList k c := by
  intro a
  induction a with
  | nil => intro c _; rfl
  | cons pr rest ih =>
    intro c ha
    rcases pr with ⟨k1, v1⟩
    simp only [List.map_cons, List.mem_cons, not_or] at ha
    simp [delList, ha.1, ih c ha.2]

/-! ## BST facts -/

theorem sortedT_node {c : Color} {k v : Int} {l r : Tree}
    (h : SortedT (.node c k v l r)) :
    SortedT l ∧ SortedT r ∧ (∀ x ∈ keys l, x < k) ∧ (∀ x ∈ keys r, k < x) := by
  simp only [SortedT, keys, inorder, List.map_append, List.map_cons,
    List.pairwise_append, List.pairwise_cons] at h
  obtain ⟨hl, ⟨hr1, hr2⟩, hx⟩ := h
  refine ⟨hl, hr2, ?_, hr1⟩
  intro x hx2
  exact hx x hx2 k (by simp)

/-- On a BST, the descent of `lookup` computes association-list lookup
on the in-order traversal. -/
theorem lookup_eq_mLookup : ∀ (t : Tree), SortedT t → ∀ (k : Int),
    lookup k t = mLookup (inorder t) k := by
  intro t
  induction t with
  | nil => intro _ k; rfl
  | node c k2 v l r ihl ihr =>
    intro hs k
    obtain ⟨hsl, hsr, hbl, hbr⟩ := sortedT_node hs
    rcases lt_trichotomy k k2 with hk | hk | hk
    · rcases hml : mLookup (inorder l) k with - | v2
      · rw [show inorder (Tree.node c k2 v l r)
            = inorder l ++ (k2, v) :: inorder r from rfl,
          mLookup_append_of_none _ _ _ hml]
        have hnr : k ∉ (inorder r).map Prod.fst := by
          intro hmem
          exact absurd (lt_trans hk (hbr k hmem)) (lt_irrefl k)
        simp [lookup, hk, mLookup, show ¬(k = k2) from fun h => absurd (h ▸ hk) (lt_irrefl _),
          mLookup_eq_none_of_notin _ _ hnr, ihl hsl k, hml]
      · rw [show inorder (Tree.node c k2 v l r)
            = inorder l ++ (k2, v) :: inorder r from rfl,
          mLookup_append_of_some _ _ _ _ hml]
        simp [lookup, hk, ihl hsl k, hml]
    · subst hk
      have hnl : k ∉ (inorder l).map Prod.fst := by
        intro hmem
        exact absurd (hbl k hmem) (lt_irrefl k)
      rw [show inorder (Tree.node c k v l r) = inorder l ++ (k, v) :: inorder r from rfl,
        mLookup_append_of_none _ _ _ (mLookup_eq_none_of_notin _ _ hnl)]
      simp [lookup, mLookup]
    · have hnl : k ∉ (inorder l).map Prod.fst := by
        intro hmem
        exact absurd (lt_trans (hbl k hmem) hk) (lt_irrefl k)
      rw [show inorder (Tree.node c k2 v l r) = inorder l ++ (k2, v) :: inorder r from rfl,
        mLookup_append_of_none _ _ _ (mLookup_eq_none_of_notin _ _ hnl)]
      simp [lookup, hk, not_lt.2 (le_of_lt hk), mLookup,
        show ¬(k = k2) from fun h => absurd (h ▸ hk) (lt_irrefl _), ihr hsr k]

/-- On a BST, the `insert` descent computes `insList` on the in-order
traversal. -/
theorem insertGo_inorder (k v : Int) : ∀ (t : Tree) (p : Path) (t2 : Tree), SortedT t →
    insertGo k v t p = some t2 →
    inorder t2 = ctxL p ++ insList k v (inorder t) ++ ctxR p := by
  intro t
  induction t with
  | nil =>
    intro p t2 _ h
    have h2 := insert_fixup_inorder p _ _ h
    simpa [inorder, insList] using h2
  | node c k2 v2 l r ihl ihr =>
    intro p t2 hs h
    obtain ⟨hsl, hsr, hbl, hbr⟩ := sortedT_node hs
    rcases lt_trichotomy k k2 with hk | hk | hk
    · simp only [insertGo, hk, reduceIte] at h
      have h2 := ihl (⟨.L, c, k2, v2, r⟩ :: p) t2 hsl h
      rw [show inorder (Tree.node c k2 v2 l r)
          = inorder l ++ (k2, v2) :: inorder r from rfl,
        insList_append_right k v k2 v2 hk]
      simpa [ctxL, ctxR] using h2
    · subst hk
      simp only [insertGo, lt_irrefl, reduceIte, Option.some.injEq] at h
      subst h
      rw [show inorder (Tree.node c k v2 l r)
          = inorder l ++ (k, v2) :: inorder r from rfl,
        insList_append_left k v _ _ (fun pr hpr => hbl pr.1 (by simp [keys]; exact ⟨pr.2, by simpa using hpr⟩))]
      simp [inorder_plug, inorder, insList]
    · simp only [insertGo, hk, not_lt.2 (le_of_lt hk), reduceIte] at h
      have h2 := ihr (⟨.R, c, k2, v2, l⟩ :: p) t2 hsr h
      rw [show inorder (Tree.node c k2 v2 l r)
          = inorder l ++ (k2, v2) :: inorder r from rfl,
        insList_append_left k v _ _
          (fun pr hpr => lt_trans (hbl pr.1 (by simp [keys]; exact ⟨pr.2, by simpa using hpr⟩)) hk)]
      rw [show insList k v ((k2, v2) :: inorder r) = (k2, v2) :: insList k v (inorder r) by
        simp [insList, hk, not_lt.2 (le_of_lt hk)]]
      simpa [ctxL, ctxR] using h2

/-- `minimum` returns a focus that plugs back to the original subtree
and adds no keys before the hole (it descends only left). -/
theorem minimumPath_plug : ∀ (t : Tree) (p0 : Path) (yc : Color) (yk yv : Int)
    (yr : Tree) (q : Path), minimumPath t p0 = some ((yc, yk, yv, yr), q) →
    plug (.node yc yk yv .nil yr) q = plug t p0 ∧ ctxL q = ctxL p0 := by
  intro t
  induction t with
  | nil => intro p0 yc yk yv yr q h; cases h
  | node c k v l r ihl ihr =>
    intro p0 yc yk yv yr q h
    rcases l with - | ⟨lc, lk, lv, ll, lr⟩
    · simp only [minimumPath, Option.some.injEq, Prod.mk.injEq] at h
      obtain ⟨⟨rfl, rfl, rfl, rfl⟩, rfl⟩ := h
      exact ⟨rfl, rfl⟩
    · have h2 := ihl (⟨.L, c, k, v, r⟩ :: p0) yc yk yv yr q h
      exact ⟨h2.1, by simpa [ctxL] using h2.2⟩

/-- The splice of `erase` removes exactly the focused node from the
in-order traversal. -/
theorem eraseAt_inorder (zc : Color) (zk zv : Int) (zl zr : Tree) (p : Path)
    (b : Bool) (t2 : Tree) (h : eraseAt zc zk zv zl zr p = some (b, t2)) :
    inorder t2 = ctxL p ++ inorder zl ++ inorder zr ++ ctxR p ∧ b = true := by
  rcases zl with - | ⟨lc, lk, lv, ll, lr⟩
  · by_cases hc : zc = .BLACK
    · simp only [eraseAt, hc, reduceIte, Option.map_eq_some'] at h
      obtain ⟨t3, heq, h2⟩ := h
      obtain ⟨rfl, rfl⟩ := Prod.mk.injEq .. ▸ h2
      exact ⟨by simpa [inorder] using delete_fixup_inorder p zr t3 heq, rfl⟩
    · have hc2 : zc = .RED := by cases zc; rfl; exact absurd rfl hc
      subst hc2
      simp only [eraseAt, reduceCtorEq, reduceIte, Option.some.injEq, Prod.mk.injEq] at h
      obtain ⟨rfl, rfl⟩ := h
      exact ⟨by simp [inorder_plug, inorder], rfl⟩
  · rcases zr with - | ⟨rc, rk, rv, rl, rr⟩
    · by_cases hc : zc = .BLACK
      · simp only [eraseAt, hc, reduceIte, Option.map_eq_some'] at h
        obtain ⟨t3, heq, h2⟩ := h
        obtain ⟨rfl, rfl⟩ := Prod.mk.injEq .. ▸ h2
        exact ⟨by simpa [inorder] using
          delete_fixup_inorder p (.node lc lk lv ll lr) t3 heq, rfl⟩
      · have hc2 : zc = .RED := by cases zc; rfl; exact absurd rfl hc
        subst hc2
        simp only [eraseAt, reduceCtorEq, reduceIte, Option.some.injEq, Prod.mk.injEq] at h
        obtain ⟨rfl, rfl⟩ := h
        exact ⟨by simp [inorder_plug, inorder], rfl⟩
    · rcases hmin : minimumPath (.node rc rk rv rl rr) [] with - | ⟨⟨yc, yk, yv, yr⟩, q0⟩
      · simp [eraseAt, hmin] at h
      · obtain ⟨hplug, hctxl⟩ := minimumPath_plug _ _ _ _ _ _ _ hmin
        have hzr : inorder (Tree.node rc rk rv rl rr)
            = (yk, yv) :: inorder yr ++ ctxR q0 := by
          rw [show inorder (Tree.node rc rk rv rl rr) = inorder (plug (.node rc rk rv rl rr) []) from rfl,
            ← hplug, inorder_plug, hctxl]
          simp [ctxL, ctxR, inorder]
        have hctx : ∀ (u : Tree),
            inorder u = ctxL (q0 ++ (⟨.R, zc, yk, yv, .node lc lk lv ll lr⟩ :: p)) ++
              inorder yr ++ ctxR (q0 ++ (⟨.R, zc, yk, yv, .node lc lk lv ll lr⟩ :: p)) →
            inorder u = ctxL p ++ inorder (Tree.node lc lk lv ll lr)
              ++ inorder (Tree.node rc rk rv rl rr) ++ ctxR p := by
          intro u hu
          rw [hu, ctxL_append, ctxR_append, hctxl, hzr]
          simp [ctxL, ctxR]
        by_cases hyc : yc = .BLACK
        · simp only [eraseAt, hmin, hyc, reduceIte, Option.map_eq_some'] at h
          obtain ⟨t3, heq, h2⟩ := h
          obtain ⟨rfl, rfl⟩ := Prod.mk.injEq .. ▸ h2
          exact ⟨hctx t3 (delete_fixup_inorder _ yr t3 heq), rfl⟩
        · have hyc2 : yc = .RED := by cases yc; rfl; exact absurd rfl hyc
          subst hyc2
          simp only [eraseAt, hmin, reduceCtorEq, reduceIte,
            Option.some.injEq, Prod.mk.injEq] at h
          obtain ⟨rfl, rfl⟩ := h
          exact ⟨hctx _ (inorder_plug _ yr), rfl⟩

/-- On a BST, the `erase` descent computes `delList` on the in-order
traversal and reports exactly whether the key was present. -/
theorem eraseGo_inorder (k : Int) : ∀ (t : Tree) (p : Path) (b : Bool) (t2 : Tree),
    SortedT t → eraseGo k t p = some (b, t2) →
    inorder t2 = ctxL p ++ delList k (inorder t) ++ ctxR p ∧
      (b = true ↔ k ∈ keys t) := by
  intro t
  induction t with
  | nil =>
    intro p b t2 _ h
    simp only [eraseGo, Option.some.injEq, Prod.mk.injEq] at h
    obtain ⟨rfl, rfl⟩ := h
    refine ⟨by simp [inorder_plug, inorder, delList], by simp [keys, inorder]⟩
  | node c k2 v2 l r ihl ihr =>
    intro p b t2 hs h
    obtain ⟨hsl, hsr, hbl, hbr⟩ := sortedT_node hs
    have hkeys : keys (Tree.node c k2 v2 l r) = keys l ++ k2 :: keys r := by
      simp [keys, inorder]
    rcases lt_trichotomy k k2 with hk | hk | hk
    · simp only [eraseGo, hk, reduceIte] at h
      obtain ⟨hin, hb⟩ := ihl (⟨.L, c, k2, v2, r⟩ :: p) b t2 hsl h
      have hnr : k ∉ ((k2, v2) :: inorder r).map Prod.fst := by
        simp only [List.map_cons, List.mem_cons, not_or]
        refine ⟨fun h2 => absurd (h2 ▸ hk) (lt_irrefl _), fun h2 => ?_⟩
        exact absurd (lt_trans hk (hbr k h2)) (lt_irrefl k)
      constructor
      · rw [show inorder (Tree.node c k2 v2 l r)
            = inorder l ++ (k2, v2) :: inorder r from rfl,
          delList_append_notin_right k _ _ hnr]
        simpa [ctxL, ctxR] using hin
      · rw [hkeys]
        simp only [List.mem_append, List.mem_cons]
        constructor
        · intro hb2; exact Or.inl (hb.1 hb2)
        · intro hmem
          rcases hmem with hmem | rfl | hmem
          · exact hb.2 hmem
          · exact absurd hk (lt_irrefl _)
          · exact absurd (lt_trans hk (hbr k (by simpa [keys] using hmem)))
              (lt_irrefl k)
    · subst hk
      simp only [eraseGo, lt_irrefl, reduceIte] at h
      obtain ⟨hin, rfl⟩ := eraseAt_inorder c k v2 l r p b t2 h
      have hnl : k ∉ (inorder l).map Prod.fst := by
        intro hmem
        exact absurd (hbl k hmem) (lt_irrefl k)
      constructor
      · rw [show inorder (Tree.node c k v2 l r)
            = inorder l ++ (k, v2) :: inorder r from rfl,
          delList_append_notin_left k _ _ hnl,
          show delList k ((k, v2) :: inorder r) = inorder r by simp [delList]]
        simpa using hin
      · simp [hkeys]
    · simp only [eraseGo, hk, not_lt.2 (le_of_lt hk), reduceIte] at h
      obtain ⟨hin, hb⟩ := ihr (⟨.R, c, k2, v2, l⟩ :: p) b t2 hsr h
      have hnl : k ∉ (inorder l).map Prod.fst := by
        intro hmem
        exact absurd (lt_trans (hbl k hmem) hk) (lt_irrefl k)
      constructor
      · rw [show inorder (Tree.node c k2 v2 l r)
            = inorder l ++ (k2, v2) :: inorder r from rfl,
          delList_append_notin_left k _ _ hnl,
          show delList k ((k2, v2) :: inorder r) = (k2, v2) :: delList k (inorder r) by
            simp [delList, show ¬(k = k2) from fun h2 => absurd (h2 ▸ hk) (lt_irrefl _)]]
        simpa [ctxL, ctxR] using hin
      · rw [hkeys]
        simp only [List.mem_append, List.mem_cons]
        constructor
        · intro hb2; exact Or.inr (Or.inr (hb.1 hb2))
        · intro hmem
          rcases hmem with hmem | rfl | hmem
          · exact absurd (lt_trans (hbl k (by simpa [keys] using hmem)) hk)
              (lt_irrefl k)
          · exact absurd hk (lt_irrefl _)
          · exact hb.2 hmem

/-! ### The single-threaded driver preserves the red-black invariants
and tracks the sorted association-list model -/

/-- Replaying any operation sequence from a balanced BST succeeds, the
result is a balanced BST, and its in-order traversal is the list-model
replay of the sequence. -/
theorem applyOps_go : ∀ (ops : List Op) (t : Tree) (n : Nat),
    Bal t .BLACK n → SortedT t →
    ∃ t2 n2,
      ops.foldlM
        (fun t op =>
          match op with
          | .ins k v => insert k v t
          | .del k => (erase k t).map Prod.snd)
        t = some t2 ∧ Bal t2 .BLACK n2 ∧ SortedT t2 ∧
      inorder t2 = ops.foldl
        (fun m op =>
          match op with
          | .ins k v => insList k v m
          | .del k => delList k m)
        (inorder t) := by
  intro ops
  induction ops with
  | nil => intro t n hb hs; exact ⟨t, n, rfl, hb, hs, rfl⟩
  | cons op rest ih =>
    intro t n hb hs
    cases op with
    | ins k v =>
      obtain ⟨t3, m, heq, hb3⟩ := insert_bal k v hb
      have hin : inorder t3 = insList k v (inorder t) := by
        simpa [ctxL, ctxR] using insertGo_inorder k v t [] t3 hs heq
      have hs3 : SortedT t3 := by
        show List.Pairwise (· < ·) ((inorder t3).map Prod.fst)
        rw [hin]; exact insList_pairwise k v _ hs
      obtain ⟨t2, n2, heq2, hb2, hs2, hin2⟩ := ih t3 m hb3 hs3
      refine ⟨t2, n2, ?_, hb2, hs2, ?_⟩
      · simpa [List.foldlM, heq] using heq2
      · simp only [List.foldl]
        rw [hin2, hin]
    | del k =>
      obtain ⟨b, t3, m, heq, hb3⟩ := erase_bal k hb
      have hin : inorder t3 = delList k (inorder t) := by
        simpa [ctxL, ctxR] using (eraseGo_inorder k t [] b t3 hs heq).1
      have hs3 : SortedT t3 := by
        show List.Pairwise (· < ·) ((inorder t3).map Prod.fst)
        rw [hin]; exact delList_pairwise k _ hs
      obtain ⟨t2, n2, heq2, hb2, hs2, hin2⟩ := ih t3 m hb3 hs3
      refine ⟨t2, n2, ?_, hb2, hs2, ?_⟩
      · simpa [List.foldlM, heq] using heq2
      · simp only [List.foldl]
        rw [hin2, hin]

/-- From the freshly constructed tree, every operation sequence runs
without failure and each externally visible state is a balanced BST
whose contents are the list-model replay. -/
theorem applyOps_WF (ops : List Op) :
    ∃ t n, applyOps ops = some t ∧ Bal t .BLACK n ∧ SortedT t ∧
      inorder t = listModel ops := by
  have hs : SortedT Tree.nil := by
    show List.Pairwise (· < ·) ((inorder Tree.nil).map Prod.fst)
    simp [inorder]
  obtain ⟨t, n, heq, hb, hs2, hin⟩ := applyOps_go ops Tree.nil 0 Bal.nil hs
  exact ⟨t, n, heq, hb, hs2, hin⟩

/-- Replaying the operations on the association-list model computes
`specLookup`, provided the running list stays sorted (first-entry
lookup then agrees with last-write-wins). -/
theorem mLookup_listModel_go (k : Int) : ∀ (ops : List Op) (m : List (Int × Int))
    (acc : Option Int), List.Pairwise (· < ·) (m.map Prod.fst) →
    mLookup m k = acc →
    mLookup
      (ops.foldl
        (fun m op =>
          match op with
          | .ins k2 v => insList k2 v m
          | .del k2 => delList k2 m)
        m) k
      = ops.foldl
        (fun acc op =>
          match op with
          | .ins k2 v => if k2 = k then some v else acc
          | .del k2 => if k2 = k then none else acc)
        acc := by
  intro ops
  induction ops with
  | nil => intro m acc _ h; simpa using h
  | cons op rest ih =>
    intro m acc hp h
    cases op with
    | ins k2 v =>
      simp only [List.foldl]
      refine ih (insList k2 v m) _ (insList_pairwise k2 v m hp) ?_
      rw [mLookup_insList]
      by_cases hk : k = k2
      · simp [hk]
      · simp [hk, Ne.symm hk, h]
    | del k2 =>
      simp only [List.foldl]
      refine ih (delList k2 m) _ (delList_pairwise k2 m hp) ?_
      rw [mLookup_delList k2 m k hp]
      by_cases hk : k = k2
      · simp [hk]
      · simp [hk, Ne.symm hk, h]

/-- Lookup in the replayed list model is the reference `specLookup`. -/
theorem mLookup_listModel (ops : List Op) (k : Int) :
    mLookup (listModel ops) k = specLookup ops k := by
  exact mLookup_listModel_go k ops [] none (by simp) rfl

/-! ### Characterization of `validate` (what `validate_rec` decides) -/

theorem noRedRedB_node (c : Color) (k v : Int) (l r : Tree) :
    noRedRedB (.node c k v l r)
      = (!(decide (c = .RED) && (decide (colorOf l = .RED) || decide (colorOf r = .RED)))
          && noRedRedB l && noRedRedB r) := rfl

theorem localOrdB_node (c : Color) (k v : Int) (l r : Tree) :
    localOrdB (.node c k v l r)
      = (!(decide (l ≠ .nil) && decide (k < keyOf l))
          && !(decide (r ≠ .nil) && decide (keyOf r < k))
          && localOrdB l && localOrdB r) := rfl

theorem bhChk_node_iff {c : Color} {k v : Int} {l r : Tree} {h : Nat} :
    bhChk (.node c k v l r) = some h ↔
      ∃ a, bhChk l = some a ∧ bhChk r = some a ∧
        h = a + (if c = .BLACK then 1 else 0) := by
  simp only [bhChk]
  rcases bhChk l with _ | a
  · simp
  · rcases bhChk r with _ | b
    · simp
    · by_cases hab : a = b
      · subst hab
        simp [eq_comm]
      · simp [hab, Ne.symm hab]

theorem vr_stable : ∀ (t : Tree) (blacks target : Int), target ≠ -1 →
    (validate_rec t blacks target).2 = target ∧
    ((validate_rec t blacks target).1 = true ↔
      noRedRedB t = true ∧ localOrdB t = true ∧
      ∃ h : Nat, bhChk t = some h ∧ blacks + (h : Int) = target) := by
  intro t
  induction t with
  | nil =>
    intro blacks target ht
    refine ⟨by simp [validate_rec, ht], ?_⟩
    simp [validate_rec, ht, noRedRedB, localOrdB, bhChk, eq_comm]
  | node c k v l r ihl ihr =>
    intro blacks target ht
    by_cases hc1 : c = .RED ∧ (colorOf l = .RED ∨ colorOf r = .RED)
    · refine ⟨by simp [validate_rec, hc1], ?_⟩
      simp only [validate_rec, if_pos hc1]
      constructor
      · intro h; exact absurd h (by simp)
      · rintro ⟨hn, -, -⟩
        exfalso
        rcases hc1 with ⟨hc, hlr⟩
        rcases hlr with hl | hl <;> simp [noRedRedB, hc, hl] at hn
    · by_cases hc2 : l ≠ .nil ∧ k < keyOf l
      · refine ⟨by simp [validate_rec, hc1, hc2], ?_⟩
        simp only [validate_rec, if_neg hc1, if_pos hc2]
        constructor
        · intro h; exact absurd h (by simp)
        · rintro ⟨-, ho, -⟩
          exfalso
          simp [localOrdB, hc2.1, hc2.2] at ho
      · by_cases hc3 : r ≠ .nil ∧ keyOf r < k
        · refine ⟨by simp [validate_rec, hc1, hc2, hc3], ?_⟩
          simp only [validate_rec, if_neg hc1, if_neg hc2, if_pos hc3]
          constructor
          · intro h; exact absurd h (by simp)
          · rintro ⟨-, ho, -⟩
            exfalso
            simp [localOrdB, hc3.1, hc3.2] at ho
        · have hd1 : (decide (c = .RED)
              && (decide (colorOf l = .RED) || decide (colorOf r = .RED))) = false := by
            rcases hx : decide (c = .RED) with _ | _
            · rfl
            · rcases hy : decide (colorOf l = .RED) with _ | _
              · rcases hz : decide (colorOf r = .RED) with _ | _
                · rfl
                · exact absurd ⟨of_decide_eq_true hx, Or.inr (of_decide_eq_true hz)⟩ hc1
              · exact absurd ⟨of_decide_eq_true hx, Or.inl (of_decide_eq_true hy)⟩ hc1
          have hd2 : (decide (l ≠ .nil) && decide (k < keyOf l)) = false := by
            rcases hx : decide (l ≠ .nil) with _ | _
            · rfl
            · rcases hy : decide (k < keyOf l) with _ | _
              · rfl
              · exact absurd ⟨of_decide_eq_true hx, of_decide_eq_true hy⟩ hc2
          have hd3 : (decide (r ≠ .nil) && decide (keyOf r < k)) = false := by
            rcases hx : decide (r ≠ .nil) with _ | _
            · rfl
            · rcases hy : decide (keyOf r < k) with _ | _
              · rfl
              · exact absurd ⟨of_decide_eq_true hx, of_decide_eq_true hy⟩ hc3
          have hnrr : noRedRedB (.node c k v l r) = (noRedRedB l && noRedRedB r) := by
            rw [noRedRedB_node, hd1]; rfl
          have hlo : localOrdB (.node c k v l r) = (localOrdB l && localOrdB r) := by
            rw [localOrdB_node, hd2, hd3]; rfl
          have hmain : validate_rec (.node c k v l r) blacks target
              = (match validate_rec l (if c = .BLACK then blacks + 1 else blacks) target with
                 | (okL, target2) =>
                   if okL then
                     validate_rec r (if c = .BLACK then blacks + 1 else blacks) target2
                   else (false, target2)) := by
            simp only [validate_rec, if_neg hc1, if_neg hc2, if_neg hc3]
          set B := if c = .BLACK then blacks + 1 else blacks with hB
          have hBd : ∀ (a : Nat),
              blacks + ((a + (if c = .BLACK then 1 else 0) : Nat) : Int) = B + (a : Int) := by
            intro a; rcases c with _ | _ <;> simp [hB] <;> omega
          obtain ⟨hL2, hLiff⟩ := ihl B target ht
          obtain ⟨hR2, hRiff⟩ := ihr B target ht
          rcases hL : validate_rec l B target with ⟨okL, t1⟩
          have ht1 : t1 = target := by rw [hL] at hL2; exact hL2
          subst ht1
          rw [hL] at hLiff
          simp only [hmain, hL]
          by_cases hok : okL = true
          · rw [if_pos hok]
            refine ⟨hR2, ?_⟩
            rw [hRiff]
            have hLp := hLiff.mp hok
            obtain ⟨hnl, hol, a, hbl, hsla⟩ := hLp
            constructor
            · rintro ⟨hnr, hor, b, hbr, hslb⟩
              have hab : a = b := by omega
              subst hab
              refine ⟨by rw [hnrr, hnl, hnr]; rfl, by rw [hlo, hol, hor]; rfl, ?_⟩
              exact ⟨a + (if c = .BLACK then 1 else 0),
                bhChk_node_iff.mpr ⟨a, hbl, hbr, rfl⟩, by rw [hBd a]; exact hsla⟩
            · rintro ⟨hn, ho, h, hbh, hsum⟩
              rw [hnrr, Bool.and_eq_true] at hn
              rw [hlo, Bool.and_eq_true] at ho
              obtain ⟨b, hbl2, hbr, rfl⟩ := bhChk_node_iff.mp hbh
              rw [hBd b] at hsum
              exact ⟨hn.2, ho.2, b, hbr, hsum⟩
          · rw [if_neg hok]
            have hokf : okL = false := by
              rcases okL with _ | _
              · rfl
              · exact absurd rfl hok
            rw [hokf] at hLiff
            refine ⟨rfl, ?_⟩
            constructor
            · intro h2; exact absurd h2 Bool.false_ne_true
            rintro ⟨hn, ho, h, hbh, hsum⟩
            rw [hnrr, Bool.and_eq_true] at hn
            rw [hlo, Bool.and_eq_true] at ho
            obtain ⟨a, hbl, hbr, rfl⟩ := bhChk_node_iff.mp hbh
            rw [hBd a] at hsum
            exact absurd (hLiff.mpr ⟨hn.1, ho.1, a, hbl, hsum⟩) Bool.false_ne_true

theorem vr_main : ∀ (t : Tree) (blacks : Int), 0 ≤ blacks →
    ((validate_rec t blacks (-1)).1 = true ↔
      (noRedRedB t = true ∧ localOrdB t = true ∧ (bhChk t).isSome = true)) ∧
    (∀ h : Nat, bhChk t = some h → (validate_rec t blacks (-1)).1 = true →
      (validate_rec t blacks (-1)).2 = blacks + (h : Int)) := by
  intro t
  induction t with
  | nil =>
    intro blacks hb
    constructor
    · simp [validate_rec, noRedRedB, localOrdB, bhChk]
    · intro h hh _
      simp only [bhChk, Option.some.injEq] at hh
      subst hh
      simp [validate_rec]
  | node c k v l r ihl ihr =>
    intro blacks hb
    by_cases hc1 : c = .RED ∧ (colorOf l = .RED ∨ colorOf r = .RED)
    · constructor
      · simp only [validate_rec, if_pos hc1]
        constructor
        · intro h; exact absurd h Bool.false_ne_true
        · rintro ⟨hn, -, -⟩
          exfalso
          rcases hc1 with ⟨hc, hlr⟩
          rcases hlr with hl | hl <;> simp [noRedRedB, hc, hl] at hn
      · intro h hh hv
        exfalso
        simp only [validate_rec, if_pos hc1] at hv
        exact absurd hv Bool.false_ne_true
    · by_cases hc2 : l ≠ .nil ∧ k < keyOf l
      · constructor
        · simp only [validate_rec, if_neg hc1, if_pos hc2]
          constructor
          · intro h; exact absurd h Bool.false_ne_true
          · rintro ⟨-, ho, -⟩
            exfalso
            simp [localOrdB, hc2.1, hc2.2] at ho
        · intro h hh hv
          exfalso
          simp only [validate_rec, if_neg hc1, if_pos hc2] at hv
          exact absurd hv Bool.false_ne_true
      · by_cases hc3 : r ≠ .nil ∧ keyOf r < k
        · constructor
          · simp only [validate_rec, if_neg hc1, if_neg hc2, if_pos hc3]
            constructor
            · intro h; exact absurd h Bool.false_ne_true
            · rintro ⟨-, ho, -⟩
              exfalso
              simp [localOrdB, hc3.1, hc3.2] at ho
          · intro h hh hv
            exfalso
            simp only [validate_rec, if_neg hc1, if_neg hc2, if_pos hc3] at hv
            exact absurd hv Bool.false_ne_true
        · have hd1 : (decide (c = .RED)
              && (decide (colorOf l = .RED) || decide (colorOf r = .RED))) = false := by
            rcases hx : decide (c = .RED) with _ | _
            · rfl
            · rcases hy : decide (colorOf l = .RED) with _ | _
              · rcases hz : decide (colorOf r = .RED) with _ | _
                · rfl
                · exact absurd ⟨of_decide_eq_true hx, Or.inr (of_decide_eq_true hz)⟩ hc1
              · exact absurd ⟨of_decide_eq_true hx, Or.inl (of_decide_eq_true hy)⟩ hc1
          have hd2 : (decide (l ≠ .nil) && decide (k < keyOf l)) = false := by
            rcases hx : decide (l ≠ .nil) with _ | _
            · rfl
            · rcases hy : decide (k < keyOf l) with _ | _
              · rfl
              · exact absurd ⟨of_decide_eq_true hx, of_decide_eq_true hy⟩ hc2
          have hd3 : (decide (r ≠ .nil) && decide (keyOf r < k)) = false := by
            rcases hx : decide (r ≠ .nil) with _ | _
            · rfl
            · rcases hy : decide (keyOf r < k) with _ | _
              · rfl
              · exact absurd ⟨of_decide_eq_true hx, of_decide_eq_true hy⟩ hc3
          have hnrr : noRedRedB (.node c k v l r) = (noRedRedB l && noRedRedB r) := by
            rw [noRedRedB_node, hd1]; rfl
          have hlo : localOrdB (.node c k v l r) = (localOrdB l && localOrdB r) := by
            rw [localOrdB_node, hd2, hd3]; rfl
          have hmain : validate_rec (.node c k v l r) blacks (-1)
              = (match validate_rec l (if c = .BLACK then blacks + 1 else blacks) (-1) with
                 | (okL, target2) =>
                   if okL then
                     validate_rec r (if c = .BLACK then blacks + 1 else blacks) target2
                   else (false, target2)) := by
            simp only [validate_rec, if_neg hc1, if_neg hc2, if_neg hc3]
          set B := if c = .BLACK then blacks + 1 else blacks with hB
          have hBpos : 0 ≤ B := by rcases c with _ | _ <;> simp [hB] <;> omega
          have hBd : ∀ (a : Nat),
              blacks + ((a + (if c = .BLACK then 1 else 0) : Nat) : Int) = B + (a : Int) := by
            intro a; rcases c with _ | _ <;> simp [hB] <;> omega
          obtain ⟨hLiff, hL2⟩ := ihl B hBpos
          rcases hL : validate_rec l B (-1) with ⟨okL, t1⟩
          rw [hL] at hLiff hL2
          simp only [hmain, hL]
          by_cases hok : okL = true
          · rw [if_pos hok]
            have hLp := hLiff.mp hok
            obtain ⟨hnl, hol, hbls⟩ := hLp
            obtain ⟨a, hbl⟩ := Option.isSome_iff_exists.mp hbls
            have ht1 : t1 = B + (a : Int) := hL2 a hbl hok
            have ht1ne : t1 ≠ -1 := by omega
            obtain ⟨hR2, hRiff⟩ := vr_stable r B t1 ht1ne
            constructor
            · rw [hRiff]
              constructor
              · rintro ⟨hnr, hor, b, hbr, hslb⟩
                have hab : b = a := by omega
                subst hab
                refine ⟨by rw [hnrr, hnl, hnr]; rfl, by rw [hlo, hol, hor]; rfl, ?_⟩
                rw [Option.isSome_iff_exists]
                exact ⟨b + (if c = .BLACK then 1 else 0),
                  bhChk_node_iff.mpr ⟨b, hbl, hbr, rfl⟩⟩
              · rintro ⟨hn, ho, hs⟩
                rw [hnrr, Bool.and_eq_true] at hn
                rw [hlo, Bool.and_eq_true] at ho
                obtain ⟨h, hbh⟩ := Option.isSome_iff_exists.mp hs
                obtain ⟨b, hbl2, hbr, rfl⟩ := bhChk_node_iff.mp hbh
                have hab : b = a := by
                  rw [hbl] at hbl2; exact Option.some.inj hbl2.symm
                subst hab
                exact ⟨hn.2, ho.2, b, hbr, by rw [ht1]⟩
            · intro h hbh hv
              obtain ⟨b, hbl2, hbr, rfl⟩ := bhChk_node_iff.mp hbh
              have hab : b = a := by
                rw [hbl] at hbl2; exact Option.some.inj hbl2.symm
              subst hab
              rw [hR2, ht1, ← hBd b]
          · rw [if_neg hok]
            have hokf : okL = false := by
              rcases okL with _ | _
              · rfl
              · exact absurd rfl hok
            rw [hokf] at hLiff
            constructor
            · constructor
              · intro h2; exact absurd h2 Bool.false_ne_true
              · rintro ⟨hn, ho, hs⟩
                rw [hnrr, Bool.and_eq_true] at hn
                rw [hlo, Bool.and_eq_true] at ho
                obtain ⟨h, hbh⟩ := Option.isSome_iff_exists.mp hs
                obtain ⟨a, hbl, hbr, rfl⟩ := bhChk_node_iff.mp hbh
                refine absurd (hLiff.mpr ⟨hn.1, ho.1, ?_⟩) Bool.false_ne_true
                rw [Option.isSome_iff_exists]
                exact ⟨a, hbl⟩
            · intro h hbh hv
              exact absurd hv Bool.false_ne_true

/-- What `validate` actually decides. -/
theorem validate_eq_checks (t : Tree) :
    validate t = (noRedRedB t && localOrdB t && (bhChk t).isSome) := by
  have h := (vr_main t 0 le_rfl).1
  show (validate_rec t 0 (-1)).1 = _
  rcases h1 : (validate_rec t 0 (-1)).1 with _ | _
  · rcases h2 : (noRedRedB t && localOrdB t && (bhChk t).isSome) with _ | _
    · rfl
    · exfalso
      rw [h1] at h
      simp only [Bool.and_eq_true] at h2
      exact absurd (h.mpr ⟨h2.1.1, h2.1.2, h2.2⟩) Bool.false_ne_true
  · rw [h1] at h
    obtain ⟨ha, hb2, hc⟩ := h.mp rfl
    rw [ha, hb2, hc]
    rfl

theorem bal_noRedRedB {t : Tree} {c : Color} {n : Nat} (h : Bal t c n) :
    noRedRedB t = true := by
  induction h with
  | nil => rfl
  | red hl hr ihl ihr =>
    simp [noRedRedB, ihl, ihr, bal_colorOf hl, bal_colorOf hr]
  | black hl hr ihl ihr => simp [noRedRedB, ihl, ihr]

theorem bal_bhChk {t : Tree} {c : Color} {n : Nat} (h : Bal t c n) :
    bhChk t = some n := by
  induction h with
  | nil => rfl
  | red hl hr ihl ihr => simp [bhChk, ihl, ihr]
  | black hl hr ihl ihr => simp [bhChk, ihl, ihr]

theorem keyOf_mem_keys (t : Tree) (h : t ≠ .nil) : keyOf t ∈ keys t := by
  cases t with
  | nil => exact absurd rfl h
  | node c k v l r => simp [keyOf, keys, inorder]

theorem sorted_localOrdB : ∀ (t : Tree), SortedT t → localOrdB t = true := by
  intro t
  induction t with
  | nil => intro _; rfl
  | node c k v l r ihl ihr =>
    intro hs
    obtain ⟨hsl, hsr, hbl, hbr⟩ := sortedT_node hs
    have h1 : ¬(l ≠ .nil ∧ k < keyOf l) := by
      rintro ⟨hne, hlt⟩
      exact absurd (lt_trans hlt (hbl _ (keyOf_mem_keys l hne))) (lt_irrefl k)
    have h2 : ¬(r ≠ .nil ∧ keyOf r < k) := by
      rintro ⟨hne, hlt⟩
      exact absurd (lt_trans hlt (hbr _ (keyOf_mem_keys r hne))) (lt_irrefl _)
    rw [localOrdB_node, ihl hsl, ihr hsr]
    rw [show (decide (l ≠ .nil) && decide (k < keyOf l)) = false from ?_,
      show (decide (r ≠ .nil) && decide (keyOf r < k)) = false from ?_]
    · rfl
    · rcases hx : decide (r ≠ .nil) with _ | _
      · rfl
      · rcases hy : decide (keyOf r < k) with _ | _
        · rfl
        · exact absurd ⟨of_decide_eq_true hx, of_decide_eq_true hy⟩ h2
    · rcases hx : decide (l ≠ .nil) with _ | _
      · rfl
      · rcases hy : decide (k < keyOf l) with _ | _
        · rfl
        · exact absurd ⟨of_decide_eq_true hx, of_decide_eq_true hy⟩ h1

theorem validate_of_WF {t : Tree} {n : Nat} (hb : Bal t .BLACK n) (hs : SortedT t) :
    validate t = true := by
  rw [validate_eq_checks, bal_noRedRedB hb, sorted_localOrdB t hs, bal_bhChk hb]
  rfl

/-! ### `erase` on an absent key rebuilds the original tree unchanged -/

/-- The only `(false, _)` exit of the erase descent is the sentinel
case, which plugs the untouched focus back: the returned tree is the
input tree, node for node. -/
theorem eraseGo_false (k : Int) : ∀ (t : Tree) (p : Path) (t2 : Tree),
    eraseGo k t p = some (false, t2) → t2 = plug t p := by
  intro t
  induction t with
  | nil =>
    intro p t2 h
    simp only [eraseGo, Option.some.injEq, Prod.mk.injEq] at h
    exact h.2.symm
  | node zc zk zv zl zr ihl ihr =>
    intro p t2 h
    by_cases h1 : k < zk
    · simp only [eraseGo, h1, reduceIte] at h
      exact ihl _ _ h
    · by_cases h2 : zk < k
      · simp only [eraseGo, h1, h2, reduceIte] at h
        exact ihr _ _ h
      · simp only [eraseGo, h1, h2, reduceIte] at h
        exact absurd (eraseAt_inorder zc zk zv zl zr p false t2 h).2 Bool.false_ne_true

/-! ### Lock-coupling bound of `lookup` and the `insert` descent -/

/-- During the `lookup` loop the traversal holds the current node and,
transiently, its child: never more than two node locks. -/
theorem lookupTrGo_bounded (k : Int) : ∀ (t : Tree) (p : List Dir),
    heldBounded 2 [tid t p] (lookupTrGo k t p) = true := by
  intro t
  induction t with
  | nil =>
    intro p
    simp [lookupTrGo, heldBounded, stepEv, tid, List.erase_cons, beq_iff_eq]
  | node c k2 v l r ihl ihr =>
    intro p
    by_cases h1 : k < k2
    · have hne : tid l (p ++ [Dir.L]) ≠ .pos p := by
        rcases l with - | ⟨lc, lk, lv, ll, lr⟩
        · simp [tid]
        · simp only [tid, ne_eq, LId.pos.injEq]
          intro h2
          exact absurd (congrArg List.length h2) (by simp)
      have hih := ihl (p ++ [.L])
      simp only [lookupTrGo, h1, reduceIte]
      rw [show tid (Tree.node c k2 v l r) p = LId.pos p from rfl]
      generalize tid l (p ++ [Dir.L]) = cid at hne hih ⊢
      simp [heldBounded, stepEv, List.erase_cons, List.erase_nil, beq_iff_eq,
        reduceCtorEq, hne, hih]
    · by_cases h2 : k2 < k
      · have hne : tid r (p ++ [Dir.R]) ≠ .pos p := by
          rcases r with - | ⟨rc, rk, rv, rl, rr⟩
          · simp [tid]
          · simp only [tid, ne_eq, LId.pos.injEq]
            intro h3
            exact absurd (congrArg List.length h3) (by simp)
        have hih := ihr (p ++ [.R])
        simp only [lookupTrGo, h1, h2, reduceIte]
        rw [show tid (Tree.node c k2 v l r) p = LId.pos p from rfl]
        generalize tid r (p ++ [Dir.R]) = cid at hne hih ⊢
        simp [heldBounded, stepEv, List.erase_cons, List.erase_nil, beq_iff_eq,
          reduceCtorEq, hne, hih]
      · simp only [lookupTrGo, h1, h2, reduceIte]
        rw [show tid (Tree.node c k2 v l r) p = LId.pos p from rfl]
        simp [heldBounded, stepEv, List.erase_cons, beq_iff_eq]

/-- During the `insert` descent (shared coupling, then the upgrade on
the stopping node) the thread holds at most two node locks. -/
theorem insertTrGo_bounded (k : Int) : ∀ (t : Tree) (p : List Dir),
    heldBounded 2 [tid t p] (insertTrGo k t p) = true := by
  intro t
  induction t with
  | nil =>
    intro p
    simp [insertTrGo, heldBounded, stepEv, tid, List.erase_cons, beq_iff_eq]
  | node c k2 v l r ihl ihr =>
    intro p
    by_cases h1 : k < k2
    · have hne : tid l (p ++ [Dir.L]) ≠ .pos p := by
        rcases l with - | ⟨lc, lk, lv, ll, lr⟩
        · simp [tid]
        · simp only [tid, ne_eq, LId.pos.injEq]
          intro h2
          exact absurd (congrArg List.length h2) (by simp)
      have hih := ihl (p ++ [.L])
      simp only [insertTrGo, h1, reduceIte]
      rw [show tid (Tree.node c k2 v l r) p = LId.pos p from rfl]
      generalize tid l (p ++ [Dir.L]) = cid at hne hih ⊢
      simp [heldBounded, stepEv, List.erase_cons, List.erase_nil, beq_iff_eq,
        reduceCtorEq, hne, hih]
    · by_cases h2 : k2 < k
      · have hne : tid r (p ++ [Dir.R]) ≠ .pos p := by
          rcases r with - | ⟨rc, rk, rv, rl, rr⟩
          · simp [tid]
          · simp only [tid, ne_eq, LId.pos.injEq]
            intro h3
            exact absurd (congrArg List.length h3) (by simp)
        have hih := ihr (p ++ [.R])
        simp only [insertTrGo, h1, h2, reduceIte]
        rw [show tid (Tree.node c k2 v l r) p = LId.pos p from rfl]
        generalize tid r (p ++ [Dir.R]) = cid at hne hih ⊢
        simp [heldBounded, stepEv, List.erase_cons, List.erase_nil, beq_iff_eq,
          reduceCtorEq, hne, hih]
      · simp only [insertTrGo, h1, h2, reduceIte]
        rw [show tid (Tree.node c k2 v l r) p = LId.pos p from rfl]
        simp [heldBounded, stepEv, List.erase_cons, beq_iff_eq]

/-! ### The Ordered Multi-Lock Guard: sorted, deduplicated acquisition -/

/-- Membership through sorted insertion. -/
theorem insertSorted_mem (a : Nat) : ∀ (l : List Nat) (x : Nat),
    x ∈ insertSorted a l ↔ x = a ∨ x ∈ l := by
  intro l
  induction l with
  | nil => intro x; simp [insertSorted]
  | cons b rest ih =>
    intro x
    by_cases h : a ≤ b
    · simp [insertSorted, h]
    · simp only [insertSorted, h, reduceIte, List.mem_cons, ih]
      tauto

/-- Sorted insertion preserves (non-strict) sortedness. -/
theorem insertSorted_sorted (a : Nat) : ∀ (l : List Nat),
    List.Pairwise (· ≤ ·) l → List.Pairwise (· ≤ ·) (insertSorted a l) := by
  intro l
  induction l with
  | nil => intro _; simp [insertSorted]
  | cons b rest ih =>
    intro hp
    rw [List.pairwise_cons] at hp
    by_cases h : a ≤ b
    · simp only [insertSorted, h, reduceIte]
      rw [List.pairwise_cons]
      refine ⟨?_, List.pairwise_cons.mpr hp⟩
      intro x hx
      rcases List.mem_cons.mp hx with rfl | hx
      · exact h
      · exact le_trans h (hp.1 x hx)
    · simp only [insertSorted, h, reduceIte]
      rw [List.pairwise_cons]
      refine ⟨?_, ih hp.2⟩
      intro x hx
      rcases (insertSorted_mem a rest x).mp hx with rfl | hx
      · exact le_of_not_le h
      · exact hp.1 x hx

/-- `std::sort` model: the output is sorted. -/
theorem sortIds_sorted : ∀ (l : List Nat), List.Pairwise (· ≤ ·) (sortIds l) := by
  intro l
  induction l with
  | nil => simp [sortIds]
  | cons a rest ih => exact insertSorted_sorted a (sortIds rest) ih

/-- `std::sort` model: the output has the same members. -/
theorem sortIds_mem : ∀ (l : List Nat) (x : Nat), x ∈ sortIds l ↔ x ∈ l := by
  intro l
  induction l with
  | nil => intro x; simp [sortIds]
  | cons a rest ih =>
    intro x
    simp only [sortIds, insertSorted_mem, ih, List.mem_cons]

/-- `std::unique` model: membership is unchanged. -/
theorem uniqAdj_mem : ∀ (l : List Nat) (x : Nat), x ∈ uniqAdj l ↔ x ∈ l := by
  intro l
  induction l using uniqAdj.induct with
  | case1 => intro x; simp [uniqAdj]
  | case2 a => intro x; simp [uniqAdj]
  | case3 b rest ih =>
    intro x
    simp only [uniqAdj, reduceIte, ih, List.mem_cons]
    tauto
  | case4 a b rest hab ih =>
    intro x
    simp only [uniqAdj, if_neg hab, List.mem_cons, ih]

/-- `std::unique` after `std::sort`: adjacent deduplication of a sorted
list is strictly increasing (each node appears exactly once, in
increasing order). -/
theorem uniqAdj_sorted : ∀ (l : List Nat), List.Pairwise (· ≤ ·) l →
    List.Pairwise (· < ·) (uniqAdj l) := by
  intro l
  induction l using uniqAdj.induct with
  | case1 => intro _; simp [uniqAdj]
  | case2 a => intro _; simp [uniqAdj]
  | case3 b rest ih =>
    intro hp
    rw [List.pairwise_cons] at hp
    simp only [uniqAdj, reduceIte]
    refine ih ?_
    rw [List.pairwise_cons]
    exact ⟨fun x hx => hp.1 x (List.mem_cons_of_mem _ hx), (List.pairwise_cons.mp hp.2).2⟩
  | case4 a b rest hab ih =>
    intro hp
    rw [List.pairwise_cons] at hp
    simp only [uniqAdj, if_neg hab]
    rw [List.pairwise_cons]
    refine ⟨?_, ih hp.2⟩
    intro x hx
    have hxm := (uniqAdj_mem (b :: rest) x).mp hx
    have hle : a ≤ x := hp.1 x hxm
    rcases List.mem_cons.mp hxm with rfl | hxr
    · exact lt_of_le_of_ne (hp.1 x (List.mem_cons_self x rest)) hab
    · have hbx : b ≤ x := (List.pairwise_cons.mp hp.2).1 x hxr
      exact lt_of_lt_of_le (lt_of_le_of_ne (hp.1 b (List.mem_cons_self b rest)) hab) hbx

/-- The guard acquisition order is strictly increasing by `lock_id`. -/
theorem orderedLockGuardOrder_sorted (nodes : List Nat) :
    List.Pairwise (· < ·) (orderedLockGuardOrder nodes) :=
  uniqAdj_sorted (sortIds nodes) (sortIds_sorted nodes)

/-- The guard acquires exactly the distinct handed-in nodes. -/
theorem orderedLockGuardOrder_mem (nodes : List Nat) (x : Nat) :
    x ∈ orderedLockGuardOrder nodes ↔ x ∈ nodes := by
  rw [orderedLockGuardOrder, uniqAdj_mem, sortIds_mem]

/-! ### Sentinel frame: every write to `NIL` is a parent write or a
BLACK color write -/

/-- Shape of the sentinel writes of `delete_fixup`. -/
theorem delete_fixup_nilw_ok : ∀ (p : Path) (x : Tree) (w : NilWrite),
    w ∈ delete_fixup_nilw x p →
    w = .colorW .BLACK ∨ ∃ a, w = .parentW a := by
  intro p
  induction p with
  | nil =>
    intro x w hw
    cases x with
    | nil =>
      simp only [delete_fixup_nilw, List.mem_singleton] at hw
      exact Or.inl hw
    | node c k v l r => simp [delete_fixup_nilw] at hw
  | cons f rest ih =>
    intro x w hw
    simp only [delete_fixup_nilw] at hw
    by_cases hc : colorOf x = .RED
    · simp [hc] at hw
    · rw [if_neg hc] at hw
      split at hw
      · split at hw
        · simp at hw
        · simp at hw
        · split at hw
          · exact ih _ w hw
          · simp at hw
      · split at hw
        · simp at hw
        · simp at hw
        · split at hw
          · exact ih _ w hw
          · simp at hw

/-- Shape of the sentinel writes of the `erase` splice. -/
theorem eraseAt_nilw_ok (zc : Color) (zk zv : Int) (zl zr : Tree) (p : Path)
    (w : NilWrite) (hw : w ∈ eraseAt_nilw zc zk zv zl zr p) :
    w = .colorW .BLACK ∨ ∃ a, w = .parentW a := by
  rcases zl with - | ⟨lc, lk, lv, ll, lr⟩
  · simp only [eraseAt_nilw, List.mem_append] at hw
    rcases hw with hw | hw
    · rcases zr with - | ⟨rc, rk, rv, rl, rr⟩
      · simp only [List.mem_singleton] at hw
        exact Or.inr ⟨_, hw⟩
      · simp at hw
    · by_cases hc : zc = .BLACK
      · rw [if_pos hc] at hw
        exact delete_fixup_nilw_ok p zr w hw
      · rw [if_neg hc] at hw
        simp at hw
  · rcases zr with - | ⟨rc, rk, rv, rl, rr⟩
    · simp only [eraseAt_nilw] at hw
      by_cases hc : zc = .BLACK
      · rw [if_pos hc] at hw
        exact delete_fixup_nilw_ok p _ w hw
      · rw [if_neg hc] at hw
        simp at hw
    · simp only [eraseAt_nilw] at hw
      rcases hmin : minimumPath (.node rc rk rv rl rr) [] with - | ⟨⟨yc, yk, yv, yr⟩, q⟩
      · rw [hmin] at hw
        simp at hw
      · rw [hmin] at hw
        simp only [List.mem_append] at hw
        rcases hw with hw | hw
        · rcases yr with - | yrn
          · rcases q with - | ⟨qf, qrest⟩ <;> simp only [List.mem_singleton] at hw <;>
              exact Or.inr ⟨_, hw⟩
          · simp at hw
        · by_cases hyc : yc = .BLACK
          · rw [if_pos hyc] at hw
            exact delete_fixup_nilw_ok _ _ w hw
          · rw [if_neg hyc] at hw
            simp at hw

/-- Shape of the sentinel writes of `erase`. -/
theorem erase_nilw_ok (k : Int) : ∀ (t : Tree) (p : Path) (w : NilWrite),
    w ∈ eraseGo_nilw k t p →
    w = .colorW .BLACK ∨ ∃ a, w = .parentW a := by
  intro t
  induction t with
  | nil => intro p w hw; simp [eraseGo_nilw] at hw
  | node zc zk zv zl zr ihl ihr =>
    intro p w hw
    simp only [eraseGo_nilw] at hw
    by_cases h1 : k < zk
    · rw [if_pos h1] at hw
      exact ihl _ w hw
    · rw [if_neg h1] at hw
      by_cases h2 : zk < k
      · rw [if_pos h2] at hw
        exact ihr _ w hw
      · rw [if_neg h2] at hw
        exact eraseAt_nilw_ok zc zk zv zl zr p w hw

/-- Applying any parent write or BLACK color write preserves the
sentinel's key, value, color, and children. -/
theorem nilw_fold_frame : ∀ (ws : List NilWrite) (nn : NilNode),
    (∀ w ∈ ws, w = .colorW .BLACK ∨ ∃ a, w = .parentW a) →
    nn.key = 0 ∧ nn.val = 0 ∧ nn.color = .BLACK ∧ nn.left = .null ∧ nn.right = .null →
    ((ws.foldl applyNilWrite nn).key = 0 ∧ (ws.foldl applyNilWrite nn).val = 0 ∧
      (ws.foldl applyNilWrite nn).color = .BLACK ∧
      (ws.foldl applyNilWrite nn).left = .null ∧
      (ws.foldl applyNilWrite nn).right = .null) := by
  intro ws
  induction ws with
  | nil => intro nn _ h; exact h
  | cons w rest ih =>
    intro nn hok h
    simp only [List.foldl_cons]
    refine ih _ (fun w2 hw2 => hok w2 (List.mem_cons_of_mem _ hw2)) ?_
    rcases hok w (List.mem_cons_self _ _) with rfl | ⟨a, rfl⟩
    · exact ⟨h.1, h.2.1, rfl, h.2.2.2.1, h.2.2.2.2⟩
    · exact ⟨h.1, h.2.1, h.2.2.1, h.2.2.2.1, h.2.2.2.2⟩

/-- Across any operation sequence the sentinel keeps its constructed
key, value, BLACK color, and null children (only its parent pointer is
subject to rewriting). -/
theorem applyOpsNil_frame : ∀ (ops : List Op) (st : Tree × NilNode),
    st.2.key = 0 ∧ st.2.val = 0 ∧ st.2.color = .BLACK ∧
      st.2.left = .null ∧ st.2.right = .null →
    ∀ (t : Tree) (nn : NilNode),
    ops.foldlM
      (fun (st : Tree × NilNode) op =>
        match op with
        | .ins k v => (insert k v st.1).map (fun t => (t, st.2))
        | .del k =>
          (erase k st.1).map
            (fun pr => (pr.2, (erase_nilw k st.1).foldl applyNilWrite st.2)))
      st = some (t, nn) →
    nn.key = 0 ∧ nn.val = 0 ∧ nn.color = .BLACK ∧
      nn.left = .null ∧ nn.right = .null := by
  intro ops
  induction ops with
  | nil =>
    intro st h t nn heq
    simp only [List.foldlM, pure, Option.some.injEq] at heq
    subst heq
    exact h
  | cons op rest ih =>
    intro st h t nn heq
    cases op with
    | ins k v =>
      simp only [List.foldlM, Option.map_eq_some', bind, Option.bind_eq_some] at heq
      obtain ⟨st2, ⟨t2, ht2, hst2b⟩, hrest⟩ := heq
      refine ih st2 ?_ t nn (by simpa [List.foldlM] using hrest)
      rw [← hst2b]
      exact h
    | del k =>
      simp only [List.foldlM, Option.map_eq_some', bind, Option.bind_eq_some] at heq
      obtain ⟨st2, ⟨pr, hpr, hst2b⟩, hrest⟩ := heq
      refine ih st2 ?_ t nn (by simpa [List.foldlM] using hrest)
      rw [← hst2b]
      exact nilw_fold_frame (erase_nilw k st.1) st.2
        (fun w hw => erase_nilw_ok k st.1 [] w hw) h

/-! ## Claim theorems -/

/-- C1: starting from the freshly constructed empty tree, every
sequence of `insert`/`erase` operations applied sequentially runs
without failure and `validate()` returns `true` after each operation;
each externally visible state satisfies red-black invariants 1-6. -/
theorem claim_C1_validate_after_every_op (ops : List Op) :
    ∃ t, applyOps ops = some t ∧ validate t = true ∧ WF t := by
  obtain ⟨t, n, heq, hb, hs, -⟩ := applyOps_WF ops
  exact ⟨t, heq, validate_of_WF hb hs, ⟨n, hb⟩, hs⟩

/-- C2: after any sequential operation sequence, `lookup k` returns
the value of the most recent `insert(k, v)` not followed by an
`erase(k)`, and the absent optional for a key never inserted (or last
erased). -/
theorem claim_C2_lookup_functional (ops : List Op) (k : Int) :
    ∃ t, applyOps ops = some t ∧ lookup k t = specLookup ops k := by
  obtain ⟨t, n, heq, hb, hs, hin⟩ := applyOps_WF ops
  refine ⟨t, heq, ?_⟩
  rw [lookup_eq_mLookup t hs k, hin, mLookup_listModel]

/-- C3 counterexample: the state reached right after `upgrade()`
executes `shared.unlock()` (the first of its two statements) holds the
mutex in no mode at all, refuting "no intervening window in which the
thread holds neither lock". -/
theorem claim_C3_counterexample :
    ∃ s, s ∈ UpgradeLock.start.upgradeStates ∧ s.fullyUnlocked = true :=
  ⟨⟨false, false⟩, by decide, by decide⟩

/-- C3 (amended): `UpgradeLock` starts a descent step holding the
shared lock and `upgrade()` ends holding the exclusive lock on the
same mutex, but it releases the shared hold before acquiring the
exclusive one, so the transition passes through a fully-unlocked
intermediate state. -/
theorem claim_C3_upgrade_window :
    UpgradeLock.start.shared = true ∧ UpgradeLock.start.unique = false ∧
    UpgradeLock.start.upgradeStates = [⟨false, false⟩, ⟨false, true⟩] ∧
    (⟨false, false⟩ : UpgradeLock).fullyUnlocked = true ∧
    (⟨false, true⟩ : UpgradeLock).fullyUnlocked = false ∧
    (⟨false, true⟩ : UpgradeLock).unique = true := by
  decide

/-- C4 (code bug): inserting key 5 into the tree holding only key 10,
the descent reaches the sentinel and the upgrade-and-attach acquires
the exclusive lock on the sentinel object (`lock_x` wraps `x == NIL`
at that point), never on the last visited real node (the root, which
is the attach parent), diverging from the spec sentence "upgrade the
last visited real node's lock to exclusive". -/
theorem claim_C4_upgrade_targets_sentinel :
    insertTr 5 (.node .BLACK 10 10 .nil .nil)
      = [.acqS (.pos []), .acqS .sentinel, .relS (.pos []),
         .relS .sentinel, .acqX .sentinel, .relX .sentinel] ∧
    LEv.acqX (.pos []) ∉ insertTr 5 (.node .BLACK 10 10 .nil .nil) ∧
    LEv.acqX .sentinel ∈ insertTr 5 (.node .BLACK 10 10 .nil .nil) := by
  decide

/-- C5 counterexample: a RED-rooted singleton passes `validate` though
invariant 2 (BLACK root) fails, and a locally-ordered but globally
unordered tree passes `validate` though invariant 6 (BST order) fails:
`validate` is not equivalent to invariants 1-6. -/
theorem claim_C5_counterexample :
    validate (.node .RED 1 1 .nil .nil) = true ∧
    colorOf (.node .RED 1 1 .nil .nil) ≠ .BLACK ∧
    validate (.node .BLACK 10 10
      (.node .BLACK 5 5 .nil (.node .RED 20 20 .nil .nil))
      (.node .BLACK 30 30 .nil .nil)) = true ∧
    ¬SortedT (.node .BLACK 10 10
      (.node .BLACK 5 5 .nil (.node .RED 20 20 .nil .nil))
      (.node .BLACK 30 30 .nil .nil)) := by
  refine ⟨by decide, by decide, by decide, ?_⟩
  show ¬List.Pairwise (· < ·) (keys (.node .BLACK 10 10
    (.node .BLACK 5 5 .nil (.node .RED 20 20 .nil .nil))
    (.node .BLACK 30 30 .nil .nil)))
  decide

/-- C5 (amended): `validate` is exactly the conjunction of the
no-RED-RED check, the per-node local order check (each node against
its non-sentinel children only), and the equal-BLACK-count check; it
does not check the root's color nor full BST order. -/
theorem claim_C5_validate_characterization (t : Tree) :
    validate t = (noRedRedB t && localOrdB t && (bhChk t).isSome) :=
  validate_eq_checks t

/-- C6 counterexample: on a tree state that even passes `validate`,
`erase 20` returns `false` and changes nothing although key 20 is
present (the descent is comparator-guided and the tree is not a BST),
refuting the unrestricted "for every tree state ... erase returns true
exactly when present". -/
theorem claim_C6_counterexample :
    erase 20 (.node .BLACK 10 10
      (.node .BLACK 5 5 .nil (.node .RED 20 20 .nil .nil))
      (.node .BLACK 30 30 .nil .nil))
      = some (false, .node .BLACK 10 10
        (.node .BLACK 5 5 .nil (.node .RED 20 20 .nil .nil))
        (.node .BLACK 30 30 .nil .nil)) ∧
    (20 : Int) ∈ keys (.node .BLACK 10 10
      (.node .BLACK 5 5 .nil (.node .RED 20 20 .nil .nil))
      (.node .BLACK 30 30 .nil .nil)) ∧
    validate (.node .BLACK 10 10
      (.node .BLACK 5 5 .nil (.node .RED 20 20 .nil .nil))
      (.node .BLACK 30 30 .nil .nil)) = true := by
  decide

/-- C6 (amended): on every BST state, `erase k` reports `true` exactly
when `k` is present, and a `false` report leaves the tree completely
unchanged, node for node. -/
theorem claim_C6_erase_absent (t : Tree) (k : Int) (hs : SortedT t) (b : Bool)
    (t2 : Tree) (h : erase k t = some (b, t2)) :
    (b = true ↔ k ∈ keys t) ∧ (b = false → t2 = t) := by
  refine ⟨(eraseGo_inorder k t [] b t2 hs h).2, ?_⟩
  intro hb
  subst hb
  exact eraseGo_false k t [] t2 h

/-- Witness for C6: erasing the absent key 5 from the singleton tree
`{10}` returns `false` and the very same tree. -/
theorem claim_C6_witness :
    (false = true ↔ (5 : Int) ∈ keys (.node .BLACK 10 10 .nil .nil)) ∧
    (false = false → (Tree.node .BLACK 10 10 .nil .nil) = .node .BLACK 10 10 .nil .nil) :=
  claim_C6_erase_absent (.node .BLACK 10 10 .nil .nil) 5
    (by show List.Pairwise (· < ·) (keys (.node .BLACK 10 10 .nil .nil)); decide)
    false (.node .BLACK 10 10 .nil .nil) rfl

/-- C7: during a `lookup` traversal and during the descent phase of
`insert`, every lock event is well-formed and the set of node locks
held never exceeds two (child acquired before the current node is
released). -/
theorem claim_C7_two_lock_bound (k : Int) (t : Tree) :
    heldBounded 2 [] (lookupTr k t) = true ∧
    heldBounded 2 [] (insertTr k t) = true := by
  constructor
  · show heldBounded 2 [] (.acqS (tid t []) :: lookupTrGo k t []) = true
    simp [heldBounded, stepEv, lookupTrGo_bounded k t []]
  · show heldBounded 2 [] (.acqS (tid t []) :: insertTrGo k t []) = true
    simp [heldBounded, stepEv, insertTrGo_bounded k t []]

/-- C8: the Ordered Multi-Lock Guard sorts the handed-in nodes by
`lock_id`, removes duplicates, and acquires each distinct node exactly
once in strictly increasing order; the deadlock-safe descent couples
child-then-parent when the parent's id precedes the child's and
otherwise runs the guard on the two nodes before releasing the
parent's individual lock. -/
theorem claim_C8_ordered_guard (nodes : List Nat) (cid nid : Nat) :
    List.Pairwise (· < ·) (orderedLockGuardOrder nodes) ∧
    (∀ x, x ∈ orderedLockGuardOrder nodes ↔ x ∈ nodes) ∧
    (cid < nid → descStep cid nid = [.acqS nid, .relS cid]) ∧
    (¬cid < nid →
      descStep cid nid
        = (orderedLockGuardOrder [cid, nid]).map EV2.acqS ++ [.relS cid, .acqS nid]
          ++ ((orderedLockGuardOrder [cid, nid]).reverse.map EV2.relS)) := by
  refine ⟨orderedLockGuardOrder_sorted nodes,
    fun x => orderedLockGuardOrder_mem nodes x, ?_, ?_⟩
  · intro h
    simp [descStep, h]
  · intro h
    simp [descStep, h]

/-- Witness for C8: the guard on `[7, 3, 7, 5]` acquires in strictly
increasing order and contains 7; the reversed-order descent from node
5 to node 3 runs the guard on the pair. -/
theorem claim_C8_witness :
    List.Pairwise (· < ·) (orderedLockGuardOrder [7, 3, 7, 5]) ∧
    (7 : Nat) ∈ orderedLockGuardOrder [7, 3, 7, 5] ∧
    descStep 5 3
      = (orderedLockGuardOrder [5, 3]).map EV2.acqS ++ [.relS 5, .acqS 3]
        ++ ((orderedLockGuardOrder [5, 3]).reverse.map EV2.relS) :=
  ⟨(claim_C8_ordered_guard [7, 3, 7, 5] 5 3).1,
   ((claim_C8_ordered_guard [7, 3, 7, 5] 5 3).2.1 7).mpr (by decide),
   (claim_C8_ordered_guard [5, 3] 5 3).2.2.2 (by decide)⟩

/-- C9: on every sequential operation sequence the lock-coupled tree,
the coarse-grained tree and the epoch-based tree produce structurally
equal trees, and on every tree state their `lookup`, `insert` and
`erase` return identical results. -/
theorem claim_C9_variant_agreement (ops : List Op) :
    applyOpsRF ops = applyOps ops ∧ applyOpsEP ops = applyOps ops ∧
    (∀ (k v : Int) (t : Tree),
      racefree.lookup k t = lookup k t ∧ simple_rbt.lookup k t = lookup k t ∧
      racefree.insert k v t = insert k v t ∧ simple_rbt.insert k v t = insert k v t ∧
      racefree.erase k t = erase k t ∧ simple_rbt.erase k t = erase k t) := by
  refine ⟨applyOpsRF_eq ops, applyOpsEP_eq ops, fun k v t => ?_⟩
  exact ⟨rf_lookup_eq k t, ep_lookup_eq k t, rf_insert_eq k v t, ep_insert_eq k v t,
    rf_erase_eq k t, ep_erase_eq k t⟩

/-- C10: every operation sequence leaves the sentinel's key, value,
color, and children at their construction-time values, while `erase`
can rewrite the sentinel's parent field (exhibited by inserting then
erasing key 1, which routes a `transplant` with a sentinel replacement
child). -/
theorem claim_C10_sentinel_frame (ops : List Op) (t : Tree) (nn : NilNode)
    (heq : applyOpsNil ops = some (t, nn)) :
    (nn.key = 0 ∧ nn.val = 0 ∧ nn.color = .BLACK ∧
      nn.left = .null ∧ nn.right = .null) ∧
    ∃ (t2 : Tree) (nn2 : NilNode),
      applyOpsNil [.ins 1 1, .del 1] = some (t2, nn2) ∧
      nn2.parent ≠ NilNode.start.parent := by
  constructor
  · exact applyOpsNil_frame ops (Tree.nil, NilNode.start)
      ⟨rfl, rfl, rfl, rfl, rfl⟩ t nn heq
  · refine ⟨Tree.nil, ⟨0, 0, .BLACK, .nilSelf, .null, .null⟩, ?_, by decide⟩
    simp [applyOpsNil, List.foldlM, insert, insertGo, insert_fixup, erase, eraseGo,
      eraseAt, delete_fixup, erase_nilw, eraseGo_nilw, eraseAt_nilw,
      delete_fixup_nilw, applyNilWrite, parentAddr, paintBlack, plug, NilNode.start]

/-- Witness for C10: the two-operation run insert 1 then erase 1
empties the tree and ends with the sentinel's constant fields intact
while its parent points at the sentinel itself. -/
theorem claim_C10_witness :
    ((⟨0, 0, .BLACK, .nilSelf, .null, .null⟩ : NilNode).key = 0 ∧
      (⟨0, 0, .BLACK, .nilSelf, .null, .null⟩ : NilNode).val = 0 ∧
      (⟨0, 0, .BLACK, .nilSelf, .null, .null⟩ : NilNode).color = .BLACK ∧
      (⟨0, 0, .BLACK, .nilSelf, .null, .null⟩ : NilNode).left = .null ∧
      (⟨0, 0, .BLACK, .nilSelf, .null, .null⟩ : NilNode).right = .null) ∧
    ∃ (t2 : Tree) (nn2 : NilNode),
      applyOpsNil [.ins 1 1, .del 1] = some (t2, nn2) ∧
      nn2.parent ≠ NilNode.start.parent :=
  claim_C10_sentinel_frame [.ins 1 1, .del 1] Tree.nil
    ⟨0, 0, .BLACK, .nilSelf, .null, .null⟩
    (by simp [applyOpsNil, List.foldlM, insert, insertGo, insert_fixup, erase, eraseGo,
      eraseAt, delete_fixup, erase_nilw, eraseGo_nilw, eraseAt_nilw,
      delete_fixup_nilw, applyNilWrite, parentAddr, paintBlack, plug, NilNode.start])

end RBT
